import Mathlib

/-!
# Ruleset engine of `rulelib.c`

A shallow embedding of the ordered rule list of `src/c/rulelib.c` and of its
structural mutators (`ruleset_init`, `ruleset_add`, `ruleset_delete`,
`ruleset_swap`, `ruleset_swap_any`), of `ruleset_backup` and of
`pick_random_rule`, followed by theorems about them.

Conventions of the embedding.

* The sample count `n_samples` is the index `n` of every bit-vector type.
* The entry array `rs->rules[0 .. n_rules-1]` is a list, so `n_rules` is its
  length; `n_alloc` is kept as a field.
* A C function that stops at a failed `assert`, or that reads the entry array
  outside `[0, n_rules)`, yields `none`; a normal return yields `some`.
* Allocation is assumed to succeed (the `ENOMEM` paths are not modelled).
* The retry loop of `pick_random_rule` takes a bound on its number of passes
  and the stream of its random draws; `none` means it has not returned within
  the bound.
-/

namespace Rulelib

/-! ## Bit vectors -/

/-- Modelled from the spec: the bit-vector capability (`bit_vector.h` is not
among the sources). A fixed-length boolean vector over the sample index space
`0 .. n-1` is represented by the set of indices whose bit is set. -/
abbrev bit_vector_t (n : Nat) := Finset (Fin n)

/-- Modelled from the spec: allocation of a bit vector; a fresh vector has no
bit set. -/
def bit_vector_init (n : Nat) : bit_vector_t n := ∅

/-- Modelled from the spec: set-all. -/
def bit_vector_set_all {n : Nat} (_v : bit_vector_t n) : bit_vector_t n := Finset.univ

/-- Modelled from the spec: AND, `dest = a & b`. -/
def bit_vector_and {n : Nat} (a b : bit_vector_t n) : bit_vector_t n := a ∩ b

/-- Modelled from the spec: AND (`_safe` variant, operands may alias). -/
def bit_vector_and_safe {n : Nat} (a b : bit_vector_t n) : bit_vector_t n := a ∩ b

/-- Modelled from the spec: OR, `dest |= src`. -/
def bit_vector_or_eq {n : Nat} (dest src : bit_vector_t n) : bit_vector_t n := dest ∪ src

/-- Modelled from the spec: OR (`_safe` variant), `dest = a | b`. -/
def bit_vector_or_safe {n : Nat} (a b : bit_vector_t n) : bit_vector_t n := a ∪ b

/-- Modelled from the spec: AND-NOT, `dest &= ~src`. -/
def bit_vector_and_eq_not {n : Nat} (dest src : bit_vector_t n) : bit_vector_t n := dest \ src

/-- Modelled from the spec: AND-NOT (`_safe` variant), `dest = a & ~b`. -/
def bit_vector_and_not_safe {n : Nat} (a b : bit_vector_t n) : bit_vector_t n := a \ b

/-- Modelled from the spec: OR-of-AND, `dest |= (a & b)`. -/
def bit_vector_or_eq_and {n : Nat} (dest a b : bit_vector_t n) : bit_vector_t n :=
  dest ∪ (a ∩ b)

/-- Modelled from the spec: population count. -/
def bit_vector_n_ones {n : Nat} (v : bit_vector_t n) : Nat := v.card

/-! ## Data model -/

/-- Modelled from the spec: an entry of the rule table (`rule.h` is not among
the sources): the truth table of the rule and its display label. -/
structure rule_data_t (n : Nat) where
  truthtable : bit_vector_t n
  feature_str : String

/-- The rule table `rule_data_t *rules`: the C code indexes it by rule
identifier without any bound, so it is a map from identifiers to rules. -/
abbrev rule_table (n : Nat) := Nat → rule_data_t n

/-- An entry of a ruleset: `rulelist_entry_t`. -/
structure rulelist_entry_t (n : Nat) where
  rule_id : Nat
  captures : bit_vector_t n

instance instDecidableEqEntry {n : Nat} : DecidableEq (rulelist_entry_t n) := fun a b =>
  decidable_of_iff (a.rule_id = b.rule_id ∧ a.captures = b.captures)
    (by cases a; cases b; simp)

/-- A ruleset: `rulelist_t`, with `rules[0 .. n_rules-1]` as a list. -/
structure rulelist_t (n : Nat) where
  n_alloc : Nat
  rules : List (rulelist_entry_t n)

instance instDecidableEqRulelist {n : Nat} : DecidableEq (rulelist_t n) := fun a b =>
  decidable_of_iff (a.n_alloc = b.n_alloc ∧ a.rules = b.rules)
    (by cases a; cases b; simp)

/-- Equality of optional results, decided on the payload. -/
instance instDecidableEqOptionRulelist {n : Nat} : DecidableEq (Option (rulelist_t n))
  | none, none => isTrue rfl
  | none, some _ => isFalse (by simp)
  | some _, none => isFalse (by simp)
  | some a, some b => decidable_of_iff (a = b) (by simp)

/-- The field `n_rules`. -/
def rulelist_t.n_rules {n : Nat} (rs : rulelist_t n) : Nat := rs.rules.length

/-- The field `n_samples`. -/
def rulelist_t.n_samples {n : Nat} (_rs : rulelist_t n) : Nat := n

/-! ## `ruleset_init` -/

/-- The loop of `ruleset_init` (lines 73-86), started at position `i` with the
ids `idarray[i ..]` still to process and the running `not_captured`: returns
the entries it creates and the final `not_captured`. -/
def ruleset_init_loop {n : Nat} (rules : rule_table n) :
    List Nat → bit_vector_t n → List (rulelist_entry_t n) × bit_vector_t n
  | [], not_captured => ([], not_captured)
  | id :: ids, not_captured =>
    let captures := bit_vector_and not_captured (rules id).truthtable
    let not_captured := bit_vector_and_eq_not not_captured captures
    let r := ruleset_init_loop rules ids not_captured
    ({ rule_id := id, captures := captures } :: r.1, r.2)

/-- `ruleset_init(nrs_rules, n_samples, idarray, rules)`, with `nrs_rules` the
length of `idarray`: the sweep, then `assert(bit_vector_n_ones(not_captured) == 0)`. -/
def ruleset_init {n : Nat} (idarray : List Nat) (rules : rule_table n) :
    Option (rulelist_t n) :=
  let not_captured := bit_vector_set_all (bit_vector_init n)
  let r := ruleset_init_loop rules idarray not_captured
  if bit_vector_n_ones r.2 = 0 then
    some { n_alloc := idarray.length, rules := r.1 }
  else none

/-! ## `ruleset_backup` -/

/-- `ruleset_backup`: the ids of the entries, in list order. -/
def ruleset_backup {n : Nat} (rs : rulelist_t n) : List Nat :=
  rs.rules.map (fun e => e.rule_id)

/-! ## `ruleset_add` -/

/-- The first loop of `ruleset_add` (lines 186-190) over the entries at
positions `ndx ..`: `not_caught |= captures`. -/
def ruleset_add_collect {n : Nat} :
    List (rulelist_entry_t n) → bit_vector_t n → bit_vector_t n
  | [], not_caught => not_caught
  | e :: es, not_caught => ruleset_add_collect es (bit_vector_or_eq not_caught e.captures)

/-- The second loop of `ruleset_add` (lines 211-221) over the entries at
positions `ndx ..`: every entry gets `not_caught & truthtable`, which is then
removed from `not_caught`. Returns the new entries and the final `not_caught`. -/
def ruleset_add_loop {n : Nat} (rules : rule_table n) :
    List (rulelist_entry_t n) → bit_vector_t n → List (rulelist_entry_t n) × bit_vector_t n
  | [], not_caught => ([], not_caught)
  | cur_re :: es, not_caught =>
    let captures := bit_vector_and not_caught (rules cur_re.rule_id).truthtable
    let not_caught := bit_vector_and_eq_not not_caught captures
    let r := ruleset_add_loop rules es not_caught
    ({ cur_re with captures := captures } :: r.1, r.2)

/-- The body of `ruleset_add` up to its assertion, for `ndx <= n_rules`: the
ruleset after the second loop, and the final `not_caught`. -/
def ruleset_add_sweep {n : Nat} (rules : rule_table n) (rs : rulelist_t n)
    (newrule ndx : Nat) : rulelist_t n × bit_vector_t n :=
  let n_alloc := if rs.n_alloc < rs.n_rules + 1 then rs.n_rules + 1 else rs.n_alloc
  let not_caught := ruleset_add_collect (rs.rules.drop ndx) (bit_vector_init n)
  let shifted := rs.rules.take ndx ++
    { rule_id := newrule, captures := bit_vector_init n } :: rs.rules.drop ndx
  let r := ruleset_add_loop rules (shifted.drop ndx) not_caught
  ({ n_alloc := n_alloc, rules := shifted.take ndx ++ r.1 }, r.2)

/-- `ruleset_add(rules, &rs, newrule, ndx)`: the new ruleset, or `none` when
`ndx > n_rules` (the C code then reads and writes outside the array) or when
`assert(bit_vector_n_ones(not_caught) == 0)` fails. -/
def ruleset_add {n : Nat} (rules : rule_table n) (rs : rulelist_t n)
    (newrule ndx : Nat) : Option (rulelist_t n) :=
  if ndx ≤ rs.n_rules then
    let r := ruleset_add_sweep rules rs newrule ndx
    if bit_vector_n_ones r.2 = 0 then some r.1 else none
  else none

/-! ## `ruleset_delete` -/

/-- The loop of `ruleset_delete` (lines 239-256) over the entries at positions
`ndx+1 ..`, with the running `old_re->captures`: returns the new entries and
what is left of `old_re->captures`. -/
def ruleset_delete_loop {n : Nat} (rules : rule_table n) :
    List (rulelist_entry_t n) → bit_vector_t n → List (rulelist_entry_t n) × bit_vector_t n
  | [], old_captures => ([], old_captures)
  | cur_re :: es, old_captures =>
    let captures :=
      bit_vector_or_eq_and cur_re.captures (rules cur_re.rule_id).truthtable old_captures
    let old_captures := bit_vector_and_eq_not old_captures captures
    let r := ruleset_delete_loop rules es old_captures
    ({ cur_re with captures := captures } :: r.1, r.2)

/-- `ruleset_delete(rules, rs, ndx)`: the new ruleset, or `none` when `ndx` is
not an existing position (the C code then reads outside the array). -/
def ruleset_delete {n : Nat} (rules : rule_table n) (rs : rulelist_t n) (ndx : Nat) :
    Option (rulelist_t n) :=
  match rs.rules.drop ndx with
  | [] => none
  | old_re :: later =>
    let r := ruleset_delete_loop rules later old_re.captures
    some { rs with rules := rs.rules.take ndx ++ r.1 }

/-- What is left of the deleted entry's captures when the loop of
`ruleset_delete` ends (the value of `old_re->captures` at line 259). -/
def ruleset_delete_leftover {n : Nat} (rules : rule_table n) (rs : rulelist_t n)
    (ndx : Nat) : Option (bit_vector_t n) :=
  match rs.rules.drop ndx with
  | [] => none
  | old_re :: later => some (ruleset_delete_loop rules later old_re.captures).2

/-! ## `ruleset_swap` -/

/-- `ruleset_swap(rs, i, j, rules)`: `none` when one of the three assertions
fails. -/
def ruleset_swap {n : Nat} (rs : rulelist_t n) (i j : Nat) (rules : rule_table n) :
    Option (rulelist_t n) :=
  if i < rs.n_rules - 1 ∧ j < rs.n_rules - 1 ∧ i + 1 = j then
    match rs.rules[i]?, rs.rules[j]? with
    | some re_i, some re_j =>
      let tmp_vec := bit_vector_and_safe re_i.captures (rules re_j.rule_id).truthtable
      let re_j := { re_j with captures := bit_vector_or_safe re_j.captures tmp_vec }
      let re_i := { re_i with captures := bit_vector_and_not_safe re_i.captures re_j.captures }
      some { rs with rules := (rs.rules.set i re_j).set j re_i }
    | _, _ => none
  else none

/-! ## `ruleset_swap_any` -/

/-- The first loop of `ruleset_swap_any` (lines 384-385) over the entries of
the window: `caught |= captures`. -/
def ruleset_swap_any_collect {n : Nat} :
    List (rulelist_entry_t n) → bit_vector_t n → bit_vector_t n
  | [], caught => caught
  | e :: es, caught => ruleset_swap_any_collect es (bit_vector_or_safe caught e.captures)

/-- The second loop of `ruleset_swap_any` (lines 393-404) over the entries of
the window, with the running `caught` and `cnt_check`: returns the new
entries, the final `caught` and the final `cnt_check`. -/
def ruleset_swap_any_loop {n : Nat} (rules : rule_table n) :
    List (rulelist_entry_t n) → bit_vector_t n → Nat →
      List (rulelist_entry_t n) × bit_vector_t n × Nat
  | [], caught, cnt_check => ([], caught, cnt_check)
  | re_k :: es, caught, cnt_check =>
    let captures := bit_vector_and_safe caught (rules re_k.rule_id).truthtable
    let cnt_check := cnt_check + bit_vector_n_ones captures
    let caught := bit_vector_and_not_safe caught captures
    let r := ruleset_swap_any_loop rules es caught cnt_check
    ({ re_k with captures := captures } :: r.1, r.2)

/-- The entries of a ruleset with the rule ids at positions `i` and `j`
exchanged and the captures left in place (lines 388-390). -/
def swap_rule_ids {n : Nat} (l : List (rulelist_entry_t n)) (i j : Nat) :
    List (rulelist_entry_t n) :=
  match l[i]?, l[j]? with
  | some re_i, some re_j =>
    (l.set i { re_i with rule_id := re_j.rule_id }).set j { re_j with rule_id := re_i.rule_id }
  | _, _ => l

/-- The body of `ruleset_swap_any` for `i < j < n_rules`, up to its final
assertions: the ruleset after the re-sweep of the window, the final `caught`,
`cnt` and `cnt_check`. -/
def ruleset_swap_any_sweep {n : Nat} (rs : rulelist_t n) (i j : Nat) (rules : rule_table n) :
    rulelist_t n × bit_vector_t n × Nat × Nat :=
  let caught := ruleset_swap_any_collect ((rs.rules.drop i).take (j + 1 - i)) (bit_vector_init n)
  let cnt := bit_vector_n_ones caught
  let swapped := swap_rule_ids rs.rules i j
  let r := ruleset_swap_any_loop rules ((swapped.drop i).take (j + 1 - i)) caught 0
  ({ rs with rules := swapped.take i ++ r.1 ++ swapped.drop (j + 1) }, r.2.1, cnt, r.2.2)

/-- `ruleset_swap_any(rs, i, j, rules)`: `none` when an assertion fails. -/
def ruleset_swap_any {n : Nat} (rs : rulelist_t n) (i j : Nat) (rules : rule_table n) :
    Option (rulelist_t n) :=
  if i = j then some rs
  else if i < rs.n_rules ∧ j < rs.n_rules then
    let lo := if i > j then j else i
    let hi := if i > j then i else j
    let r := ruleset_swap_any_sweep rs lo hi rules
    if bit_vector_n_ones r.2.1 = 0 ∧ r.2.2.1 = r.2.2.2 then some r.1 else none
  else none

/-! ## `pick_random_rule` -/

/-- The constant `MAX_TRIES`. -/
def MAX_TRIES : Nat := 10

/-- The loop of `pick_random_rule` (label `pickrule`, lines 309-321), entered
with the current `cnt` and `new_rule`. The macro `RANDOM_RANGE` is not among
the sources: `draws k` is the value of its evaluation when `cnt = k` (the loop
draws once per pass while `cnt < MAX_TRIES`, and `cnt` counts the passes).
`fuel` bounds the number of passes; `none` means that the loop has not
returned within `fuel` passes. The arithmetic is that of C on the
non-negative values that occur when `n_rules >= 3`. -/
def pick_random_rule_loop {n : Nat} (n_rules : Nat) (rs : rulelist_t n) (draws : Nat → Nat) :
    Nat → Nat → Nat → Option Nat
  | 0, _, _ => none
  | fuel + 1, cnt, new_rule =>
    let new_rule :=
      if cnt < MAX_TRIES then draws cnt else 1 + (new_rule % (n_rules - 2))
    if rs.rules.any (fun e => e.rule_id == new_rule) then
      pick_random_rule_loop n_rules rs draws fuel (cnt + 1) new_rule
    else some new_rule

/-- `pick_random_rule(n_rules, rs)`: the loop entered with `cnt = 0` and
`new_rule = 1`. -/
def pick_random_rule {n : Nat} (fuel : Nat) (n_rules : Nat) (rs : rulelist_t n)
    (draws : Nat → Nat) : Option Nat :=
  pick_random_rule_loop n_rules rs draws fuel 0 1

/-! ## A concrete rule table -/

/-- Four samples; rule 0 is the default rule, rule 1 matches `{0,1}`, rule 2
matches `{1,2}`, every other rule matches nothing. -/
def rules4 : rule_table 4 := fun id =>
  match id with
  | 0 => { truthtable := Finset.univ, feature_str := "default" }
  | 1 => { truthtable := {0, 1}, feature_str := "A" }
  | 2 => { truthtable := {1, 2}, feature_str := "B" }
  | _ => { truthtable := ∅, feature_str := "" }

/-- The ruleset of order `[A, B, D]` (rules 1, 2, 0) on the four-sample table,
as `ruleset_init` builds it. -/
def rs_abd : rulelist_t 4 := ⟨3, [⟨1, {0, 1}⟩, ⟨2, {2}⟩, ⟨0, {3}⟩]⟩

/-- The ruleset of order `[A, D]` (rules 1, 0) on the four-sample table, as
`ruleset_init` builds it. -/
def rs_ad : rulelist_t 4 := ⟨2, [⟨1, {0, 1}⟩, ⟨0, {2, 3}⟩]⟩

/-! ## Predicates of the specification -/

/-- Union of the captures of a list of entries. -/
def captures_union {n : Nat} (l : List (rulelist_entry_t n)) : bit_vector_t n :=
  l.foldr (fun e acc => e.captures ∪ acc) ∅

/-- The captures of the entries are pairwise disjoint. -/
def captures_disjoint {n : Nat} (l : List (rulelist_entry_t n)) : Prop :=
  ∀ (i : Nat) (hi : i < l.length) (j : Nat) (hj : j < l.length), i ≠ j →
    Disjoint (l[i]).captures (l[j]).captures

/-- Full coverage: the union of the captures is the whole sample set. -/
def full_coverage {n : Nat} (rs : rulelist_t n) : Prop :=
  captures_union rs.rules = Finset.univ

/-- The partition invariant of the specification: the captures are pairwise
disjoint and their union is the full sample set. -/
def partition_invariant {n : Nat} (rs : rulelist_t n) : Prop :=
  captures_disjoint rs.rules ∧ full_coverage rs

/-- The first-match invariant of the specification: for every position `i`,
`captures[i] = truthtable[rule_id[i]] ∩ complement(captures[0] ∪ ... ∪ captures[i-1])`. -/
def first_match_invariant {n : Nat} (rules : rule_table n) (rs : rulelist_t n) : Prop :=
  ∀ (i : Nat) (hi : i < rs.rules.length),
    (rs.rules[i]).captures =
      (rules (rs.rules[i]).rule_id).truthtable ∩ (captures_union (rs.rules.take i))ᶜ

/-- A rule is a default rule when its truth table matches every sample. -/
def is_default_rule {n : Nat} (rules : rule_table n) (id : Nat) : Prop :=
  (rules id).truthtable = Finset.univ

instance instDecidableCapturesDisjoint {n : Nat} (l : List (rulelist_entry_t n)) :
    Decidable (captures_disjoint l) := by
  unfold captures_disjoint; infer_instance

instance instDecidableFullCoverage {n : Nat} (rs : rulelist_t n) :
    Decidable (full_coverage rs) := by
  unfold full_coverage; infer_instance

instance instDecidablePartition {n : Nat} (rs : rulelist_t n) :
    Decidable (partition_invariant rs) := by
  unfold partition_invariant; infer_instance

instance instDecidableFirstMatch {n : Nat} (rules : rule_table n) (rs : rulelist_t n) :
    Decidable (first_match_invariant rules rs) := by
  unfold first_match_invariant; infer_instance

instance instDecidableIsDefault {n : Nat} (rules : rule_table n) (id : Nat) :
    Decidable (is_default_rule rules id) := by
  unfold is_default_rule; infer_instance


/-- The id sequence `ids` with the ids at positions `i` and `j` exchanged. -/
def exchange_ids (ids : List Nat) (i j : Nat) : List Nat :=
  match ids[i]?, ids[j]? with
  | some a, some b => (ids.set i b).set j a
  | _, _ => ids

/-- Ruleset states reachable from `ruleset_init` on a duplicate-free id list
ending in rule 0, by `ruleset_add` (position in `[0, n_rules]`, new id not in
the list), `ruleset_delete` (an existing position allowed by `may_delete`),
`ruleset_swap` (adjacent positions within the asserted bounds) and
`ruleset_swap_any` (two existing positions). -/
inductive reachable_with {n : Nat} (rules : rule_table n)
    (may_delete : rulelist_t n → Nat → Prop) : rulelist_t n → Prop
  | init (idarray : List Nat) (rs : rulelist_t n) :
      idarray.Nodup → idarray.getLast? = some 0 →
      ruleset_init idarray rules = some rs → reachable_with rules may_delete rs
  | add (rs rs' : rulelist_t n) (newrule ndx : Nat) :
      reachable_with rules may_delete rs →
      ndx ≤ rs.n_rules → newrule ∉ ruleset_backup rs →
      ruleset_add rules rs newrule ndx = some rs' → reachable_with rules may_delete rs'
  | delete (rs rs' : rulelist_t n) (ndx : Nat) :
      reachable_with rules may_delete rs →
      ndx < rs.n_rules → may_delete rs ndx →
      ruleset_delete rules rs ndx = some rs' → reachable_with rules may_delete rs'
  | swap (rs rs' : rulelist_t n) (i j : Nat) :
      reachable_with rules may_delete rs →
      i + 1 = j → i < rs.n_rules - 1 → j < rs.n_rules - 1 →
      ruleset_swap rs i j rules = some rs' → reachable_with rules may_delete rs'
  | swap_any (rs rs' : rulelist_t n) (i j : Nat) :
      reachable_with rules may_delete rs →
      i < rs.n_rules → j < rs.n_rules →
      ruleset_swap_any rs i j rules = some rs' → reachable_with rules may_delete rs'

/-- Reachable states, every existing position being open to `ruleset_delete`. -/
def reachable {n : Nat} (rules : rule_table n) (rs : rulelist_t n) : Prop :=
  reachable_with rules (fun _ _ => True) rs

/-- Reachable states when `ruleset_delete` is never applied to the entry of the
default rule 0. -/
def reachable_keeping_default {n : Nat} (rules : rule_table n) (rs : rulelist_t n) : Prop :=
  reachable_with rules
    (fun rs ndx => ∀ e : rulelist_entry_t n, rs.rules[ndx]? = some e → e.rule_id ≠ 0) rs

/-- A rule only captures samples it matches: for every entry,
`captures ⊆ truthtable[rule_id]`. -/
def captures_matched {n : Nat} (rules : rule_table n) (l : List (rulelist_entry_t n)) : Prop :=
  ∀ e ∈ l, e.captures ⊆ (rules e.rule_id).truthtable

instance instDecidableCapturesMatched {n : Nat} (rules : rule_table n)
    (l : List (rulelist_entry_t n)) : Decidable (captures_matched rules l) := by
  unfold captures_matched; infer_instance

/-- `ruleset_backup(rs, &rs_idarray)` as a step on the pair of the ruleset and
of the caller's id array: the ruleset as it is after the call (the function
only reads it), the new contents of `*rs_idarray`, and the return value 0. -/
def ruleset_backup_step {n : Nat} (rs : rulelist_t n) (_rs_idarray : List Nat) :
    rulelist_t n × List Nat × Nat :=
  (rs, ruleset_backup rs, 0)

/-! ## Unions of captures -/

theorem captures_union_nil {n : Nat} :
    captures_union ([] : List (rulelist_entry_t n)) = ∅ := rfl

theorem captures_union_cons {n : Nat} (e : rulelist_entry_t n) (l : List (rulelist_entry_t n)) :
    captures_union (e :: l) = e.captures ∪ captures_union l := rfl

theorem mem_captures_union {n : Nat} (l : List (rulelist_entry_t n)) (s : Fin n) :
    s ∈ captures_union l ↔ ∃ e ∈ l, s ∈ e.captures := by
  induction l with
  | nil => simp [captures_union_nil]
  | cons e l ih => simp [captures_union_cons, ih]

theorem captures_union_append {n : Nat} (a b : List (rulelist_entry_t n)) :
    captures_union (a ++ b) = captures_union a ∪ captures_union b := by
  ext s
  simp only [mem_captures_union, List.mem_append, Finset.mem_union]
  constructor
  · rintro ⟨e, he | he, hs⟩
    · exact Or.inl ⟨e, he, hs⟩
    · exact Or.inr ⟨e, he, hs⟩
  · rintro (⟨e, he, hs⟩ | ⟨e, he, hs⟩)
    · exact ⟨e, Or.inl he, hs⟩
    · exact ⟨e, Or.inr he, hs⟩

theorem add_collect_eq {n : Nat} (es : List (rulelist_entry_t n)) (acc : bit_vector_t n) :
    ruleset_add_collect es acc = acc ∪ captures_union es := by
  induction es generalizing acc with
  | nil => simp [ruleset_add_collect, captures_union_nil]
  | cons e es ih =>
    simp [ruleset_add_collect, ih, captures_union_cons, bit_vector_or_eq, Finset.union_assoc]

theorem swap_any_collect_eq {n : Nat} (es : List (rulelist_entry_t n)) (acc : bit_vector_t n) :
    ruleset_swap_any_collect es acc = acc ∪ captures_union es := by
  induction es generalizing acc with
  | nil => simp [ruleset_swap_any_collect, captures_union_nil]
  | cons e es ih =>
    simp [ruleset_swap_any_collect, ih, captures_union_cons, bit_vector_or_safe,
      Finset.union_assoc]

/-! ## The sweep of `ruleset_init` -/

theorem init_loop_nil {n : Nat} (rules : rule_table n) (P : bit_vector_t n) :
    ruleset_init_loop rules [] P = ([], P) := rfl

theorem init_loop_cons {n : Nat} (rules : rule_table n) (id : Nat) (ids : List Nat)
    (P : bit_vector_t n) :
    ruleset_init_loop rules (id :: ids) P =
      (⟨id, P ∩ (rules id).truthtable⟩ ::
          (ruleset_init_loop rules ids (P \ (P ∩ (rules id).truthtable))).1,
        (ruleset_init_loop rules ids (P \ (P ∩ (rules id).truthtable))).2) := rfl

theorem init_loop_ids {n : Nat} (rules : rule_table n) (ids : List Nat) (P : bit_vector_t n) :
    (ruleset_init_loop rules ids P).1.map (fun e => e.rule_id) = ids := by
  induction ids generalizing P with
  | nil => rfl
  | cons id ids ih => simp [init_loop_cons, ih]

theorem init_loop_length {n : Nat} (rules : rule_table n) (ids : List Nat)
    (P : bit_vector_t n) : (ruleset_init_loop rules ids P).1.length = ids.length := by
  have h := congrArg List.length (init_loop_ids rules ids P)
  simpa using h

theorem init_loop_append {n : Nat} (rules : rule_table n) (a b : List Nat)
    (P : bit_vector_t n) :
    ruleset_init_loop rules (a ++ b) P =
      ((ruleset_init_loop rules a P).1 ++
          (ruleset_init_loop rules b (ruleset_init_loop rules a P).2).1,
        (ruleset_init_loop rules b (ruleset_init_loop rules a P).2).2) := by
  induction a generalizing P with
  | nil => simp [init_loop_nil]
  | cons id a ih => simp [init_loop_cons, ih]

theorem mem_init_loop_pool {n : Nat} (rules : rule_table n) (ids : List Nat)
    (P : bit_vector_t n) (s : Fin n) :
    s ∈ (ruleset_init_loop rules ids P).2 ↔
      s ∈ P ∧ ∀ id ∈ ids, s ∉ (rules id).truthtable := by
  induction ids generalizing P with
  | nil => simp [init_loop_nil]
  | cons id ids ih =>
    simp only [init_loop_cons, ih, Finset.mem_sdiff, Finset.mem_inter, List.mem_cons,
      forall_eq_or_imp]
    tauto

theorem mem_init_loop_union {n : Nat} (rules : rule_table n) (ids : List Nat)
    (P : bit_vector_t n) (s : Fin n) :
    s ∈ captures_union (ruleset_init_loop rules ids P).1 ↔
      s ∈ P ∧ ∃ id ∈ ids, s ∈ (rules id).truthtable := by
  induction ids generalizing P with
  | nil => simp [init_loop_nil, captures_union_nil]
  | cons id ids ih =>
    simp only [init_loop_cons, captures_union_cons, ih, Finset.mem_union, Finset.mem_sdiff,
      Finset.mem_inter, List.mem_cons, exists_eq_or_imp]
    tauto

theorem init_loop_pool_eq {n : Nat} (rules : rule_table n) (ids : List Nat)
    (P : bit_vector_t n) :
    (ruleset_init_loop rules ids P).2 = P \ captures_union (ruleset_init_loop rules ids P).1 := by
  ext s
  simp only [mem_init_loop_pool, Finset.mem_sdiff, mem_init_loop_union]
  constructor
  · rintro ⟨hP, h⟩
    exact ⟨hP, fun ⟨_, id, hid, hs⟩ => h id hid hs⟩
  · rintro ⟨hP, h⟩
    exact ⟨hP, fun id hid hs => h ⟨hP, id, hid, hs⟩⟩

theorem init_loop_captures_subset {n : Nat} (rules : rule_table n) (ids : List Nat)
    (P : bit_vector_t n) (e : rulelist_entry_t n)
    (he : e ∈ (ruleset_init_loop rules ids P).1) :
    e.captures ⊆ P ∧ e.captures ⊆ (rules e.rule_id).truthtable := by
  induction ids generalizing P with
  | nil => simp [init_loop_nil] at he
  | cons id ids ih =>
    rw [init_loop_cons] at he
    rcases List.mem_cons.1 he with rfl | he
    · exact ⟨Finset.inter_subset_left, Finset.inter_subset_right⟩
    · obtain ⟨h1, h2⟩ := ih _ he
      exact ⟨h1.trans Finset.sdiff_subset, h2⟩

theorem init_loop_congr {n : Nat} (rules : rule_table n) (ids : List Nat)
    (P Q : bit_vector_t n)
    (h : ∀ id ∈ ids, P ∩ (rules id).truthtable = Q ∩ (rules id).truthtable) :
    (ruleset_init_loop rules ids P).1 = (ruleset_init_loop rules ids Q).1 := by
  induction ids generalizing P Q with
  | nil => rfl
  | cons id ids ih =>
    have h0 := h id (List.mem_cons_self _ _)
    simp only [init_loop_cons, h0, List.cons.injEq, true_and]
    apply ih
    intro id' hid'
    have h1 := h id' (List.mem_cons_of_mem _ hid')
    ext s
    have h1s := Finset.ext_iff.1 h1 s
    have h0s := Finset.ext_iff.1 h0 s
    simp only [Finset.mem_inter, Finset.mem_sdiff] at h1s h0s ⊢
    tauto

theorem add_loop_eq {n : Nat} (rules : rule_table n) (es : List (rulelist_entry_t n))
    (P : bit_vector_t n) :
    ruleset_add_loop rules es P =
      ruleset_init_loop rules (es.map (fun e => e.rule_id)) P := by
  induction es generalizing P with
  | nil => rfl
  | cons e es ih =>
    simp [ruleset_add_loop, init_loop_cons, ih, bit_vector_and, bit_vector_and_eq_not]

theorem swap_any_loop_eq {n : Nat} (rules : rule_table n) (es : List (rulelist_entry_t n))
    (P : bit_vector_t n) (c : Nat) :
    (ruleset_swap_any_loop rules es P c).1 =
        (ruleset_init_loop rules (es.map (fun e => e.rule_id)) P).1 ∧
      (ruleset_swap_any_loop rules es P c).2.1 =
        (ruleset_init_loop rules (es.map (fun e => e.rule_id)) P).2 := by
  induction es generalizing P c with
  | nil => exact ⟨rfl, rfl⟩
  | cons e es ih =>
    simp [ruleset_swap_any_loop, init_loop_cons, ih, bit_vector_and_safe,
      bit_vector_and_not_safe]

/-! ## Disjointness and the first-match invariant -/

theorem captures_disjoint_iff_pairwise {n : Nat} (l : List (rulelist_entry_t n)) :
    captures_disjoint l ↔ l.Pairwise (fun a b => Disjoint a.captures b.captures) := by
  rw [List.pairwise_iff_getElem]
  constructor
  · intro h i j hi hj hij
    exact h i hi j hj (Nat.ne_of_lt hij)
  · intro h i hi j hj hij
    rcases Nat.lt_or_gt_of_ne hij with hlt | hgt
    · exact h i j hi hj hlt
    · exact (h j i hj hi hgt).symm

theorem init_loop_pairwise {n : Nat} (rules : rule_table n) (ids : List Nat)
    (P : bit_vector_t n) :
    (ruleset_init_loop rules ids P).1.Pairwise
      (fun a b => Disjoint a.captures b.captures) := by
  induction ids generalizing P with
  | nil => simp [init_loop_nil]
  | cons id ids ih =>
    rw [init_loop_cons, List.pairwise_cons]
    refine ⟨?_, ih _⟩
    intro e he
    have hsub := (init_loop_captures_subset rules ids _ e he).1
    exact Finset.disjoint_of_subset_right hsub Finset.disjoint_sdiff

theorem swept_iff_index {n : Nat} (rules : rule_table n) (l : List (rulelist_entry_t n))
    (P : bit_vector_t n) :
    (∀ (i : Nat) (hi : i < l.length),
        (l[i]).captures =
          (rules (l[i]).rule_id).truthtable ∩ (P \ captures_union (l.take i))) ↔
      l = (ruleset_init_loop rules (l.map (fun e => e.rule_id)) P).1 := by
  induction l generalizing P with
  | nil => simp [init_loop_nil]
  | cons e l ih =>
    have key : ∀ (i : Nat), P \ captures_union ((e :: l).take (i + 1)) =
        (P \ e.captures) \ captures_union (l.take i) := by
      intro i
      rw [List.take_succ_cons, captures_union_cons, Finset.sdiff_union_distrib]
      ext s; simp only [Finset.mem_inter, Finset.mem_sdiff]; tauto
    constructor
    · intro h
      have h0 := h 0 (Nat.succ_pos _)
      simp only [List.getElem_cons_zero, List.take_zero, captures_union_nil,
        Finset.sdiff_empty] at h0
      have hl : l = (ruleset_init_loop rules (l.map (fun e => e.rule_id)) (P \ e.captures)).1 := by
        apply (ih (P \ e.captures)).1
        intro i hi
        have hi1 := h (i + 1) (Nat.succ_lt_succ hi)
        rw [key] at hi1
        simpa using hi1
      have hcap : P ∩ (rules e.rule_id).truthtable = e.captures := by
        rw [h0, Finset.inter_comm]
      rw [List.map_cons, init_loop_cons, hcap, ← hl]
    · intro h i hi
      rw [List.map_cons, init_loop_cons] at h
      have hinj := List.cons.inj h
      have hcap : e.captures = P ∩ (rules e.rule_id).truthtable := by
        have := congrArg rulelist_entry_t.captures hinj.1
        simpa using this
      have hl : l = (ruleset_init_loop rules (l.map (fun e => e.rule_id)) (P \ e.captures)).1 := by
        have := hinj.2
        rwa [← hcap] at this
      cases i with
      | zero =>
        simp only [List.getElem_cons_zero, List.take_zero, captures_union_nil,
          Finset.sdiff_empty]
        rw [hcap, Finset.inter_comm]
      | succ i =>
        have hi' : i < l.length := Nat.lt_of_succ_lt_succ hi
        have := (ih (P \ e.captures)).2 hl i hi'
        rw [key]
        simpa using this

theorem first_match_iff {n : Nat} (rules : rule_table n) (rs : rulelist_t n) :
    first_match_invariant rules rs ↔
      rs.rules = (ruleset_init_loop rules (ruleset_backup rs) Finset.univ).1 := by
  unfold ruleset_backup
  rw [← swept_iff_index]
  unfold first_match_invariant
  constructor
  · intro h i hi
    rw [h i hi, Finset.compl_eq_univ_sdiff]
  · intro h i hi
    rw [h i hi, Finset.compl_eq_univ_sdiff]

theorem init_loop_take {n : Nat} (rules : rule_table n) (ids : List Nat)
    (P : bit_vector_t n) (i : Nat) :
    (ruleset_init_loop rules ids P).1.take i = (ruleset_init_loop rules (ids.take i) P).1 := by
  induction ids generalizing P i with
  | nil => simp [init_loop_nil]
  | cons id ids ih =>
    cases i with
    | zero => simp [init_loop_nil]
    | succ i => simp [init_loop_cons, ih]

theorem init_loop_drop {n : Nat} (rules : rule_table n) (ids : List Nat)
    (P : bit_vector_t n) (i : Nat) :
    (ruleset_init_loop rules ids P).1.drop i =
      (ruleset_init_loop rules (ids.drop i) (ruleset_init_loop rules (ids.take i) P).2).1 := by
  induction ids generalizing P i with
  | nil => simp [init_loop_nil]
  | cons id ids ih =>
    cases i with
    | zero => simp [init_loop_nil]
    | succ i => simp [init_loop_cons, ih]

theorem init_loop_getElem_rule_id {n : Nat} (rules : rule_table n) (ids : List Nat)
    (P : bit_vector_t n) (i : Nat) (hi : i < ids.length)
    (hr : i < (ruleset_init_loop rules ids P).1.length) :
    ((ruleset_init_loop rules ids P).1[i]).rule_id = ids[i] := by
  have h : ((ruleset_init_loop rules ids P).1.map (fun e => e.rule_id))[i]? = ids[i]? := by
    rw [init_loop_ids]
  rw [List.getElem?_map, List.getElem?_eq_getElem hr, List.getElem?_eq_getElem hi] at h
  simpa using h

/-! ## `ruleset_init` -/

theorem ruleset_init_eq {n : Nat} (idarray : List Nat) (rules : rule_table n) :
    ruleset_init idarray rules =
      if (ruleset_init_loop rules idarray Finset.univ).2 = ∅ then
        some { n_alloc := idarray.length,
               rules := (ruleset_init_loop rules idarray Finset.univ).1 }
      else none := by
  simp [ruleset_init, bit_vector_set_all, bit_vector_n_ones]

theorem init_pool_empty_iff {n : Nat} (idarray : List Nat) (rules : rule_table n) :
    (ruleset_init_loop rules idarray Finset.univ).2 = ∅ ↔
      ∀ s : Fin n, ∃ id ∈ idarray, s ∈ (rules id).truthtable := by
  rw [Finset.eq_empty_iff_forall_not_mem]
  simp only [mem_init_loop_pool, Finset.mem_univ, true_and, not_forall, not_not, exists_prop]

theorem ruleset_init_eq_some_iff {n : Nat} (idarray : List Nat) (rules : rule_table n)
    (rs : rulelist_t n) :
    ruleset_init idarray rules = some rs ↔
      (∀ s : Fin n, ∃ id ∈ idarray, s ∈ (rules id).truthtable) ∧
        rs = { n_alloc := idarray.length,
               rules := (ruleset_init_loop rules idarray Finset.univ).1 } := by
  rw [ruleset_init_eq, ← init_pool_empty_iff]
  by_cases h : (ruleset_init_loop rules idarray Finset.univ).2 = ∅
  · simp [h, eq_comm]
  · simp [h]

theorem init_loop_first_match {n : Nat} (rules : rule_table n) (idarray : List Nat)
    (a : Nat) :
    first_match_invariant rules
      { n_alloc := a, rules := (ruleset_init_loop rules idarray Finset.univ).1 } := by
  rw [first_match_iff]
  simp [ruleset_backup, init_loop_ids]

theorem default_rule_covers {n : Nat} (rules : rule_table n) (ids : List Nat) (d : Nat)
    (hd : is_default_rule rules d) (hmem : d ∈ ids) :
    ∀ s : Fin n, ∃ id ∈ ids, s ∈ (rules id).truthtable := by
  intro s
  refine ⟨d, hmem, ?_⟩
  rw [hd]; exact Finset.mem_univ s

/-- C1 (as amended): for every rule table, sample count `n` and id array of
length `L` whose listed truth tables together match every sample,
`ruleset_init` returns a ruleset with `n_rules = L` whose entry `i` has
`rule_id = idarray[i]` and
`captures[i] = truthtable[idarray[i]] ∩ complement(captures[0] ∪ ... ∪ captures[i-1])`;
a sample is in `captures[i]` exactly when rule `idarray[i]` matches it and no
rule listed before position `i` does. -/
theorem ruleset_init_first_match {n : Nat} (rules : rule_table n) (idarray : List Nat)
    (hcover : ∀ s : Fin n, ∃ id ∈ idarray, s ∈ (rules id).truthtable) :
    ∃ rs : rulelist_t n, ruleset_init idarray rules = some rs ∧
      rs.n_rules = idarray.length ∧
      ∀ (i : Nat) (hi : i < idarray.length) (hr : i < rs.rules.length),
        (rs.rules[i]).rule_id = idarray[i] ∧
        (rs.rules[i]).captures =
          (rules idarray[i]).truthtable ∩ (captures_union (rs.rules.take i))ᶜ ∧
        ∀ s : Fin n, s ∈ (rs.rules[i]).captures ↔
          s ∈ (rules idarray[i]).truthtable ∧
            ∀ id ∈ idarray.take i, s ∉ (rules id).truthtable := by
  refine ⟨{ n_alloc := idarray.length,
            rules := (ruleset_init_loop rules idarray Finset.univ).1 }, ?_, ?_, ?_⟩
  · exact (ruleset_init_eq_some_iff idarray rules _).2 ⟨hcover, rfl⟩
  · exact init_loop_length rules idarray Finset.univ
  · intro i hi hr
    have hid := init_loop_getElem_rule_id rules idarray Finset.univ i hi hr
    have hfm := init_loop_first_match rules idarray idarray.length i hr
    simp only at hfm hid ⊢
    rw [hid] at hfm
    refine ⟨hid, hfm, ?_⟩
    intro s
    rw [hfm, init_loop_take]
    simp only [Finset.mem_inter, Finset.mem_compl, mem_init_loop_union, Finset.mem_univ,
      true_and, not_exists, not_and]

/-- C1 (counterexample): on the four-sample table, the id array `[1, 2]`
leaves sample 3 uncaptured, the final assertion fails and `ruleset_init`
returns no ruleset. -/
theorem ruleset_init_not_total :
    ruleset_init [1, 2] rules4 = none ∧
      ¬ ∃ rs : rulelist_t 4, ruleset_init [1, 2] rules4 = some rs := by
  have h : ruleset_init [1, 2] rules4 = none := by decide
  exact ⟨h, fun ⟨rs, hrs⟩ => by rw [h] at hrs; exact Option.noConfusion hrs⟩

/-- C1 (witness): the amended statement applied to the order `[1, 2, 0]` of the
four-sample table. -/
theorem ruleset_init_first_match_witness :
    (∀ s : Fin 4, ∃ id ∈ [1, 2, 0], s ∈ (rules4 id).truthtable) ∧
    ∃ rs : rulelist_t 4, ruleset_init [1, 2, 0] rules4 = some rs ∧
      rs.n_rules = [1, 2, 0].length ∧
      ∀ (i : Nat) (hi : i < [1, 2, 0].length) (hr : i < rs.rules.length),
        (rs.rules[i]).rule_id = [1, 2, 0][i] ∧
        (rs.rules[i]).captures =
          (rules4 [1, 2, 0][i]).truthtable ∩ (captures_union (rs.rules.take i))ᶜ ∧
        ∀ s : Fin 4, s ∈ (rs.rules[i]).captures ↔
          s ∈ (rules4 [1, 2, 0][i]).truthtable ∧
            ∀ id ∈ [1, 2, 0].take i, s ∉ (rules4 id).truthtable :=
  ⟨by decide, ruleset_init_first_match rules4 [1, 2, 0] (by decide)⟩

/-- C2: for every id array whose last entry is a default rule (its truth table
matches every sample), the final assertion of `ruleset_init` holds
(`not_captured` has no bit set, so a ruleset is returned), and the captures of
the returned ruleset are pairwise disjoint with union the full sample set. -/
theorem ruleset_init_partition {n : Nat} (rules : rule_table n) (idarray : List Nat)
    (d : Nat) (hlast : idarray.getLast? = some d) (hd : is_default_rule rules d) :
    bit_vector_n_ones
        (ruleset_init_loop rules idarray (bit_vector_set_all (bit_vector_init n))).2 = 0 ∧
      ∃ rs : rulelist_t n, ruleset_init idarray rules = some rs ∧
        captures_disjoint rs.rules ∧ captures_union rs.rules = Finset.univ := by
  have hmem : d ∈ idarray := List.mem_of_getLast?_eq_some hlast
  have hcover := default_rule_covers rules idarray d hd hmem
  have hempty := (init_pool_empty_iff idarray rules).2 hcover
  refine ⟨by simp [bit_vector_set_all, bit_vector_n_ones, hempty], _,
    (ruleset_init_eq_some_iff idarray rules _).2 ⟨hcover, rfl⟩, ?_, ?_⟩
  · exact (captures_disjoint_iff_pairwise _).2 (init_loop_pairwise rules idarray _)
  · ext s
    simp only [mem_init_loop_union, Finset.mem_univ, true_and, iff_true]
    exact hcover s

/-- C2 (witness): the order `[1, 2, 0]` of the four-sample table ends in the
default rule 0. -/
theorem ruleset_init_partition_witness :
    [1, 2, 0].getLast? = some 0 ∧ is_default_rule rules4 0 ∧
      bit_vector_n_ones
        (ruleset_init_loop rules4 [1, 2, 0] (bit_vector_set_all (bit_vector_init 4))).2 = 0 ∧
      ∃ rs : rulelist_t 4, ruleset_init [1, 2, 0] rules4 = some rs ∧
        captures_disjoint rs.rules ∧ captures_union rs.rules = Finset.univ :=
  ⟨by decide, by decide, ruleset_init_partition rules4 [1, 2, 0] 0 (by decide) (by decide)⟩

/-! ## `ruleset_add` -/

theorem add_sweep_rules {n : Nat} (rules : rule_table n) (rs : rulelist_t n)
    (newrule ndx : Nat) (h : ndx ≤ rs.rules.length) :
    (ruleset_add_sweep rules rs newrule ndx).1.rules =
        rs.rules.take ndx ++
          (ruleset_init_loop rules (newrule :: (rs.rules.drop ndx).map (fun e => e.rule_id))
            (captures_union (rs.rules.drop ndx))).1 ∧
      (ruleset_add_sweep rules rs newrule ndx).2 =
        (ruleset_init_loop rules (newrule :: (rs.rules.drop ndx).map (fun e => e.rule_id))
            (captures_union (rs.rules.drop ndx))).2 := by
  have hlen : (rs.rules.take ndx).length = ndx := by
    rw [List.length_take]; exact Nat.min_eq_left h
  have hdrop : ∀ e : rulelist_entry_t n,
      (rs.rules.take ndx ++ e :: rs.rules.drop ndx).drop ndx = e :: rs.rules.drop ndx :=
    fun e => List.drop_left' hlen
  have htake : ∀ e : rulelist_entry_t n,
      (rs.rules.take ndx ++ e :: rs.rules.drop ndx).take ndx = rs.rules.take ndx :=
    fun e => List.take_left' hlen
  simp only [ruleset_add_sweep, hdrop, htake, add_loop_eq, add_collect_eq, bit_vector_init,
    Finset.empty_union, List.map_cons, and_self]

theorem swept_pool_eq_union_drop {n : Nat} (rules : rule_table n) (ids : List Nat)
    (ndx : Nat) (hcover : ∀ s : Fin n, ∃ id ∈ ids, s ∈ (rules id).truthtable) :
    captures_union ((ruleset_init_loop rules ids Finset.univ).1.drop ndx) =
      (ruleset_init_loop rules (ids.take ndx) Finset.univ).2 := by
  ext s
  rw [init_loop_drop, mem_init_loop_union, mem_init_loop_pool]
  constructor
  · exact fun h => h.1
  · intro h
    refine ⟨h, ?_⟩
    obtain ⟨id, hid, hs⟩ := hcover s
    rw [← List.take_append_drop ndx ids, List.mem_append] at hid
    rcases hid with hid | hid
    · exact absurd hs (h.2 id hid)
    · exact ⟨id, hid, hs⟩

theorem add_sweep_swept {n : Nat} (rules : rule_table n) (a : Nat) (ids : List Nat)
    (newrule ndx : Nat) (hndx : ndx ≤ ids.length)
    (hcover : ∀ s : Fin n, ∃ id ∈ ids, s ∈ (rules id).truthtable) :
    (ruleset_add_sweep rules ⟨a, (ruleset_init_loop rules ids Finset.univ).1⟩
        newrule ndx).1.rules =
        (ruleset_init_loop rules (ids.take ndx ++ newrule :: ids.drop ndx) Finset.univ).1 ∧
      (ruleset_add_sweep rules ⟨a, (ruleset_init_loop rules ids Finset.univ).1⟩
        newrule ndx).2 = ∅ := by
  have hlen : ndx ≤ (ruleset_init_loop rules ids Finset.univ).1.length := by
    rw [init_loop_length]; exact hndx
  obtain ⟨h1, h2⟩ := add_sweep_rules rules ⟨a, (ruleset_init_loop rules ids Finset.univ).1⟩
    newrule ndx hlen
  have hids : ((ruleset_init_loop rules ids Finset.univ).1.drop ndx).map
      (fun e => e.rule_id) = ids.drop ndx := by
    rw [List.map_drop, init_loop_ids]
  simp only [hids, swept_pool_eq_union_drop rules ids ndx hcover] at h1 h2
  constructor
  · rw [h1, init_loop_append, init_loop_take]
  · rw [h2]
    ext s
    simp only [mem_init_loop_pool, Finset.not_mem_empty, iff_false, not_and, not_forall,
      not_not, exists_prop]
    intro hs
    obtain ⟨id, hid, hsid⟩ := hcover s
    rw [← List.take_append_drop ndx ids, List.mem_append] at hid
    rcases hid with hid | hid
    · exact absurd hsid (hs.2 id hid)
    · exact ⟨id, List.mem_cons_of_mem _ hid, hsid⟩

theorem swept_covers {n : Nat} (rules : rule_table n) (rs : rulelist_t n)
    (hfm : first_match_invariant rules rs) (hcov : full_coverage rs) :
    ∀ s : Fin n, ∃ id ∈ ruleset_backup rs, s ∈ (rules id).truthtable := by
  intro s
  have hs : s ∈ captures_union rs.rules := by rw [hcov]; exact Finset.mem_univ s
  rw [(first_match_iff rules rs).1 hfm, mem_init_loop_union] at hs
  exact hs.2

theorem backup_length {n : Nat} (rs : rulelist_t n) :
    (ruleset_backup rs).length = rs.rules.length := by
  simp [ruleset_backup]

/-! ## `ruleset_delete` -/

theorem delete_loop_swept {n : Nat} (rules : rule_table n) (ids : List Nat)
    (M D : bit_vector_t n) (hdisj : Disjoint M D) :
    (ruleset_delete_loop rules (ruleset_init_loop rules ids M).1 D).1 =
        (ruleset_init_loop rules ids (M ∪ D)).1 ∧
      (ruleset_delete_loop rules (ruleset_init_loop rules ids M).1 D).2 =
        (ruleset_init_loop rules ids D).2 := by
  induction ids generalizing M D with
  | nil => exact ⟨rfl, rfl⟩
  | cons id ids ih =>
    have hMD : ∀ s : Fin n, s ∈ M → s ∉ D := fun s hM hD =>
      Finset.disjoint_left.1 hdisj hM hD
    have hcap : bit_vector_or_eq_and (M ∩ (rules id).truthtable) (rules id).truthtable D =
        (M ∪ D) ∩ (rules id).truthtable := by
      ext s; simp only [bit_vector_or_eq_and, Finset.mem_union, Finset.mem_inter]; tauto
    have hD : bit_vector_and_eq_not D ((M ∪ D) ∩ (rules id).truthtable) =
        D \ (D ∩ (rules id).truthtable) := by
      ext s
      simp only [bit_vector_and_eq_not, Finset.mem_union, Finset.mem_inter, Finset.mem_sdiff]
      tauto
    have hM : (M ∪ D) \ ((M ∪ D) ∩ (rules id).truthtable) =
        (M \ (M ∩ (rules id).truthtable)) ∪ (D \ (D ∩ (rules id).truthtable)) := by
      ext s
      simp only [Finset.mem_union, Finset.mem_inter, Finset.mem_sdiff]
      tauto
    have hdisj' : Disjoint (M \ (M ∩ (rules id).truthtable))
        (D \ (D ∩ (rules id).truthtable)) :=
      Finset.disjoint_of_subset_left Finset.sdiff_subset
        (Finset.disjoint_of_subset_right Finset.sdiff_subset hdisj)
    obtain ⟨ih1, ih2⟩ := ih _ _ hdisj'
    rw [init_loop_cons rules id ids M, init_loop_cons rules id ids (M ∪ D),
      init_loop_cons rules id ids D]
    simp only [ruleset_delete_loop, hcap, hD, hM, ih1, ih2, and_self]

theorem delete_eq {n : Nat} (rules : rule_table n) (rs : rulelist_t n) (ndx : Nat)
    (h : ndx < rs.rules.length) :
    ruleset_delete rules rs ndx =
        some { n_alloc := rs.n_alloc,
               rules := rs.rules.take ndx ++
                 (ruleset_delete_loop rules (rs.rules.drop (ndx + 1))
                   (rs.rules[ndx]).captures).1 } ∧
      ruleset_delete_leftover rules rs ndx =
        some (ruleset_delete_loop rules (rs.rules.drop (ndx + 1))
                   (rs.rules[ndx]).captures).2 := by
  unfold ruleset_delete ruleset_delete_leftover
  rw [List.drop_eq_getElem_cons h]
  exact ⟨rfl, rfl⟩

theorem delete_swept {n : Nat} (rules : rule_table n) (a : Nat) (ids : List Nat)
    (ndx : Nat) (hndx : ndx < ids.length) :
    ruleset_delete rules ⟨a, (ruleset_init_loop rules ids Finset.univ).1⟩ ndx =
      some ⟨a, (ruleset_init_loop rules (ids.take ndx ++ ids.drop (ndx + 1)) Finset.univ).1⟩ := by
  have hlen : ndx < (ruleset_init_loop rules ids Finset.univ).1.length := by
    rw [init_loop_length]; exact hndx
  rw [(delete_eq rules ⟨a, (ruleset_init_loop rules ids Finset.univ).1⟩ ndx hlen).1]
  have hsplit : ids = ids.take ndx ++ ids[ndx] :: ids.drop (ndx + 1) := by
    rw [← List.drop_eq_getElem_cons hndx, List.take_append_drop]
  have hdrop : (ruleset_init_loop rules ids Finset.univ).1.drop ndx =
      (ruleset_init_loop rules (ids[ndx] :: ids.drop (ndx + 1))
        (ruleset_init_loop rules (ids.take ndx) Finset.univ).2).1 := by
    rw [init_loop_drop, List.drop_eq_getElem_cons hndx]
  rw [List.drop_eq_getElem_cons hlen, init_loop_cons] at hdrop
  have hinj := List.cons.inj hdrop
  have hcap : ((ruleset_init_loop rules ids Finset.univ).1[ndx]).captures =
      (ruleset_init_loop rules (ids.take ndx) Finset.univ).2 ∩ (rules ids[ndx]).truthtable := by
    rw [hinj.1]
  have hdel := delete_loop_swept rules (ids.drop (ndx + 1))
    ((ruleset_init_loop rules (ids.take ndx) Finset.univ).2 \
      ((ruleset_init_loop rules (ids.take ndx) Finset.univ).2 ∩ (rules ids[ndx]).truthtable))
    ((ruleset_init_loop rules (ids.take ndx) Finset.univ).2 ∩ (rules ids[ndx]).truthtable)
    Finset.sdiff_disjoint
  have hunion : ∀ (P Q : bit_vector_t n), (P \ (P ∩ Q)) ∪ (P ∩ Q) = P := by
    intro P Q
    ext s; simp only [Finset.mem_union, Finset.mem_inter, Finset.mem_sdiff]; tauto
  rw [hunion] at hdel
  simp only [hinj.2, hcap, hdel.1, init_loop_append, init_loop_take]

/-! ## Lists split around one or two positions -/

theorem getElem?_split {α : Type} (A R : List α) (x : α) (k : Nat) (hk : k = A.length) :
    (A ++ x :: R)[k]? = some x := by
  subst hk
  induction A with
  | nil => simp
  | cons a A ih => simpa using ih

theorem set_split {α : Type} (A R : List α) (x x' : α) (k : Nat) (hk : k = A.length) :
    (A ++ x :: R).set k x' = A ++ x' :: R := by
  subst hk
  induction A with
  | nil => rfl
  | cons a A ih => simp [ih]

theorem list_mid_set {α : Type} (A M C : List α) (x y x' y' : α) :
    ((A ++ x :: (M ++ y :: C)).set A.length x').set (A.length + M.length + 1) y' =
      A ++ x' :: (M ++ y' :: C) := by
  rw [set_split A _ x x' _ rfl]
  have h : ∀ z : α, A ++ x' :: (M ++ z :: C) = (A ++ x' :: M) ++ z :: C := by simp
  rw [h y, h y']
  exact set_split _ _ _ _ _ (by simp; omega)

theorem list_mid_get {α : Type} (A M C : List α) (x y : α) :
    (A ++ x :: (M ++ y :: C))[A.length]? = some x ∧
      (A ++ x :: (M ++ y :: C))[A.length + M.length + 1]? = some y := by
  constructor
  · exact getElem?_split _ _ _ _ rfl
  · have h : A ++ x :: (M ++ y :: C) = (A ++ x :: M) ++ y :: C := by simp
    rw [h]
    exact getElem?_split _ _ _ _ (by simp; omega)

theorem list_mid_window {α : Type} (A M C : List α) (x y : α) :
    ((A ++ x :: (M ++ y :: C)).drop A.length).take (A.length + M.length + 1 + 1 - A.length) =
      x :: (M ++ [y]) := by
  have h : A.length + M.length + 1 + 1 - A.length = (x :: (M ++ [y])).length := by
    simp; omega
  have h2 : x :: (M ++ y :: C) = (x :: (M ++ [y])) ++ C := by simp
  rw [h, List.drop_left, h2, List.take_left]
  
theorem list_mid_take {α : Type} (A M C : List α) (x y : α) :
    (A ++ x :: (M ++ y :: C)).take A.length = A ∧ 
    (A ++ x :: (M ++ y :: C)).drop (A.length + M.length + 1 + 1) = C := by
  constructor
  · simp
  · have : A ++ x :: (M ++ y :: C) = (A ++ x :: (M ++ [y])) ++ C := by simp
    rw [this]
    apply List.drop_left'
    simp; omega

theorem list_decomp {α : Type} (L : List α) (i j : Nat) (hij : i < j) (hj : j < L.length) :
    ∃ (A M C : List α) (x y : α), L = A ++ x :: (M ++ y :: C) ∧ A.length = i ∧
      A.length + M.length + 1 = j := by
  refine ⟨L.take i, (L.drop (i + 1)).take (j - i - 1), L.drop (j + 1), L[i], L[j], ?_, ?_, ?_⟩
  · have h1 : L = L.take i ++ L[i] :: L.drop (i + 1) := by
      rw [← List.drop_eq_getElem_cons, List.take_append_drop]
    have h2 : L.drop (i + 1) = (L.drop (i + 1)).take (j - i - 1) ++ L[j] :: L.drop (j + 1) := by
      have h3 : (L.drop (i+1)).drop (j - i - 1) = L[j] :: L.drop (j + 1) := by
        rw [List.drop_drop, List.drop_eq_getElem_cons (by omega)]
        have : i + 1 + (j - i - 1) = j := by omega
        simp [this]
      rw [← h3, List.take_append_drop]
    rw [← h2, ← h1]
  · simp; omega
  · simp; omega

/-! ## `ruleset_swap` -/

theorem swap_decomp {n : Nat} (rules : rule_table n) (al : Nat)
    (A C : List (rulelist_entry_t n)) (x y : rulelist_entry_t n) (hC : C ≠ []) :
    ruleset_swap ⟨al, A ++ x :: y :: C⟩ A.length (A.length + 1) rules =
      some ⟨al, A ++
        ⟨y.rule_id, y.captures ∪ (x.captures ∩ (rules y.rule_id).truthtable)⟩ ::
        ⟨x.rule_id, x.captures \ (y.captures ∪ (x.captures ∩ (rules y.rule_id).truthtable))⟩ ::
        C⟩ := by
  have hpos : 0 < C.length := List.length_pos.2 hC
  have hlen : (A ++ x :: y :: C).length = A.length + C.length + 2 := by
    simp only [List.length_append, List.length_cons]; omega
  have hc1 : A.length < (A ++ x :: y :: C).length - 1 := by rw [hlen]; omega
  have hc2 : A.length + 1 < (A ++ x :: y :: C).length - 1 := by rw [hlen]; omega
  have hg := list_mid_get A [] C x y
  have hs := list_mid_set A [] C x y
  simp only [List.nil_append, List.length_nil, Nat.add_zero] at hg hs
  unfold ruleset_swap
  simp only [rulelist_t.n_rules, hc1, hc2, and_self, if_true, hg.1, hg.2,
    bit_vector_and_safe, bit_vector_or_safe, bit_vector_and_not_safe, hs]

theorem swap_swept {n : Nat} (rules : rule_table n) (al : Nat) (IA IC : List Nat)
    (a b : Nat) (hC : IC ≠ []) :
    ruleset_swap ⟨al, (ruleset_init_loop rules (IA ++ a :: b :: IC) Finset.univ).1⟩
        IA.length (IA.length + 1) rules =
      some ⟨al, (ruleset_init_loop rules (IA ++ b :: a :: IC) Finset.univ).1⟩ := by
  have hlen := init_loop_length rules IA Finset.univ
  have hC' : ∀ P : bit_vector_t n, (ruleset_init_loop rules IC P).1 ≠ [] := by
    intro P h
    have := init_loop_length rules IC P
    rw [h] at this
    exact hC (List.length_eq_zero.1 this.symm)
  rw [init_loop_append, init_loop_cons, init_loop_cons, ← hlen]
  simp only
  rw [swap_decomp rules al _ _ _ _ (hC' _)]
  rw [init_loop_append, init_loop_cons, init_loop_cons]
  simp only
  generalize (ruleset_init_loop rules IA Finset.univ).2 = N
  have e1 : N \ (N ∩ (rules a).truthtable) ∩ (rules b).truthtable ∪
      N ∩ (rules a).truthtable ∩ (rules b).truthtable = N ∩ (rules b).truthtable := by
    ext s; simp only [Finset.mem_union, Finset.mem_inter, Finset.mem_sdiff]; tauto
  have e2 : (N ∩ (rules a).truthtable) \ (N ∩ (rules b).truthtable) =
      N \ (N ∩ (rules b).truthtable) ∩ (rules a).truthtable := by
    ext s; simp only [Finset.mem_inter, Finset.mem_sdiff]; tauto
  have e3 : (N \ (N ∩ (rules a).truthtable)) \
      (N \ (N ∩ (rules a).truthtable) ∩ (rules b).truthtable) =
      (N \ (N ∩ (rules b).truthtable)) \
        (N \ (N ∩ (rules b).truthtable) ∩ (rules a).truthtable) := by
    ext s; simp only [Finset.mem_inter, Finset.mem_sdiff]; tauto
  rw [e1, e2, e3]

/-! ## `ruleset_swap_any` -/

theorem swap_any_loop_count {n : Nat} (rules : rule_table n) (es : List (rulelist_entry_t n))
    (P : bit_vector_t n) (c : Nat) :
    (ruleset_swap_any_loop rules es P c).2.2 + (ruleset_swap_any_loop rules es P c).2.1.card =
      c + P.card := by
  induction es generalizing P c with
  | nil => rfl
  | cons e es ih =>
    simp only [ruleset_swap_any_loop, ih, bit_vector_and_safe, bit_vector_and_not_safe,
      bit_vector_n_ones]
    have h := Finset.card_sdiff_add_card_inter P (rules e.rule_id).truthtable
    have h2 : P \ (P ∩ (rules e.rule_id).truthtable) = P \ (rules e.rule_id).truthtable := by
      ext s; simp only [Finset.mem_inter, Finset.mem_sdiff]; tauto
    rw [h2]
    omega

theorem swap_any_loop_sum {n : Nat} (rules : rule_table n) (es : List (rulelist_entry_t n))
    (P : bit_vector_t n) (c : Nat) :
    (ruleset_swap_any_loop rules es P c).2.2 =
      c + ((ruleset_swap_any_loop rules es P c).1.map
        (fun e => bit_vector_n_ones e.captures)).sum := by
  induction es generalizing P c with
  | nil => rfl
  | cons e es ih =>
    simp only [ruleset_swap_any_loop, List.map_cons, List.sum_cons]
    rw [ih]
    omega

theorem swap_any_loop_length {n : Nat} (rules : rule_table n)
    (es : List (rulelist_entry_t n)) (P : bit_vector_t n) (c : Nat) :
    (ruleset_swap_any_loop rules es P c).1.length = es.length := by
  rw [(swap_any_loop_eq rules es P c).1, init_loop_length, List.length_map]

theorem swap_any_sweep_decomp {n : Nat} (rules : rule_table n) (al : Nat)
    (A M C : List (rulelist_entry_t n)) (x y : rulelist_entry_t n) :
    ruleset_swap_any_sweep ⟨al, A ++ x :: (M ++ y :: C)⟩ A.length
        (A.length + M.length + 1) rules =
      (⟨al, A ++ (ruleset_swap_any_loop rules
            (⟨y.rule_id, x.captures⟩ :: (M ++ [⟨x.rule_id, y.captures⟩]))
            (captures_union (x :: (M ++ [y]))) 0).1 ++ C⟩,
        (ruleset_swap_any_loop rules
            (⟨y.rule_id, x.captures⟩ :: (M ++ [⟨x.rule_id, y.captures⟩]))
            (captures_union (x :: (M ++ [y]))) 0).2.1,
        (captures_union (x :: (M ++ [y]))).card,
        (ruleset_swap_any_loop rules
            (⟨y.rule_id, x.captures⟩ :: (M ++ [⟨x.rule_id, y.captures⟩]))
            (captures_union (x :: (M ++ [y]))) 0).2.2) := by
  have hg := list_mid_get A M C x y
  have hs := list_mid_set A M C x y
  have hswap : swap_rule_ids (A ++ x :: (M ++ y :: C)) A.length (A.length + M.length + 1) =
      A ++ ⟨y.rule_id, x.captures⟩ :: (M ++ ⟨x.rule_id, y.captures⟩ :: C) := by
    unfold swap_rule_ids
    rw [hg.1, hg.2]
    exact hs _ _
  unfold ruleset_swap_any_sweep
  simp only [hswap, list_mid_window, (list_mid_take A M C _ _).1, (list_mid_take A M C _ _).2,
    swap_any_collect_eq, bit_vector_init, Finset.empty_union, bit_vector_n_ones]

theorem window_resweep {n : Nat} (rules : rule_table n) (W W' : List Nat)
    (N : bit_vector_t n) (hmem : ∀ id : Nat, id ∈ W' ↔ id ∈ W) :
    (ruleset_init_loop rules W' (captures_union (ruleset_init_loop rules W N).1)).1 =
        (ruleset_init_loop rules W' N).1 ∧
      (ruleset_init_loop rules W' (captures_union (ruleset_init_loop rules W N).1)).2 = ∅ ∧
      (ruleset_init_loop rules W' N).2 = (ruleset_init_loop rules W N).2 := by
  refine ⟨?_, ?_, ?_⟩
  · apply init_loop_congr
    intro id hid
    ext s
    simp only [Finset.mem_inter, mem_init_loop_union]
    constructor
    · exact fun h => ⟨h.1.1, h.2⟩
    · exact fun h => ⟨⟨h.1, id, (hmem id).1 hid, h.2⟩, h.2⟩
  · ext s
    simp only [mem_init_loop_pool, mem_init_loop_union, Finset.not_mem_empty, iff_false,
      not_and, not_forall, not_not, exists_prop]
    rintro ⟨_, id, hid, hs⟩
    exact ⟨id, (hmem id).2 hid, hs⟩
  · ext s
    simp only [mem_init_loop_pool]
    constructor
    · exact fun h => ⟨h.1, fun id hid => h.2 id ((hmem id).2 hid)⟩
    · exact fun h => ⟨h.1, fun id hid => h.2 id ((hmem id).1 hid)⟩

theorem swap_any_sweep_swept {n : Nat} (rules : rule_table n) (al : Nat)
    (IA IM IC : List Nat) (a b : Nat) :
    (ruleset_swap_any_sweep
        ⟨al, (ruleset_init_loop rules (IA ++ a :: (IM ++ b :: IC)) Finset.univ).1⟩
        IA.length (IA.length + IM.length + 1) rules).1 =
      ⟨al, (ruleset_init_loop rules (IA ++ b :: (IM ++ a :: IC)) Finset.univ).1⟩ ∧
    (ruleset_swap_any_sweep
        ⟨al, (ruleset_init_loop rules (IA ++ a :: (IM ++ b :: IC)) Finset.univ).1⟩
        IA.length (IA.length + IM.length + 1) rules).2.1 = ∅ ∧
    (ruleset_swap_any_sweep
        ⟨al, (ruleset_init_loop rules (IA ++ a :: (IM ++ b :: IC)) Finset.univ).1⟩
        IA.length (IA.length + IM.length + 1) rules).2.2.1 =
      (ruleset_swap_any_sweep
        ⟨al, (ruleset_init_loop rules (IA ++ a :: (IM ++ b :: IC)) Finset.univ).1⟩
        IA.length (IA.length + IM.length + 1) rules).2.2.2 := by
  have hmem : ∀ id : Nat, id ∈ b :: (IM ++ [a]) ↔ id ∈ a :: (IM ++ [b]) := by
    intro id
    simp only [List.mem_cons, List.mem_append, List.mem_singleton, List.not_mem_nil, or_false]
    tauto
  have hA := init_loop_length rules IA Finset.univ
  generalize hN : (ruleset_init_loop rules IA Finset.univ).2 = N
  obtain ⟨w1, w2, w3⟩ := window_resweep rules (a :: (IM ++ [b])) (b :: (IM ++ [a])) N hmem
  have hM := init_loop_length rules IM (N \ (N ∩ (rules a).truthtable))
  -- the old list, split around the two positions
  have hold : (ruleset_init_loop rules (IA ++ a :: (IM ++ b :: IC)) Finset.univ).1 =
      (ruleset_init_loop rules IA Finset.univ).1 ++
        ⟨a, N ∩ (rules a).truthtable⟩ ::
          ((ruleset_init_loop rules IM (N \ (N ∩ (rules a).truthtable))).1 ++
            ⟨b, (ruleset_init_loop rules IM (N \ (N ∩ (rules a).truthtable))).2 ∩
                (rules b).truthtable⟩ ::
              (ruleset_init_loop rules IC
                (ruleset_init_loop rules (a :: (IM ++ [b])) N).2).1) := by
    simp only [init_loop_append, init_loop_cons, init_loop_nil, hN]
  have hwin : (⟨a, N ∩ (rules a).truthtable⟩ : rulelist_entry_t n) ::
      ((ruleset_init_loop rules IM (N \ (N ∩ (rules a).truthtable))).1 ++
        [⟨b, (ruleset_init_loop rules IM (N \ (N ∩ (rules a).truthtable))).2 ∩
                (rules b).truthtable⟩]) =
      (ruleset_init_loop rules (a :: (IM ++ [b])) N).1 := by
    simp only [init_loop_append, init_loop_cons, init_loop_nil]
  have hnew : (ruleset_init_loop rules (IA ++ b :: (IM ++ a :: IC)) Finset.univ).1 =
      (ruleset_init_loop rules IA Finset.univ).1 ++
        (ruleset_init_loop rules (b :: (IM ++ [a])) N).1 ++
          (ruleset_init_loop rules IC (ruleset_init_loop rules (b :: (IM ++ [a])) N).2).1 := by
    have : IA ++ b :: (IM ++ a :: IC) = IA ++ ((b :: (IM ++ [a])) ++ IC) := by simp
    rw [this, init_loop_append, init_loop_append, hN, List.append_assoc]
  have hids : (({ rule_id := b, captures := N ∩ (rules a).truthtable } : rulelist_entry_t n) ::
      ((ruleset_init_loop rules IM (N \ (N ∩ (rules a).truthtable))).1 ++
        [{ rule_id := a,
           captures := (ruleset_init_loop rules IM (N \ (N ∩ (rules a).truthtable))).2 ∩
                (rules b).truthtable }])).map (fun e => e.rule_id) = b :: (IM ++ [a]) := by
    simp only [List.map_cons, List.map_append, init_loop_ids, List.map_nil]
  rw [hold, ← hA, ← hM, swap_any_sweep_decomp]
  simp only
  have hcount := swap_any_loop_count rules
    (({ rule_id := b, captures := N ∩ (rules a).truthtable } : rulelist_entry_t n) ::
      ((ruleset_init_loop rules IM (N \ (N ∩ (rules a).truthtable))).1 ++
        [{ rule_id := a,
           captures := (ruleset_init_loop rules IM (N \ (N ∩ (rules a).truthtable))).2 ∩
                (rules b).truthtable }]))
    (captures_union (ruleset_init_loop rules (a :: (IM ++ [b])) N).1) 0
  have hloop := swap_any_loop_eq rules
    (({ rule_id := b, captures := N ∩ (rules a).truthtable } : rulelist_entry_t n) ::
      ((ruleset_init_loop rules IM (N \ (N ∩ (rules a).truthtable))).1 ++
        [{ rule_id := a,
           captures := (ruleset_init_loop rules IM (N \ (N ∩ (rules a).truthtable))).2 ∩
                (rules b).truthtable }]))
    (captures_union (ruleset_init_loop rules (a :: (IM ++ [b])) N).1) 0
  rw [hids] at hloop
  rw [hloop.2, w2] at hcount
  rw [hwin, hloop.1, hloop.2, w1, w2, hnew, w3]
  refine ⟨rfl, rfl, ?_⟩
  simpa using hcount.symm

/-! ## The mutators on rulesets that satisfy the first-match invariant -/

theorem add_first_match {n : Nat} (rules : rule_table n) (rs : rulelist_t n)
    (newrule ndx : Nat) (hfm : first_match_invariant rules rs) (hcov : full_coverage rs)
    (hndx : ndx ≤ rs.n_rules) :
    ruleset_add rules rs newrule ndx = some (ruleset_add_sweep rules rs newrule ndx).1 ∧
      (ruleset_add_sweep rules rs newrule ndx).1.rules =
        (ruleset_init_loop rules
          ((ruleset_backup rs).take ndx ++ newrule :: (ruleset_backup rs).drop ndx)
          Finset.univ).1 ∧
      (ruleset_add_sweep rules rs newrule ndx).2 = ∅ := by
  have hcover := swept_covers rules rs hfm hcov
  have hL := (first_match_iff rules rs).1 hfm
  have hndx' : ndx ≤ (ruleset_backup rs).length := by rw [backup_length]; exact hndx
  have key := add_sweep_swept rules rs.n_alloc (ruleset_backup rs) newrule ndx hndx' hcover
  rw [← hL] at key
  refine ⟨?_, key.1, key.2⟩
  unfold ruleset_add
  rw [if_pos hndx]
  simp only [bit_vector_n_ones, key.2, Finset.card_empty, if_true]

theorem delete_first_match {n : Nat} (rules : rule_table n) (rs : rulelist_t n)
    (ndx : Nat) (hfm : first_match_invariant rules rs) (hndx : ndx < rs.n_rules) :
    ruleset_delete rules rs ndx =
      some ⟨rs.n_alloc, (ruleset_init_loop rules
        ((ruleset_backup rs).take ndx ++ (ruleset_backup rs).drop (ndx + 1)) Finset.univ).1⟩ := by
  have hL := (first_match_iff rules rs).1 hfm
  have hndx' : ndx < (ruleset_backup rs).length := by rw [backup_length]; exact hndx
  have key := delete_swept rules rs.n_alloc (ruleset_backup rs) ndx hndx'
  rw [← hL] at key
  exact key

theorem first_match_of_rules_eq {n : Nat} (rules : rule_table n) (rs : rulelist_t n)
    (ids : List Nat) (h : rs.rules = (ruleset_init_loop rules ids Finset.univ).1) :
    first_match_invariant rules rs ∧ ruleset_backup rs = ids := by
  have hb : ruleset_backup rs = ids := by
    unfold ruleset_backup; rw [h, init_loop_ids]
  refine ⟨?_, hb⟩
  rw [first_match_iff, hb]
  exact h

theorem ruleset_init_of_first_match {n : Nat} (rules : rule_table n) (rs : rulelist_t n)
    (hfm : first_match_invariant rules rs) (hcov : full_coverage rs) :
    ruleset_init (ruleset_backup rs) rules =
      some ⟨(ruleset_backup rs).length, rs.rules⟩ := by
  rw [ruleset_init_eq_some_iff]
  refine ⟨swept_covers rules rs hfm hcov, ?_⟩
  rw [← (first_match_iff rules rs).1 hfm]

theorem full_coverage_of_default {n : Nat} (rules : rule_table n) (rs : rulelist_t n)
    (hfm : first_match_invariant rules rs) (d : Nat) (hd : is_default_rule rules d)
    (hmem : d ∈ ruleset_backup rs) : full_coverage rs := by
  unfold full_coverage
  rw [(first_match_iff rules rs).1 hfm]
  ext s
  simp only [mem_init_loop_union, Finset.mem_univ, true_and, iff_true]
  exact default_rule_covers rules _ d hd hmem s

theorem captures_disjoint_of_first_match {n : Nat} (rules : rule_table n) (rs : rulelist_t n)
    (hfm : first_match_invariant rules rs) : captures_disjoint rs.rules := by
  rw [(first_match_iff rules rs).1 hfm, captures_disjoint_iff_pairwise]
  exact init_loop_pairwise rules _ _

/-- C4: incremental insert equals recomputation from scratch. For every ruleset
`rs` that satisfies the first-match invariant with full coverage, every `ndx`
in `[0, n_rules]` and every rule id `r`, `ruleset_add` returns a ruleset of
length `n_rules + 1` whose id sequence is the old one with `r` inserted at
position `ndx` and whose entries are those `ruleset_init` computes for that
new id sequence; the assertion that `not_caught` is empty after the sweep
holds. -/
theorem ruleset_add_eq_init {n : Nat} (rules : rule_table n) (rs : rulelist_t n)
    (r ndx : Nat) (hfm : first_match_invariant rules rs) (hcov : full_coverage rs)
    (hndx : ndx ≤ rs.n_rules) :
    bit_vector_n_ones (ruleset_add_sweep rules rs r ndx).2 = 0 ∧
    ∃ rs' rs_init : rulelist_t n,
      ruleset_add rules rs r ndx = some rs' ∧
      rs'.n_rules = rs.n_rules + 1 ∧
      ruleset_backup rs' = (ruleset_backup rs).take ndx ++ r :: (ruleset_backup rs).drop ndx ∧
      ruleset_init ((ruleset_backup rs).take ndx ++ r :: (ruleset_backup rs).drop ndx) rules =
        some rs_init ∧
      rs'.rules = rs_init.rules := by
  obtain ⟨h1, h2, h3⟩ := add_first_match rules rs r ndx hfm hcov hndx
  obtain ⟨hfm', hb⟩ := first_match_of_rules_eq rules _ _ h2
  have hcov' : full_coverage (ruleset_add_sweep rules rs r ndx).1 := by
    unfold full_coverage
    rw [h2]
    ext s
    simp only [mem_init_loop_union, Finset.mem_univ, true_and, iff_true]
    obtain ⟨id, hid, hs⟩ := swept_covers rules rs hfm hcov s
    rw [← List.take_append_drop ndx (ruleset_backup rs), List.mem_append] at hid
    refine ⟨id, ?_, hs⟩
    rw [List.mem_append, List.mem_cons]
    tauto
  have hinit := ruleset_init_of_first_match rules _ hfm' hcov'
  rw [hb] at hinit
  refine ⟨by simp [bit_vector_n_ones, h3], _, _, h1, ?_, hb, hinit, rfl⟩
  have hlen := congrArg List.length hb
  rw [List.length_append, List.length_cons, List.length_take, List.length_drop,
    backup_length, backup_length] at hlen
  unfold rulelist_t.n_rules at hndx ⊢
  omega

/-- C4 (witness): inserting rule 2 at position 1 of the ruleset of order
`[1, 0]` on the four-sample table. -/
theorem ruleset_add_eq_init_witness :
    first_match_invariant rules4 ⟨2, [⟨1, {0, 1}⟩, ⟨0, {2, 3}⟩]⟩ ∧
    full_coverage (n := 4) ⟨2, [⟨1, {0, 1}⟩, ⟨0, {2, 3}⟩]⟩ ∧
    bit_vector_n_ones (ruleset_add_sweep rules4 ⟨2, [⟨1, {0, 1}⟩, ⟨0, {2, 3}⟩]⟩ 2 1).2 = 0 ∧
    ∃ rs' rs_init : rulelist_t 4,
      ruleset_add rules4 ⟨2, [⟨1, {0, 1}⟩, ⟨0, {2, 3}⟩]⟩ 2 1 = some rs' ∧
      rs'.n_rules = (⟨2, [⟨1, {0, 1}⟩, ⟨0, {2, 3}⟩]⟩ : rulelist_t 4).n_rules + 1 ∧
      ruleset_backup rs' =
        (ruleset_backup (⟨2, [⟨1, {0, 1}⟩, ⟨0, {2, 3}⟩]⟩ : rulelist_t 4)).take 1 ++
          2 :: (ruleset_backup (⟨2, [⟨1, {0, 1}⟩, ⟨0, {2, 3}⟩]⟩ : rulelist_t 4)).drop 1 ∧
      ruleset_init
          ((ruleset_backup (⟨2, [⟨1, {0, 1}⟩, ⟨0, {2, 3}⟩]⟩ : rulelist_t 4)).take 1 ++
            2 :: (ruleset_backup (⟨2, [⟨1, {0, 1}⟩, ⟨0, {2, 3}⟩]⟩ : rulelist_t 4)).drop 1)
          rules4 = some rs_init ∧
      rs'.rules = rs_init.rules :=
  ⟨by decide, by decide,
    ruleset_add_eq_init rules4 ⟨2, [⟨1, {0, 1}⟩, ⟨0, {2, 3}⟩]⟩ 2 1 (by decide) (by decide)
      (by decide)⟩

/-- C5: incremental delete equals recomputation from scratch. For every ruleset
`rs` that satisfies the first-match invariant with full coverage and every
existing position `ndx`, `ruleset_delete` returns a ruleset of length
`n_rules - 1` whose id sequence is the old one with position `ndx` removed and
whose entries are exactly those the sweep of `ruleset_init` computes for that
shortened id sequence. -/
theorem ruleset_delete_eq_init {n : Nat} (rules : rule_table n) (rs : rulelist_t n)
    (ndx : Nat) (hfm : first_match_invariant rules rs) (_hcov : full_coverage rs)
    (hndx : ndx < rs.n_rules) :
    ∃ rs' : rulelist_t n,
      ruleset_delete rules rs ndx = some rs' ∧
      rs'.n_rules = rs.n_rules - 1 ∧
      ruleset_backup rs' = (ruleset_backup rs).take ndx ++ (ruleset_backup rs).drop (ndx + 1) ∧
      rs'.rules =
        (ruleset_init_loop rules
          ((ruleset_backup rs).take ndx ++ (ruleset_backup rs).drop (ndx + 1))
          (bit_vector_set_all (bit_vector_init n))).1 := by
  have h := delete_first_match rules rs ndx hfm hndx
  obtain ⟨_, hb⟩ := first_match_of_rules_eq rules
    ⟨rs.n_alloc, (ruleset_init_loop rules
        ((ruleset_backup rs).take ndx ++ (ruleset_backup rs).drop (ndx + 1)) Finset.univ).1⟩
    _ rfl
  refine ⟨_, h, ?_, hb, rfl⟩
  have hlen := congrArg List.length hb
  rw [List.length_append, List.length_take, List.length_drop,
    backup_length, backup_length] at hlen
  unfold rulelist_t.n_rules at hndx ⊢
  simp only at hlen ⊢
  omega

/-- C5 (witness): deleting position 1 of the ruleset of order `[1, 2, 0]` on
the four-sample table. -/
theorem ruleset_delete_eq_init_witness :
    first_match_invariant rules4 ⟨3, [⟨1, {0, 1}⟩, ⟨2, {2}⟩, ⟨0, {3}⟩]⟩ ∧
    full_coverage (n := 4) ⟨3, [⟨1, {0, 1}⟩, ⟨2, {2}⟩, ⟨0, {3}⟩]⟩ ∧
    ∃ rs' : rulelist_t 4,
      ruleset_delete rules4 ⟨3, [⟨1, {0, 1}⟩, ⟨2, {2}⟩, ⟨0, {3}⟩]⟩ 1 = some rs' ∧
      rs'.n_rules = (⟨3, [⟨1, {0, 1}⟩, ⟨2, {2}⟩, ⟨0, {3}⟩]⟩ : rulelist_t 4).n_rules - 1 ∧
      ruleset_backup rs' =
        (ruleset_backup (⟨3, [⟨1, {0, 1}⟩, ⟨2, {2}⟩, ⟨0, {3}⟩]⟩ : rulelist_t 4)).take 1 ++
          (ruleset_backup (⟨3, [⟨1, {0, 1}⟩, ⟨2, {2}⟩, ⟨0, {3}⟩]⟩ : rulelist_t 4)).drop (1 + 1) ∧
      rs'.rules =
        (ruleset_init_loop rules4
          ((ruleset_backup (⟨3, [⟨1, {0, 1}⟩, ⟨2, {2}⟩, ⟨0, {3}⟩]⟩ : rulelist_t 4)).take 1 ++
            (ruleset_backup
              (⟨3, [⟨1, {0, 1}⟩, ⟨2, {2}⟩, ⟨0, {3}⟩]⟩ : rulelist_t 4)).drop (1 + 1))
          (bit_vector_set_all (bit_vector_init 4))).1 :=
  ⟨by decide, by decide,
    ruleset_delete_eq_init rules4 ⟨3, [⟨1, {0, 1}⟩, ⟨2, {2}⟩, ⟨0, {3}⟩]⟩ 1 (by decide)
      (by decide) (by decide)⟩

/-! ## Exchanged id sequences -/

theorem exchange_ids_decomp (IA IM IC : List Nat) (a b : Nat) :
    exchange_ids (IA ++ a :: (IM ++ b :: IC)) IA.length (IA.length + IM.length + 1) =
      IA ++ b :: (IM ++ a :: IC) := by
  unfold exchange_ids
  rw [(list_mid_get IA IM IC a b).1, (list_mid_get IA IM IC a b).2]
  exact list_mid_set IA IM IC a b b a

theorem set_same {α : Type} (l : List α) (i : Nat) (a : α) (h : l[i]? = some a) :
    l.set i a = l := by
  induction l generalizing i with
  | nil => rfl
  | cons x l ih =>
    cases i with
    | zero =>
      simp only [List.getElem?_cons_zero, Option.some.injEq] at h
      simp [h]
    | succ i =>
      simp only [List.getElem?_cons_succ] at h
      simp [ih i h]

theorem exchange_ids_self (ids : List Nat) (i : Nat) : exchange_ids ids i i = ids := by
  unfold exchange_ids
  cases h : ids[i]? with
  | none => rfl
  | some a =>
    simp only
    rw [List.set_set]
    exact set_same _ _ _ h

theorem exchange_ids_comm (ids : List Nat) (i j : Nat) :
    exchange_ids ids i j = exchange_ids ids j i := by
  by_cases hij : i = j
  · rw [hij]
  · unfold exchange_ids
    cases hi : ids[i]? with
    | none => cases hj : ids[j]? <;> rfl
    | some a =>
      cases hj : ids[j]? with
      | none => rfl
      | some b => exact List.set_comm b a ids hij

theorem exchange_ids_length (ids : List Nat) (i j : Nat) :
    (exchange_ids ids i j).length = ids.length := by
  unfold exchange_ids
  cases ids[i]? with
  | none => rfl
  | some a =>
    cases ids[j]? with
    | none => rfl
    | some b => simp

theorem mem_exchange_ids (ids : List Nat) (i j : Nat) (id : Nat) :
    id ∈ exchange_ids ids i j ↔ id ∈ ids := by
  rcases Nat.lt_trichotomy i j with hlt | heq | hgt
  · by_cases hj : j < ids.length
    · obtain ⟨A, M, C, x, y, hL, hA, hM⟩ := list_decomp ids i j hlt hj
      subst hA hM
      rw [hL, exchange_ids_decomp]
      simp only [List.mem_append, List.mem_cons]
      tauto
    · unfold exchange_ids
      rw [List.getElem?_eq_none (Nat.le_of_not_lt hj)]
      cases ids[i]? <;> rfl
  · rw [heq, exchange_ids_self]
  · rw [exchange_ids_comm]
    by_cases hi : i < ids.length
    · obtain ⟨A, M, C, x, y, hL, hA, hM⟩ := list_decomp ids j i hgt hi
      subst hA hM
      rw [hL, exchange_ids_decomp]
      simp only [List.mem_append, List.mem_cons]
      tauto
    · unfold exchange_ids
      rw [List.getElem?_eq_none (Nat.le_of_not_lt hi)]
      cases ids[j]? <;> rfl

/-! ## `ruleset_swap` on rulesets that satisfy the first-match invariant -/

theorem swap_eq {n : Nat} (rules : rule_table n) (rs : rulelist_t n) (i : Nat)
    (h : i + 1 < rs.rules.length - 1) :
    ∃ re_i re_j : rulelist_entry_t n,
      rs.rules[i]? = some re_i ∧ rs.rules[i + 1]? = some re_j ∧
      ruleset_swap rs i (i + 1) rules =
        some ⟨rs.n_alloc,
          (rs.rules.set i
              ⟨re_j.rule_id,
                re_j.captures ∪ (re_i.captures ∩ (rules re_j.rule_id).truthtable)⟩).set (i + 1)
            ⟨re_i.rule_id,
              re_i.captures \
                (re_j.captures ∪ (re_i.captures ∩ (rules re_j.rule_id).truthtable))⟩⟩ := by
  have h1 : i < rs.rules.length := by omega
  have h2 : i + 1 < rs.rules.length := by omega
  have h3 : i < rs.rules.length - 1 := by omega
  refine ⟨rs.rules[i], rs.rules[i + 1], List.getElem?_eq_getElem h1,
    List.getElem?_eq_getElem h2, ?_⟩
  unfold ruleset_swap
  simp only [rulelist_t.n_rules, h, h3, and_self, if_true, List.getElem?_eq_getElem h1,
    List.getElem?_eq_getElem h2, bit_vector_and_safe, bit_vector_or_safe,
    bit_vector_and_not_safe]

theorem swap_first_match {n : Nat} (rules : rule_table n) (rs : rulelist_t n) (i : Nat)
    (hfm : first_match_invariant rules rs) (h : i + 1 < rs.n_rules - 1) :
    ruleset_swap rs i (i + 1) rules =
      some ⟨rs.n_alloc,
        (ruleset_init_loop rules (exchange_ids (ruleset_backup rs) i (i + 1)) Finset.univ).1⟩ := by
  have hL := (first_match_iff rules rs).1 hfm
  have hlen : (ruleset_backup rs).length = rs.rules.length := backup_length rs
  unfold rulelist_t.n_rules at h
  obtain ⟨IA, IM, IC, a, b, hids, hA, hM⟩ :=
    list_decomp (ruleset_backup rs) i (i + 1) (Nat.lt_succ_self i) (by omega)
  have hIM : IM = [] := List.length_eq_zero.1 (by omega)
  subst hIM
  simp only [List.nil_append] at hids
  have hIC : IC ≠ [] := by
    intro hnil
    have := congrArg List.length hids
    rw [hnil] at this
    simp only [List.length_append, List.length_cons, List.length_nil] at this
    omega
  rw [hids] at hL ⊢
  have key := swap_swept rules rs.n_alloc IA IC a b hIC
  rw [← hL, hA] at key
  rw [key]
  have hex := exchange_ids_decomp IA [] IC a b
  simp only [List.nil_append, List.length_nil, Nat.add_zero] at hex
  rw [hA] at hex
  rw [hex]

/-- C6: adjacent swap is a correct local update. For every ruleset satisfying
the first-match invariant and every `i`, `j` with `i + 1 = j < n_rules - 1`,
`ruleset_swap` exchanges the rule ids at positions `i` and `j`, leaves the
entry at every other position unchanged, and leaves at every position the
captures that the sweep of `ruleset_init` computes for the exchanged id order:
new position `i` holds `truthtable[old rule j]` minus the earlier captures and
new position `j` holds the old `captures[i]` minus that. -/
theorem ruleset_swap_local_update {n : Nat} (rules : rule_table n) (rs : rulelist_t n)
    (i j : Nat) (hfm : first_match_invariant rules rs) (hij : i + 1 = j)
    (hj : j < rs.n_rules - 1) :
    ∃ (rs' : rulelist_t n) (re_i re_j : rulelist_entry_t n),
      rs.rules[i]? = some re_i ∧ rs.rules[j]? = some re_j ∧
      ruleset_swap rs i j rules = some rs' ∧
      rs'.rules[i]? = some ⟨re_j.rule_id,
        (rules re_j.rule_id).truthtable ∩ (captures_union (rs.rules.take i))ᶜ⟩ ∧
      rs'.rules[j]? = some ⟨re_i.rule_id,
        re_i.captures \
          ((rules re_j.rule_id).truthtable ∩ (captures_union (rs.rules.take i))ᶜ)⟩ ∧
      (∀ k : Nat, k ≠ i → k ≠ j → rs'.rules[k]? = rs.rules[k]?) ∧
      ruleset_backup rs' = exchange_ids (ruleset_backup rs) i j ∧
      rs'.rules =
        (ruleset_init_loop rules (exchange_ids (ruleset_backup rs) i j)
          (bit_vector_set_all (bit_vector_init n))).1 := by
  subst hij
  have hlen : i + 1 < rs.rules.length - 1 := hj
  have h1 : i < rs.rules.length := by omega
  have h2 : i + 1 < rs.rules.length := by omega
  obtain ⟨re_i, re_j, hi, hj', hswap⟩ := swap_eq rules rs i hlen
  have hswept := swap_first_match rules rs i hfm hj
  have hrules := Option.some.inj (hswap.symm.trans hswept)
  have hrules' := congrArg rulelist_t.rules hrules
  simp only at hrules'
  -- the captures of the two entries, by the first-match invariant
  have hei : re_i = rs.rules[i] := by
    rw [List.getElem?_eq_getElem h1] at hi; exact (Option.some.inj hi).symm
  have hej : re_j = rs.rules[i + 1] := by
    rw [List.getElem?_eq_getElem h2] at hj'; exact (Option.some.inj hj').symm
  have hci := hfm i h1
  have hcj := hfm (i + 1) h2
  rw [← hei] at hci
  rw [← hej, List.take_succ, hi, Option.toList_some, captures_union_append,
    captures_union_cons, captures_union_nil, Finset.union_empty] at hcj
  have hnew : re_j.captures ∪ (re_i.captures ∩ (rules re_j.rule_id).truthtable) =
      (rules re_j.rule_id).truthtable ∩ (captures_union (rs.rules.take i))ᶜ := by
    rw [hcj, hci]
    ext s
    simp only [Finset.mem_union, Finset.mem_inter, Finset.mem_compl]
    tauto
  rw [hnew] at hswap hrules'
  refine ⟨_, re_i, re_j, hi, hj', hswap, ?_, ?_, ?_, ?_, ?_⟩
  · simp only
    rw [List.getElem?_set_ne (by omega), List.getElem?_set_self h1]
  · simp only
    rw [List.getElem?_set_self (by simpa using h2)]
  · intro k hki hkj
    simp only
    rw [List.getElem?_set_ne (Ne.symm hkj), List.getElem?_set_ne (Ne.symm hki)]
  · exact (first_match_of_rules_eq rules _ _ hrules').2
  · exact hrules'

/-- C6 (witness): exchanging positions 0 and 1 of the ruleset of order
`[1, 2, 3, 0]` on the four-sample table. -/
theorem ruleset_swap_local_update_witness :
    first_match_invariant rules4 ⟨4, [⟨1, {0, 1}⟩, ⟨2, {2}⟩, ⟨3, ∅⟩, ⟨0, {3}⟩]⟩ ∧
    0 + 1 = 1 ∧
    1 < (⟨4, [⟨1, {0, 1}⟩, ⟨2, {2}⟩, ⟨3, ∅⟩, ⟨0, {3}⟩]⟩ : rulelist_t 4).n_rules - 1 ∧
    ∃ (rs' : rulelist_t 4) (re_i re_j : rulelist_entry_t 4),
      (⟨4, [⟨1, {0, 1}⟩, ⟨2, {2}⟩, ⟨3, ∅⟩, ⟨0, {3}⟩]⟩ : rulelist_t 4).rules[0]? = some re_i ∧
      (⟨4, [⟨1, {0, 1}⟩, ⟨2, {2}⟩, ⟨3, ∅⟩, ⟨0, {3}⟩]⟩ : rulelist_t 4).rules[1]? = some re_j ∧
      ruleset_swap ⟨4, [⟨1, {0, 1}⟩, ⟨2, {2}⟩, ⟨3, ∅⟩, ⟨0, {3}⟩]⟩ 0 1 rules4 = some rs' ∧
      rs'.rules[0]? = some ⟨re_j.rule_id,
        (rules4 re_j.rule_id).truthtable ∩
          (captures_union
            ((⟨4, [⟨1, {0, 1}⟩, ⟨2, {2}⟩, ⟨3, ∅⟩, ⟨0, {3}⟩]⟩ : rulelist_t 4).rules.take 0))ᶜ⟩ ∧
      rs'.rules[1]? = some ⟨re_i.rule_id,
        re_i.captures \
          ((rules4 re_j.rule_id).truthtable ∩
            (captures_union
              ((⟨4, [⟨1, {0, 1}⟩, ⟨2, {2}⟩, ⟨3, ∅⟩, ⟨0, {3}⟩]⟩ :
                rulelist_t 4).rules.take 0))ᶜ)⟩ ∧
      (∀ k : Nat, k ≠ 0 → k ≠ 1 → rs'.rules[k]? =
        (⟨4, [⟨1, {0, 1}⟩, ⟨2, {2}⟩, ⟨3, ∅⟩, ⟨0, {3}⟩]⟩ : rulelist_t 4).rules[k]?) ∧
      ruleset_backup rs' =
        exchange_ids
          (ruleset_backup (⟨4, [⟨1, {0, 1}⟩, ⟨2, {2}⟩, ⟨3, ∅⟩, ⟨0, {3}⟩]⟩ : rulelist_t 4))
          0 1 ∧
      rs'.rules =
        (ruleset_init_loop rules4
          (exchange_ids
            (ruleset_backup (⟨4, [⟨1, {0, 1}⟩, ⟨2, {2}⟩, ⟨3, ∅⟩, ⟨0, {3}⟩]⟩ : rulelist_t 4))
            0 1)
          (bit_vector_set_all (bit_vector_init 4))).1 :=
  ⟨by decide, by decide, by decide,
    ruleset_swap_local_update rules4 ⟨4, [⟨1, {0, 1}⟩, ⟨2, {2}⟩, ⟨3, ∅⟩, ⟨0, {3}⟩]⟩ 0 1
      (by decide) (by decide) (by decide)⟩

/-! ## `ruleset_swap_any` on arbitrary rulesets -/

theorem swap_any_comm {n : Nat} (rules : rule_table n) (rs : rulelist_t n) (i j : Nat) :
    ruleset_swap_any rs i j rules = ruleset_swap_any rs j i rules := by
  unfold ruleset_swap_any
  rcases Nat.lt_trichotomy i j with h | h | h
  · have h1 : ¬ i = j := Nat.ne_of_lt h
    have h2 : ¬ j = i := fun e => h1 e.symm
    have h3 : ¬ i > j := Nat.not_lt_of_gt h
    have h4 : j > i := h
    simp only [h1, h2, h3, h4, if_false, if_true, and_comm]
  · rw [h]
  · have h1 : ¬ i = j := Nat.ne_of_gt h
    have h2 : ¬ j = i := fun e => h1 e.symm
    have h3 : ¬ j > i := Nat.not_lt_of_gt h
    have h4 : i > j := h
    simp only [h1, h2, h3, h4, if_false, if_true, and_comm]

theorem swap_any_eq_of_lt {n : Nat} (rules : rule_table n) (rs : rulelist_t n) (i j : Nat)
    (hij : i < j) (hj : j < rs.n_rules) :
    ruleset_swap_any rs i j rules =
      if bit_vector_n_ones (ruleset_swap_any_sweep rs i j rules).2.1 = 0 ∧
          (ruleset_swap_any_sweep rs i j rules).2.2.1 =
            (ruleset_swap_any_sweep rs i j rules).2.2.2 then
        some (ruleset_swap_any_sweep rs i j rules).1
      else none := by
  have h1 : ¬ i = j := Nat.ne_of_lt hij
  have h3 : ¬ i > j := Nat.not_lt_of_gt hij
  have h5 : i < rs.n_rules := Nat.lt_trans hij hj
  unfold ruleset_swap_any
  simp only [h1, h3, h5, hj, and_self, if_false, if_true]

theorem swap_any_sweep_frame {n : Nat} (rules : rule_table n) (rs : rulelist_t n) (i j : Nat)
    (hij : i < j) (hj : j < rs.rules.length) :
    (ruleset_swap_any_sweep rs i j rules).2.2.1 =
        bit_vector_n_ones (captures_union ((rs.rules.drop i).take (j + 1 - i))) ∧
      (ruleset_swap_any_sweep rs i j rules).2.2.2 =
        ((((ruleset_swap_any_sweep rs i j rules).1.rules.drop i).take (j + 1 - i)).map
          (fun e => bit_vector_n_ones e.captures)).sum ∧
      (ruleset_swap_any_sweep rs i j rules).1.rules.length = rs.rules.length ∧
      (∀ k : Nat, k < i ∨ j < k →
        (ruleset_swap_any_sweep rs i j rules).1.rules[k]? = rs.rules[k]?) := by
  obtain ⟨A, M, C, x, y, hL, hA, hM⟩ := list_decomp rs.rules i j hij hj
  obtain ⟨al, L⟩ := rs
  simp only at hL hj ⊢
  subst hL hA hM
  rw [swap_any_sweep_decomp]
  simp only
  generalize hr : ruleset_swap_any_loop rules
    (⟨y.rule_id, x.captures⟩ :: (M ++ [⟨x.rule_id, y.captures⟩]))
    (captures_union (x :: (M ++ [y]))) 0 = r
  have hrlen : r.1.length = M.length + 2 := by
    rw [← hr, swap_any_loop_length]; simp
  have hwlen : A.length + M.length + 1 + 1 - A.length = r.1.length := by omega
  refine ⟨?_, ?_, ?_, ?_⟩
  · rw [list_mid_window]; rfl
  · have hsum := swap_any_loop_sum rules
      (⟨y.rule_id, x.captures⟩ :: (M ++ [⟨x.rule_id, y.captures⟩]))
      (captures_union (x :: (M ++ [y]))) 0
    rw [hr] at hsum
    rw [hsum, List.append_assoc, List.drop_left, hwlen, List.take_left]
    simp
  · simp only [List.length_append, List.length_cons, hrlen]
    omega
  · intro k hk
    rcases hk with hk | hk
    · rw [List.append_assoc, List.getElem?_append_left hk, List.getElem?_append_left hk]
    · have e1 : A ++ r.1 ++ C = (A ++ r.1) ++ C := rfl
      have e2 : A ++ x :: (M ++ y :: C) = (A ++ x :: (M ++ [y])) ++ C := by simp
      have l1 : (A ++ r.1).length = A.length + M.length + 2 := by
        simp only [List.length_append, hrlen]; omega
      have l2 : (A ++ x :: (M ++ [y])).length = A.length + M.length + 2 := by
        simp only [List.length_append, List.length_cons, List.length_nil]; omega
      rw [e2, List.getElem?_append_right (by omega), List.getElem?_append_right (by omega),
        l1, l2]

/-! ## `ruleset_swap_any` on rulesets that satisfy the first-match invariant -/

theorem swap_any_first_match {n : Nat} (rules : rule_table n) (rs : rulelist_t n) (i j : Nat)
    (hfm : first_match_invariant rules rs) (hij : i < j) (hj : j < rs.n_rules) :
    (ruleset_swap_any_sweep rs i j rules).1 =
        ⟨rs.n_alloc,
          (ruleset_init_loop rules (exchange_ids (ruleset_backup rs) i j) Finset.univ).1⟩ ∧
      (ruleset_swap_any_sweep rs i j rules).2.1 = ∅ ∧
      (ruleset_swap_any_sweep rs i j rules).2.2.1 =
        (ruleset_swap_any_sweep rs i j rules).2.2.2 ∧
      ruleset_swap_any rs i j rules =
        some ⟨rs.n_alloc,
          (ruleset_init_loop rules (exchange_ids (ruleset_backup rs) i j) Finset.univ).1⟩ := by
  have hL := (first_match_iff rules rs).1 hfm
  have hlen : (ruleset_backup rs).length = rs.rules.length := backup_length rs
  have hj' : j < (ruleset_backup rs).length := by rw [hlen]; exact hj
  obtain ⟨IA, IM, IC, a, b, hids, hA, hM⟩ := list_decomp (ruleset_backup rs) i j hij hj'
  have key := swap_any_sweep_swept rules rs.n_alloc IA IM IC a b
  rw [← hids, ← hL, hM, hA] at key
  have hex := exchange_ids_decomp IA IM IC a b
  rw [← hids, hM, hA] at hex
  rw [← hex] at key
  obtain ⟨k1, k2, k3⟩ := key
  refine ⟨k1, k2, k3, ?_⟩
  rw [swap_any_eq_of_lt rules rs i j hij hj, if_pos ⟨by simp [bit_vector_n_ones, k2], k3⟩, k1]

theorem swap_any_first_match_all {n : Nat} (rules : rule_table n) (rs : rulelist_t n)
    (i j : Nat) (hfm : first_match_invariant rules rs) (hi : i < rs.n_rules)
    (hj : j < rs.n_rules) :
    ruleset_swap_any rs i j rules =
      some ⟨rs.n_alloc,
        (ruleset_init_loop rules (exchange_ids (ruleset_backup rs) i j) Finset.univ).1⟩ := by
  rcases Nat.lt_trichotomy i j with h | h | h
  · exact (swap_any_first_match rules rs i j hfm h hj).2.2.2
  · subst h
    rw [exchange_ids_self, ← (first_match_iff rules rs).1 hfm]
    unfold ruleset_swap_any
    rw [if_pos rfl]
  · rw [swap_any_comm, exchange_ids_comm]
    exact (swap_any_first_match rules rs j i hfm h hi).2.2.2

/-- C7: arbitrary swap equals recomputation from scratch. For every ruleset
satisfying the first-match invariant with full coverage and every pair of
positions `i, j < n_rules`, `ruleset_swap_any` returns a ruleset whose id
sequence is the old one with the ids at `i` and `j` exchanged and whose
entries are those `ruleset_init` computes for that exchanged id sequence; the
result is the same for `(i, j)` and `(j, i)`, and nothing changes when
`i = j`. -/
theorem ruleset_swap_any_eq_init {n : Nat} (rules : rule_table n) (rs : rulelist_t n)
    (i j : Nat) (hfm : first_match_invariant rules rs) (hcov : full_coverage rs)
    (hi : i < rs.n_rules) (hj : j < rs.n_rules) :
    ∃ rs' rs_init : rulelist_t n,
      ruleset_swap_any rs i j rules = some rs' ∧
      ruleset_backup rs' = exchange_ids (ruleset_backup rs) i j ∧
      ruleset_init (exchange_ids (ruleset_backup rs) i j) rules = some rs_init ∧
      rs'.rules = rs_init.rules ∧
      ruleset_swap_any rs j i rules = some rs' ∧
      (i = j → rs' = rs) := by
  have h := swap_any_first_match_all rules rs i j hfm hi hj
  have hcover : ∀ s : Fin n, ∃ id ∈ exchange_ids (ruleset_backup rs) i j,
      s ∈ (rules id).truthtable := by
    intro s
    obtain ⟨id, hid, hs⟩ := swept_covers rules rs hfm hcov s
    exact ⟨id, (mem_exchange_ids _ i j id).2 hid, hs⟩
  refine ⟨_, _, h, ?_, (ruleset_init_eq_some_iff _ rules _).2 ⟨hcover, rfl⟩, rfl, ?_, ?_⟩
  · exact (first_match_of_rules_eq rules _ _ rfl).2
  · rw [swap_any_comm]; exact h
  · intro hij
    subst hij
    rw [exchange_ids_self, ← (first_match_iff rules rs).1 hfm]

/-- C7 (witness): exchanging positions 2 and 0 of the ruleset of order
`[1, 2, 0]` on the four-sample table. -/
theorem ruleset_swap_any_eq_init_witness :
    first_match_invariant rules4 ⟨3, [⟨1, {0, 1}⟩, ⟨2, {2}⟩, ⟨0, {3}⟩]⟩ ∧
    full_coverage (n := 4) ⟨3, [⟨1, {0, 1}⟩, ⟨2, {2}⟩, ⟨0, {3}⟩]⟩ ∧
    ∃ rs' rs_init : rulelist_t 4,
      ruleset_swap_any ⟨3, [⟨1, {0, 1}⟩, ⟨2, {2}⟩, ⟨0, {3}⟩]⟩ 2 0 rules4 = some rs' ∧
      ruleset_backup rs' =
        exchange_ids
          (ruleset_backup (⟨3, [⟨1, {0, 1}⟩, ⟨2, {2}⟩, ⟨0, {3}⟩]⟩ : rulelist_t 4)) 2 0 ∧
      ruleset_init
          (exchange_ids
            (ruleset_backup (⟨3, [⟨1, {0, 1}⟩, ⟨2, {2}⟩, ⟨0, {3}⟩]⟩ : rulelist_t 4)) 2 0)
          rules4 = some rs_init ∧
      rs'.rules = rs_init.rules ∧
      ruleset_swap_any ⟨3, [⟨1, {0, 1}⟩, ⟨2, {2}⟩, ⟨0, {3}⟩]⟩ 0 2 rules4 = some rs' ∧
      (2 = 0 → rs' = ⟨3, [⟨1, {0, 1}⟩, ⟨2, {2}⟩, ⟨0, {3}⟩]⟩) :=
  ⟨by decide, by decide,
    ruleset_swap_any_eq_init rules4 ⟨3, [⟨1, {0, 1}⟩, ⟨2, {2}⟩, ⟨0, {3}⟩]⟩ 2 0
      (by decide) (by decide) (by decide) (by decide)⟩

theorem swap_any_assertions_lt {n : Nat} (rules : rule_table n) (rs : rulelist_t n)
    (lo hi : Nat) (hfm : first_match_invariant rules rs) (hlt : lo < hi)
    (hhi : hi < rs.n_rules) :
    ruleset_swap_any rs lo hi rules = some (ruleset_swap_any_sweep rs lo hi rules).1 ∧
      bit_vector_n_ones (ruleset_swap_any_sweep rs lo hi rules).2.1 = 0 ∧
      (ruleset_swap_any_sweep rs lo hi rules).2.2.1 =
        (ruleset_swap_any_sweep rs lo hi rules).2.2.2 ∧
      ((((ruleset_swap_any_sweep rs lo hi rules).1.rules.drop lo).take (hi + 1 - lo)).map
          (fun e => bit_vector_n_ones e.captures)).sum =
        bit_vector_n_ones (captures_union ((rs.rules.drop lo).take (hi + 1 - lo))) := by
  obtain ⟨k1, k2, k3, k4⟩ := swap_any_first_match rules rs lo hi hfm hlt hhi
  obtain ⟨f1, f2, _, _⟩ := swap_any_sweep_frame rules rs lo hi hlt hhi
  refine ⟨by rw [k4, k1], by simp [bit_vector_n_ones, k2], k3, ?_⟩
  rw [← f2, ← f1, k3]

/-- C8: the postcondition checks of `ruleset_swap_any`. For every ruleset
satisfying the first-match invariant and every pair of positions
`i, j < n_rules`, the call returns (no assertion fails); when `i ≠ j`, after
the re-sweep of the window the pool `caught` is empty and `cnt = cnt_check`;
and the sum of the population counts of the new captures over the window
`[min(i,j), max(i,j)]` equals the population count of the union of the old
captures over that window. -/
theorem ruleset_swap_any_assertions {n : Nat} (rules : rule_table n) (rs : rulelist_t n)
    (i j : Nat) (hfm : first_match_invariant rules rs)
    (hi : i < rs.n_rules) (hj : j < rs.n_rules) :
    ∃ rs' : rulelist_t n,
      ruleset_swap_any rs i j rules = some rs' ∧
      (i ≠ j →
        bit_vector_n_ones (ruleset_swap_any_sweep rs (min i j) (max i j) rules).2.1 = 0 ∧
        (ruleset_swap_any_sweep rs (min i j) (max i j) rules).2.2.1 =
          (ruleset_swap_any_sweep rs (min i j) (max i j) rules).2.2.2) ∧
      (((rs'.rules.drop (min i j)).take (max i j + 1 - min i j)).map
          (fun e => bit_vector_n_ones e.captures)).sum =
        bit_vector_n_ones
          (captures_union ((rs.rules.drop (min i j)).take (max i j + 1 - min i j))) := by
  rcases Nat.lt_trichotomy i j with h | h | h
  · obtain ⟨a1, a2, a3, a4⟩ := swap_any_assertions_lt rules rs i j hfm h hj
    rw [Nat.min_eq_left (Nat.le_of_lt h), Nat.max_eq_right (Nat.le_of_lt h)]
    exact ⟨_, a1, fun _ => ⟨a2, a3⟩, a4⟩
  · subst h
    refine ⟨rs, by unfold ruleset_swap_any; rw [if_pos rfl], fun hne => absurd rfl hne, ?_⟩
    have hi' : i < rs.rules.length := hi
    have hw : i + 1 - i = 1 := by omega
    rw [Nat.min_self, Nat.max_self, hw, List.drop_eq_getElem_cons hi']
    simp only [List.take_succ_cons, List.take_zero, List.map_cons, List.map_nil,
      List.sum_cons, List.sum_nil, captures_union_cons, captures_union_nil,
      Finset.union_empty, Nat.add_zero]
  · obtain ⟨a1, a2, a3, a4⟩ := swap_any_assertions_lt rules rs j i hfm h hi
    rw [Nat.min_eq_right (Nat.le_of_lt h), Nat.max_eq_left (Nat.le_of_lt h), swap_any_comm]
    exact ⟨_, a1, fun _ => ⟨a2, a3⟩, a4⟩

/-- C8 (witness): exchanging positions 2 and 0 of the ruleset of order
`[1, 2, 0]` on the four-sample table. -/
theorem ruleset_swap_any_assertions_witness :
    first_match_invariant rules4 ⟨3, [⟨1, {0, 1}⟩, ⟨2, {2}⟩, ⟨0, {3}⟩]⟩ ∧
    ∃ rs' : rulelist_t 4,
      ruleset_swap_any ⟨3, [⟨1, {0, 1}⟩, ⟨2, {2}⟩, ⟨0, {3}⟩]⟩ 2 0 rules4 = some rs' ∧
      (2 ≠ 0 →
        bit_vector_n_ones (ruleset_swap_any_sweep
          ⟨3, [⟨1, {0, 1}⟩, ⟨2, {2}⟩, ⟨0, {3}⟩]⟩ (min 2 0) (max 2 0) rules4).2.1 = 0 ∧
        (ruleset_swap_any_sweep
          ⟨3, [⟨1, {0, 1}⟩, ⟨2, {2}⟩, ⟨0, {3}⟩]⟩ (min 2 0) (max 2 0) rules4).2.2.1 =
          (ruleset_swap_any_sweep
            ⟨3, [⟨1, {0, 1}⟩, ⟨2, {2}⟩, ⟨0, {3}⟩]⟩ (min 2 0) (max 2 0) rules4).2.2.2) ∧
      (((rs'.rules.drop (min 2 0)).take (max 2 0 + 1 - min 2 0)).map
          (fun e => bit_vector_n_ones e.captures)).sum =
        bit_vector_n_ones
          (captures_union
            (((⟨3, [⟨1, {0, 1}⟩, ⟨2, {2}⟩, ⟨0, {3}⟩]⟩ : rulelist_t 4).rules.drop
              (min 2 0)).take (max 2 0 + 1 - min 2 0))) :=
  ⟨by decide,
    ruleset_swap_any_assertions rules4 ⟨3, [⟨1, {0, 1}⟩, ⟨2, {2}⟩, ⟨0, {3}⟩]⟩ 2 0
      (by decide) (by decide) (by decide)⟩

/-! ## Local effect of the edits -/

theorem getElem?_take_append {α : Type} (l r : List α) (ndx k : Nat) (hk : k < ndx)
    (hndx : ndx ≤ l.length) : (l.take ndx ++ r)[k]? = l[k]? := by
  have hlen : k < (l.take ndx).length := by
    rw [List.length_take]; omega
  rw [List.getElem?_append_left hlen, List.getElem?_take_of_lt hk]

/-- C9: local effect of insert and delete. For every ruleset, every edit
position `ndx` and every position `k` strictly before `ndx`: when
`ndx <= n_rules`, the entry at `k` is the same before and after the sweep of
`ruleset_add`, hence in every ruleset that `ruleset_add` returns; when `ndx` is
an existing position, `ruleset_delete` returns a ruleset whose entry at `k` is
the same as before. -/
theorem ruleset_add_delete_frame {n : Nat} (rules : rule_table n) (rs : rulelist_t n)
    (r ndx k : Nat) (hk : k < ndx) :
    (ndx ≤ rs.n_rules →
      (ruleset_add_sweep rules rs r ndx).1.rules[k]? = rs.rules[k]? ∧
      ∀ rs' : rulelist_t n, ruleset_add rules rs r ndx = some rs' →
        rs'.rules[k]? = rs.rules[k]?) ∧
    (ndx < rs.n_rules →
      ∃ rs' : rulelist_t n, ruleset_delete rules rs ndx = some rs' ∧
        rs'.rules[k]? = rs.rules[k]?) := by
  constructor
  · intro hndx
    have hsweep : (ruleset_add_sweep rules rs r ndx).1.rules[k]? = rs.rules[k]? := by
      rw [(add_sweep_rules rules rs r ndx hndx).1]
      exact getElem?_take_append _ _ ndx k hk hndx
    refine ⟨hsweep, ?_⟩
    intro rs' hrs'
    unfold ruleset_add at hrs'
    rw [if_pos hndx] at hrs'
    by_cases hz : bit_vector_n_ones (ruleset_add_sweep rules rs r ndx).2 = 0
    · simp only [hz, if_true, Option.some.injEq] at hrs'
      rw [← hrs']; exact hsweep
    · simp only [hz, if_false] at hrs'
      exact Option.noConfusion hrs'
  · intro hndx
    refine ⟨_, (delete_eq rules rs ndx hndx).1, ?_⟩
    exact getElem?_take_append _ _ ndx k hk (Nat.le_of_lt hndx)

/-- C9 (witness): position 0 of the ruleset of order `[1, 2, 0]` on the
four-sample table, for an insertion of rule 3 at position 1 and for a deletion
at position 1. -/
theorem ruleset_add_delete_frame_witness :
    0 < 1 ∧
    (∃ rs' : rulelist_t 4,
      ruleset_add rules4 ⟨3, [⟨1, {0, 1}⟩, ⟨2, {2}⟩, ⟨0, {3}⟩]⟩ 3 1 = some rs' ∧
        rs'.rules[0]? =
          (⟨3, [⟨1, {0, 1}⟩, ⟨2, {2}⟩, ⟨0, {3}⟩]⟩ : rulelist_t 4).rules[0]?) ∧
    (∃ rs' : rulelist_t 4,
      ruleset_delete rules4 ⟨3, [⟨1, {0, 1}⟩, ⟨2, {2}⟩, ⟨0, {3}⟩]⟩ 1 = some rs' ∧
        rs'.rules[0]? =
          (⟨3, [⟨1, {0, 1}⟩, ⟨2, {2}⟩, ⟨0, {3}⟩]⟩ : rulelist_t 4).rules[0]?) :=
  have hadd : ruleset_add rules4 ⟨3, [⟨1, {0, 1}⟩, ⟨2, {2}⟩, ⟨0, {3}⟩]⟩ 3 1 =
      some ⟨4, [⟨1, {0, 1}⟩, ⟨3, ∅⟩, ⟨2, {2}⟩, ⟨0, {3}⟩]⟩ := by decide
  ⟨by decide,
    ⟨_, hadd,
      ((ruleset_add_delete_frame rules4 ⟨3, [⟨1, {0, 1}⟩, ⟨2, {2}⟩, ⟨0, {3}⟩]⟩ 3 1 0
        (by decide)).1 (by decide)).2 _ hadd⟩,
    (ruleset_add_delete_frame rules4 ⟨3, [⟨1, {0, 1}⟩, ⟨2, {2}⟩, ⟨0, {3}⟩]⟩ 3 1 0
      (by decide)).2 (by decide)⟩

/-- C10: local effect of `ruleset_swap_any`. For every ruleset and every pair
of positions `i, j < n_rules`, every ruleset that `ruleset_swap_any` returns
has the same `n_rules` and, at every position strictly below `min(i,j)` or
strictly above `max(i,j)`, the same entry as before; for `i ≠ j` the same
holds of the ruleset as it stands after the re-sweep of the window. -/
theorem ruleset_swap_any_frame {n : Nat} (rules : rule_table n) (rs : rulelist_t n)
    (i j : Nat) (hi : i < rs.n_rules) (hj : j < rs.n_rules) :
    (∀ rs' : rulelist_t n, ruleset_swap_any rs i j rules = some rs' →
      rs'.n_rules = rs.n_rules ∧
      ∀ k : Nat, k < min i j ∨ max i j < k → rs'.rules[k]? = rs.rules[k]?) ∧
    (i ≠ j →
      (ruleset_swap_any_sweep rs (min i j) (max i j) rules).1.n_rules = rs.n_rules ∧
      ∀ k : Nat, k < min i j ∨ max i j < k →
        (ruleset_swap_any_sweep rs (min i j) (max i j) rules).1.rules[k]? = rs.rules[k]?) := by
  have hlt : ∀ lo hi : Nat, lo < hi → hi < rs.n_rules →
      (∀ rs' : rulelist_t n, ruleset_swap_any rs lo hi rules = some rs' →
        rs'.n_rules = rs.n_rules ∧
        ∀ k : Nat, k < lo ∨ hi < k → rs'.rules[k]? = rs.rules[k]?) ∧
      ((ruleset_swap_any_sweep rs lo hi rules).1.n_rules = rs.n_rules ∧
        ∀ k : Nat, k < lo ∨ hi < k →
          (ruleset_swap_any_sweep rs lo hi rules).1.rules[k]? = rs.rules[k]?) := by
    intro lo hi hlohi hhi
    obtain ⟨_, _, f3, f4⟩ := swap_any_sweep_frame rules rs lo hi hlohi hhi
    refine ⟨?_, f3, f4⟩
    intro rs' hrs'
    rw [swap_any_eq_of_lt rules rs lo hi hlohi hhi] at hrs'
    split at hrs'
    · rw [← Option.some.inj hrs']
      exact ⟨f3, f4⟩
    · exact Option.noConfusion hrs'
  rcases Nat.lt_trichotomy i j with h | h | h
  · rw [Nat.min_eq_left (Nat.le_of_lt h), Nat.max_eq_right (Nat.le_of_lt h)]
    exact ⟨(hlt i j h hj).1, fun _ => (hlt i j h hj).2⟩
  · subst h
    refine ⟨?_, fun hne => absurd rfl hne⟩
    intro rs' hrs'
    unfold ruleset_swap_any at hrs'
    rw [if_pos rfl] at hrs'
    rw [← Option.some.inj hrs']
    exact ⟨rfl, fun _ _ => rfl⟩
  · rw [Nat.min_eq_right (Nat.le_of_lt h), Nat.max_eq_left (Nat.le_of_lt h), swap_any_comm]
    exact ⟨(hlt j i h hi).1, fun _ => (hlt j i h hi).2⟩

/-- C10 (witness): exchanging positions 2 and 1 of the ruleset of order
`[1, 2, 3, 0]` on the four-sample table leaves positions 0 and 3 as they
were. -/
theorem ruleset_swap_any_frame_witness :
    2 < (⟨4, [⟨1, {0, 1}⟩, ⟨2, {2}⟩, ⟨3, ∅⟩, ⟨0, {3}⟩]⟩ : rulelist_t 4).n_rules ∧
    1 < (⟨4, [⟨1, {0, 1}⟩, ⟨2, {2}⟩, ⟨3, ∅⟩, ⟨0, {3}⟩]⟩ : rulelist_t 4).n_rules ∧
    ∃ rs' : rulelist_t 4,
      ruleset_swap_any ⟨4, [⟨1, {0, 1}⟩, ⟨2, {2}⟩, ⟨3, ∅⟩, ⟨0, {3}⟩]⟩ 2 1 rules4 = some rs' ∧
      rs'.n_rules = (⟨4, [⟨1, {0, 1}⟩, ⟨2, {2}⟩, ⟨3, ∅⟩, ⟨0, {3}⟩]⟩ : rulelist_t 4).n_rules ∧
      ∀ k : Nat, k < min 2 1 ∨ max 2 1 < k → rs'.rules[k]? =
        (⟨4, [⟨1, {0, 1}⟩, ⟨2, {2}⟩, ⟨3, ∅⟩, ⟨0, {3}⟩]⟩ : rulelist_t 4).rules[k]? :=
  have hswap : ruleset_swap_any ⟨4, [⟨1, {0, 1}⟩, ⟨2, {2}⟩, ⟨3, ∅⟩, ⟨0, {3}⟩]⟩ 2 1 rules4 =
      some ⟨4, [⟨1, {0, 1}⟩, ⟨3, ∅⟩, ⟨2, {2}⟩, ⟨0, {3}⟩]⟩ := by decide
  ⟨by decide, by decide, _, hswap,
    (ruleset_swap_any_frame rules4 ⟨4, [⟨1, {0, 1}⟩, ⟨2, {2}⟩, ⟨3, ∅⟩, ⟨0, {3}⟩]⟩ 2 1
      (by decide) (by decide)).1 _ hswap⟩

/-! ## The partition invariant over reachable states -/

theorem reachable_first_match {n : Nat} (rules : rule_table n)
    (hd : is_default_rule rules 0) (rs : rulelist_t n)
    (h : reachable_keeping_default rules rs) :
    first_match_invariant rules rs ∧ 0 ∈ ruleset_backup rs := by
  unfold reachable_keeping_default at h
  induction h with
  | init idarray rs hnodup hlast hinit =>
    obtain ⟨_, hrs⟩ := (ruleset_init_eq_some_iff idarray rules rs).1 hinit
    have hr : rs.rules = (ruleset_init_loop rules idarray Finset.univ).1 := by rw [hrs]
    obtain ⟨hfm, hb⟩ := first_match_of_rules_eq rules rs idarray hr
    exact ⟨hfm, by rw [hb]; exact List.mem_of_getLast?_eq_some hlast⟩
  | add rs rs' newrule ndx _ hndx _ hadd ih =>
    obtain ⟨hfm, h0⟩ := ih
    have hcov := full_coverage_of_default rules rs hfm 0 hd h0
    obtain ⟨a1, a2, _⟩ := add_first_match rules rs newrule ndx hfm hcov hndx
    rw [a1] at hadd
    rw [← Option.some.inj hadd]
    obtain ⟨hfm', hb⟩ := first_match_of_rules_eq rules _ _ a2
    refine ⟨hfm', ?_⟩
    rw [hb]
    rw [← List.take_append_drop ndx (ruleset_backup rs), List.mem_append] at h0
    rw [List.mem_append, List.mem_cons]
    tauto
  | delete rs rs' ndx _ hndx hmay hdel ih =>
    obtain ⟨hfm, h0⟩ := ih
    rw [delete_first_match rules rs ndx hfm hndx] at hdel
    rw [← Option.some.inj hdel]
    obtain ⟨hfm', hb⟩ := first_match_of_rules_eq rules
      ⟨rs.n_alloc, (ruleset_init_loop rules
        ((ruleset_backup rs).take ndx ++ (ruleset_backup rs).drop (ndx + 1)) Finset.univ).1⟩
      _ rfl
    refine ⟨hfm', ?_⟩
    rw [hb]
    have hndx' : ndx < (ruleset_backup rs).length := by rw [backup_length]; exact hndx
    have hne : (ruleset_backup rs)[ndx] ≠ 0 := by
      have hlt : ndx < rs.rules.length := hndx
      have hget : rs.rules[ndx]? = some rs.rules[ndx] := List.getElem?_eq_getElem hlt
      have := hmay _ hget
      simpa [ruleset_backup] using this
    rw [← List.take_append_drop ndx (ruleset_backup rs), List.drop_eq_getElem_cons hndx',
      List.mem_append, List.mem_cons] at h0
    rw [List.mem_append]
    rcases h0 with h0 | h0 | h0
    · exact Or.inl h0
    · exact absurd h0.symm hne
    · exact Or.inr h0
  | swap rs rs' i j _ hij hi hj hswap ih =>
    obtain ⟨hfm, h0⟩ := ih
    subst hij
    rw [swap_first_match rules rs i hfm hj] at hswap
    rw [← Option.some.inj hswap]
    obtain ⟨hfm', hb⟩ := first_match_of_rules_eq rules
      ⟨rs.n_alloc, (ruleset_init_loop rules
        (exchange_ids (ruleset_backup rs) i (i + 1)) Finset.univ).1⟩ _ rfl
    exact ⟨hfm', by rw [hb]; exact (mem_exchange_ids _ _ _ _).2 h0⟩
  | swap_any rs rs' i j _ hi hj hswap ih =>
    obtain ⟨hfm, h0⟩ := ih
    rw [swap_any_first_match_all rules rs i j hfm hi hj] at hswap
    rw [← Option.some.inj hswap]
    obtain ⟨hfm', hb⟩ := first_match_of_rules_eq rules
      ⟨rs.n_alloc, (ruleset_init_loop rules
        (exchange_ids (ruleset_backup rs) i j) Finset.univ).1⟩ _ rfl
    exact ⟨hfm', by rw [hb]; exact (mem_exchange_ids _ _ _ _).2 h0⟩

/-- C3 (counterexample): on the four-sample table, whose rule 0 is the default
rule, `ruleset_init` on `[1, 2, 0]` followed by `ruleset_delete` at the
existing position 2 (the default rule) is a reachable state in which sample 3
is captured by no entry. -/
theorem partition_lost_by_deleting_default :
    is_default_rule rules4 0 ∧
      ∃ rs : rulelist_t 4, reachable rules4 rs ∧ ¬ partition_invariant rs :=
  ⟨by decide, ⟨3, [⟨1, {0, 1}⟩, ⟨2, {2}⟩]⟩,
    reachable_with.delete ⟨3, [⟨1, {0, 1}⟩, ⟨2, {2}⟩, ⟨0, {3}⟩]⟩ _ 2
      (reachable_with.init [1, 2, 0] _ (by decide) (by decide) (by decide))
      (by decide) trivial (by decide),
    by decide⟩

/-- C3 (as amended): for every ruleset state reachable from `ruleset_init` (on
a duplicate-free id list ending in the default rule 0) by any finite sequence
of `ruleset_add`, `ruleset_delete` at an existing position whose entry is not
the default rule 0, `ruleset_swap` and `ruleset_swap_any`, the captures are
pairwise disjoint and their union is the full sample set. -/
theorem partition_of_reachable_keeping_default {n : Nat} (rules : rule_table n)
    (hd : is_default_rule rules 0) (rs : rulelist_t n)
    (h : reachable_keeping_default rules rs) :
    captures_disjoint rs.rules ∧ captures_union rs.rules = Finset.univ := by
  obtain ⟨hfm, h0⟩ := reachable_first_match rules hd rs h
  exact ⟨captures_disjoint_of_first_match rules rs hfm,
    full_coverage_of_default rules rs hfm 0 hd h0⟩

/-- C3 (witness): `ruleset_init` on `[1, 2, 0]` followed by `ruleset_delete` at
position 1 on the four-sample table. -/
theorem partition_of_reachable_keeping_default_witness :
    is_default_rule rules4 0 ∧
    reachable_keeping_default rules4 ⟨3, [⟨1, {0, 1}⟩, ⟨0, {2, 3}⟩]⟩ ∧
    captures_disjoint (⟨3, [⟨1, {0, 1}⟩, ⟨0, {2, 3}⟩]⟩ : rulelist_t 4).rules ∧
    captures_union (⟨3, [⟨1, {0, 1}⟩, ⟨0, {2, 3}⟩]⟩ : rulelist_t 4).rules = Finset.univ :=
  have hreach : reachable_keeping_default rules4 ⟨3, [⟨1, {0, 1}⟩, ⟨0, {2, 3}⟩]⟩ :=
    reachable_with.delete ⟨3, [⟨1, {0, 1}⟩, ⟨2, {2}⟩, ⟨0, {3}⟩]⟩ _ 1
      (reachable_with.init [1, 2, 0] _ (by decide) (by decide) (by decide))
      (by decide)
      (fun e he => by
        have : e = ⟨2, {2}⟩ := (Option.some.inj he).symm
        rw [this]; decide)
      (by decide)
  ⟨by decide, hreach, partition_of_reachable_keeping_default rules4 (by decide) _ hreach⟩

/-! ## Round trips -/

theorem init_some_first_match {n : Nat} (rules : rule_table n) (idarray : List Nat)
    (rs : rulelist_t n) (h : ruleset_init idarray rules = some rs) :
    first_match_invariant rules rs ∧ full_coverage rs ∧ ruleset_backup rs = idarray := by
  obtain ⟨hcover, hrs⟩ := (ruleset_init_eq_some_iff idarray rules rs).1 h
  have hr : rs.rules = (ruleset_init_loop rules idarray Finset.univ).1 := by rw [hrs]
  obtain ⟨hfm, hb⟩ := first_match_of_rules_eq rules rs idarray hr
  refine ⟨hfm, ?_, hb⟩
  unfold full_coverage
  rw [hr]
  ext s
  simp only [mem_init_loop_union, Finset.mem_univ, true_and, iff_true]
  exact hcover s

theorem add_delete_roundtrip {n : Nat} (rules : rule_table n) (rs : rulelist_t n)
    (r k : Nat) (hfm : first_match_invariant rules rs) (hcov : full_coverage rs)
    (hk : k ≤ rs.n_rules) :
    ∃ rs1 rs2 : rulelist_t n,
      ruleset_add rules rs r k = some rs1 ∧ ruleset_delete rules rs1 k = some rs2 ∧
      rs2.rules = rs.rules := by
  obtain ⟨a1, a2, _⟩ := add_first_match rules rs r k hfm hcov hk
  obtain ⟨hfm1, hb1⟩ := first_match_of_rules_eq rules _ _ a2
  have hk' : k ≤ (ruleset_backup rs).length := by rw [backup_length]; exact hk
  have hlen1 : k < (ruleset_add_sweep rules rs r k).1.n_rules := by
    have := congrArg List.length hb1
    rw [backup_length, List.length_append, List.length_cons, List.length_take,
      List.length_drop] at this
    unfold rulelist_t.n_rules
    omega
  have hdel := delete_first_match rules _ k hfm1 hlen1
  have htake : ((ruleset_backup rs).take k ++ r :: (ruleset_backup rs).drop k).take k =
      (ruleset_backup rs).take k :=
    List.take_left' (by rw [List.length_take]; omega)
  have hdrop : ((ruleset_backup rs).take k ++ r :: (ruleset_backup rs).drop k).drop (k + 1) =
      (ruleset_backup rs).drop k := by
    have e : (ruleset_backup rs).take k ++ r :: (ruleset_backup rs).drop k =
        ((ruleset_backup rs).take k ++ [r]) ++ (ruleset_backup rs).drop k := by simp
    rw [e]
    exact List.drop_left' (by rw [List.length_append, List.length_take]; simp; omega)
  rw [hb1, htake, hdrop, List.take_append_drop, ← (first_match_iff rules rs).1 hfm] at hdel
  exact ⟨_, _, a1, hdel, rfl⟩

/-- C11: insert/delete round trip. For every ruleset `rs` returned by
`ruleset_init`, every position `k` in `[0, n_rules]` and every rule id `r` not
in the list, `ruleset_add` at `k` returns a ruleset on which `ruleset_delete`
at `k` returns a ruleset with the same length and, at every position, the same
rule id and the same captures as `rs`. -/
theorem ruleset_add_delete_roundtrip {n : Nat} (rules : rule_table n) (idarray : List Nat)
    (rs : rulelist_t n) (r k : Nat) (hinit : ruleset_init idarray rules = some rs)
    (hk : k ≤ rs.n_rules) (_hr : r ∉ idarray) :
    ∃ rs1 rs2 : rulelist_t n,
      ruleset_add rules rs r k = some rs1 ∧ ruleset_delete rules rs1 k = some rs2 ∧
      rs2.n_rules = rs.n_rules ∧ rs2.rules = rs.rules := by
  obtain ⟨hfm, hcov, _⟩ := init_some_first_match rules idarray rs hinit
  obtain ⟨rs1, rs2, h1, h2, h3⟩ := add_delete_roundtrip rules rs r k hfm hcov hk
  exact ⟨rs1, rs2, h1, h2, by unfold rulelist_t.n_rules; rw [h3], h3⟩

/-- C11 (witness): inserting rule 2 at position 1 of the ruleset of order
`[1, 0]` on the four-sample table, then deleting position 1. -/
theorem ruleset_add_delete_roundtrip_witness :
    ruleset_init [1, 0] rules4 = some rs_ad ∧ 1 ≤ rs_ad.n_rules ∧ 2 ∉ [1, 0] ∧
    ∃ rs1 rs2 : rulelist_t 4,
      ruleset_add rules4 rs_ad 2 1 = some rs1 ∧ ruleset_delete rules4 rs1 1 = some rs2 ∧
      rs2.n_rules = rs_ad.n_rules ∧ rs2.rules = rs_ad.rules :=
  ⟨by decide, by decide, by decide,
    ruleset_add_delete_roundtrip rules4 [1, 0] rs_ad 2 1 (by decide) (by decide) (by decide)⟩

theorem exchange_ids_twice (ids : List Nat) (i j : Nat) (hij : i < j) (hj : j < ids.length) :
    exchange_ids (exchange_ids ids i j) i j = ids := by
  obtain ⟨A, M, C, x, y, hL, hA, hM⟩ := list_decomp ids i j hij hj
  subst hA hM
  rw [hL, exchange_ids_decomp, exchange_ids_decomp]

theorem swap_swap {n : Nat} (rules : rule_table n) (rs : rulelist_t n) (i : Nat)
    (hfm : first_match_invariant rules rs) (h : i + 1 < rs.n_rules - 1) :
    ∃ rs1 : rulelist_t n,
      ruleset_swap rs i (i + 1) rules = some rs1 ∧
      ruleset_swap rs1 i (i + 1) rules = some rs := by
  have h1 := swap_first_match rules rs i hfm h
  obtain ⟨hfm1, hb1⟩ := first_match_of_rules_eq rules
    ⟨rs.n_alloc, (ruleset_init_loop rules
      (exchange_ids (ruleset_backup rs) i (i + 1)) Finset.univ).1⟩ _ rfl
  have hlen : (⟨rs.n_alloc, (ruleset_init_loop rules
      (exchange_ids (ruleset_backup rs) i (i + 1)) Finset.univ).1⟩ : rulelist_t n).n_rules =
      rs.n_rules := by
    unfold rulelist_t.n_rules
    rw [init_loop_length, exchange_ids_length, backup_length]
  have h2 := swap_first_match rules _ i hfm1 (by rw [hlen]; exact h)
  have hj : i + 1 < (ruleset_backup rs).length := by
    rw [backup_length]; unfold rulelist_t.n_rules at h; omega
  rw [hb1, exchange_ids_twice _ i (i + 1) (Nat.lt_succ_self i) hj,
    ← (first_match_iff rules rs).1 hfm] at h2
  exact ⟨_, h1, h2⟩

/-- C12: double adjacent swap is the identity. For every ruleset `rs` returned
by `ruleset_init` and every `i` with `i + 1 < n_rules - 1`, `ruleset_swap` at
`(i, i + 1)` returns a ruleset on which `ruleset_swap` at `(i, i + 1)` returns
a ruleset with the original rule id and the original captures at every
position. -/
theorem ruleset_swap_twice {n : Nat} (rules : rule_table n) (idarray : List Nat)
    (rs : rulelist_t n) (i : Nat) (hinit : ruleset_init idarray rules = some rs)
    (hi : i + 1 < rs.n_rules - 1) :
    ∃ rs1 rs2 : rulelist_t n,
      ruleset_swap rs i (i + 1) rules = some rs1 ∧
      ruleset_swap rs1 i (i + 1) rules = some rs2 ∧
      rs2.rules = rs.rules ∧ ruleset_backup rs2 = idarray := by
  obtain ⟨hfm, _, hb⟩ := init_some_first_match rules idarray rs hinit
  obtain ⟨rs1, h1, h2⟩ := swap_swap rules rs i hfm hi
  exact ⟨rs1, rs, h1, h2, rfl, hb⟩

/-- C12 (witness): positions 0 and 1 of the ruleset that `ruleset_init` returns
on `[1, 2, 3, 0]` with the four-sample table. -/
theorem ruleset_swap_twice_witness :
    ruleset_init [1, 2, 3, 0] rules4 =
      some ⟨4, [⟨1, {0, 1}⟩, ⟨2, {2}⟩, ⟨3, ∅⟩, ⟨0, {3}⟩]⟩ ∧
    0 + 1 < (⟨4, [⟨1, {0, 1}⟩, ⟨2, {2}⟩, ⟨3, ∅⟩, ⟨0, {3}⟩]⟩ : rulelist_t 4).n_rules - 1 ∧
    ∃ rs1 rs2 : rulelist_t 4,
      ruleset_swap ⟨4, [⟨1, {0, 1}⟩, ⟨2, {2}⟩, ⟨3, ∅⟩, ⟨0, {3}⟩]⟩ 0 (0 + 1) rules4 =
        some rs1 ∧
      ruleset_swap rs1 0 (0 + 1) rules4 = some rs2 ∧
      rs2.rules = (⟨4, [⟨1, {0, 1}⟩, ⟨2, {2}⟩, ⟨3, ∅⟩, ⟨0, {3}⟩]⟩ : rulelist_t 4).rules ∧
      ruleset_backup rs2 = [1, 2, 3, 0] :=
  ⟨by decide, by decide,
    ruleset_swap_twice rules4 [1, 2, 3, 0] ⟨4, [⟨1, {0, 1}⟩, ⟨2, {2}⟩, ⟨3, ∅⟩, ⟨0, {3}⟩]⟩ 0
      (by decide) (by decide)⟩

/-- C13: the concrete scenario. With 4 samples and truth tables `A = {0,1}`
(rule 1), `B = {1,2}` (rule 2) and `D = {0,1,2,3}` (rule 0): `ruleset_init` on
the order `[A, B, D]` gives the captures `A = {0,1}`, `B = {2}`, `D = {3}`;
`ruleset_swap` at positions `(0, 1)` of that ruleset gives the order
`[B, A, D]` with captures `B = {1,2}`, `A = {0}`, `D = {3}`; `ruleset_delete`
at position 1 of the ruleset `[A, B, D]` gives the order `[A, D]` with
captures `A = {0,1}`, `D = {2,3}`. -/
theorem concrete_scenario :
    (rules4 1).truthtable = {0, 1} ∧ (rules4 2).truthtable = {1, 2} ∧
    (rules4 0).truthtable = {0, 1, 2, 3} ∧
    ruleset_init [1, 2, 0] rules4 = some ⟨3, [⟨1, {0, 1}⟩, ⟨2, {2}⟩, ⟨0, {3}⟩]⟩ ∧
    ruleset_swap ⟨3, [⟨1, {0, 1}⟩, ⟨2, {2}⟩, ⟨0, {3}⟩]⟩ 0 1 rules4 =
      some ⟨3, [⟨2, {1, 2}⟩, ⟨1, {0}⟩, ⟨0, {3}⟩]⟩ ∧
    ruleset_delete rules4 ⟨3, [⟨1, {0, 1}⟩, ⟨2, {2}⟩, ⟨0, {3}⟩]⟩ 1 =
      some ⟨3, [⟨1, {0, 1}⟩, ⟨0, {2, 3}⟩]⟩ := by
  refine ⟨by decide, by decide, by decide, by decide, by decide, by decide⟩

/-! ## The loop of `ruleset_delete` on arbitrary entries -/

theorem delete_loop_nil {n : Nat} (rules : rule_table n) (D : bit_vector_t n) :
    ruleset_delete_loop rules [] D = ([], D) := rfl

theorem delete_loop_cons {n : Nat} (rules : rule_table n) (e : rulelist_entry_t n)
    (es : List (rulelist_entry_t n)) (D : bit_vector_t n) :
    ruleset_delete_loop rules (e :: es) D =
      (⟨e.rule_id, e.captures ∪ ((rules e.rule_id).truthtable ∩ D)⟩ ::
          (ruleset_delete_loop rules es
            (D \ (e.captures ∪ ((rules e.rule_id).truthtable ∩ D)))).1,
        (ruleset_delete_loop rules es
            (D \ (e.captures ∪ ((rules e.rule_id).truthtable ∩ D)))).2) := rfl

theorem delete_loop_ids {n : Nat} (rules : rule_table n) (es : List (rulelist_entry_t n))
    (D : bit_vector_t n) :
    (ruleset_delete_loop rules es D).1.map (fun e => e.rule_id) =
      es.map (fun e => e.rule_id) := by
  induction es generalizing D with
  | nil => rfl
  | cons e es ih => simp [delete_loop_cons, ih]

theorem mem_delete_loop_leftover {n : Nat} (rules : rule_table n)
    (es : List (rulelist_entry_t n)) (D : bit_vector_t n) (s : Fin n) :
    s ∈ (ruleset_delete_loop rules es D).2 ↔
      s ∈ D ∧ ∀ e ∈ es, s ∉ e.captures ∧ s ∉ (rules e.rule_id).truthtable := by
  induction es generalizing D with
  | nil => simp [delete_loop_nil]
  | cons e es ih =>
    simp only [delete_loop_cons, ih, Finset.mem_sdiff, Finset.mem_union, Finset.mem_inter,
      List.mem_cons, forall_eq_or_imp]
    tauto

theorem delete_loop_union {n : Nat} (rules : rule_table n) (es : List (rulelist_entry_t n))
    (D : bit_vector_t n) :
    captures_union (ruleset_delete_loop rules es D).1 ∪ (ruleset_delete_loop rules es D).2 =
      captures_union es ∪ D := by
  induction es generalizing D with
  | nil => simp [delete_loop_nil, captures_union_nil]
  | cons e es ih =>
    rw [delete_loop_cons]
    simp only [captures_union_cons]
    rw [Finset.union_assoc, ih]
    ext s
    simp only [Finset.mem_union, Finset.mem_sdiff, Finset.mem_inter]
    tauto

theorem delete_loop_subset {n : Nat} (rules : rule_table n) (es : List (rulelist_entry_t n))
    (D : bit_vector_t n) (e : rulelist_entry_t n)
    (he : e ∈ (ruleset_delete_loop rules es D).1) :
    e.captures ⊆ captures_union es ∪ D := by
  intro s hs
  rw [← delete_loop_union]
  exact Finset.mem_union_left _ ((mem_captures_union _ s).2 ⟨e, he, hs⟩)

theorem delete_loop_pairwise {n : Nat} (rules : rule_table n)
    (es : List (rulelist_entry_t n)) (D : bit_vector_t n)
    (hp : es.Pairwise (fun a b => Disjoint a.captures b.captures))
    (hD : ∀ e ∈ es, Disjoint e.captures D) :
    (ruleset_delete_loop rules es D).1.Pairwise
      (fun a b => Disjoint a.captures b.captures) := by
  induction es generalizing D with
  | nil => simp [delete_loop_nil]
  | cons e es ih =>
    rw [List.pairwise_cons] at hp
    rw [delete_loop_cons, List.pairwise_cons]
    constructor
    · intro e' he'
      have hsub := delete_loop_subset rules es _ e' he'
      rw [Finset.disjoint_left]
      intro s hs hs'
      have hs'' := hsub hs'
      simp only [Finset.mem_union, Finset.mem_inter, Finset.mem_sdiff,
        mem_captures_union] at hs hs''
      rcases hs'' with ⟨w, hw, hsw⟩ | ⟨_, hnot⟩
      · rcases hs with hs | hs
        · exact Finset.disjoint_left.1 (hp.1 w hw) hs hsw
        · exact Finset.disjoint_left.1 (hD w (List.mem_cons_of_mem _ hw)) hsw hs.2
      · exact hnot hs
    · apply ih _ hp.2
      intro w hw
      exact Finset.disjoint_of_subset_right Finset.sdiff_subset
        (hD w (List.mem_cons_of_mem _ hw))

theorem delete_loop_matched {n : Nat} (rules : rule_table n)
    (es : List (rulelist_entry_t n)) (D : bit_vector_t n)
    (hm : captures_matched rules es) :
    captures_matched rules (ruleset_delete_loop rules es D).1 := by
  induction es generalizing D with
  | nil => intro e he; simp [delete_loop_nil] at he
  | cons e es ih =>
    intro e' he'
    rw [delete_loop_cons] at he'
    rcases List.mem_cons.1 he' with rfl | he'
    · intro s hs
      simp only [Finset.mem_union, Finset.mem_inter] at hs
      rcases hs with hs | hs
      · exact hm e (List.mem_cons_self _ _) hs
      · exact hs.1
    · exact ih _ (fun w hw => hm w (List.mem_cons_of_mem _ hw)) e' he'

/-! ## Disjointness when a segment of the list is replaced -/

theorem disjoint_captures_union {n : Nat} (a : bit_vector_t n)
    (W : List (rulelist_entry_t n)) (h : ∀ w ∈ W, Disjoint a w.captures) :
    Disjoint a (captures_union W) := by
  rw [Finset.disjoint_left]
  intro s hs hs'
  obtain ⟨w, hw, hsw⟩ := (mem_captures_union W s).1 hs'
  exact Finset.disjoint_left.1 (h w hw) hs hsw

theorem pairwise_replace_segment {n : Nat} (A W W' C : List (rulelist_entry_t n))
    (h : (A ++ W ++ C).Pairwise (fun a b => Disjoint a.captures b.captures))
    (hW' : W'.Pairwise (fun a b => Disjoint a.captures b.captures))
    (hsub : ∀ e ∈ W', e.captures ⊆ captures_union W) :
    (A ++ W' ++ C).Pairwise (fun a b => Disjoint a.captures b.captures) := by
  rw [List.pairwise_append, List.pairwise_append] at h ⊢
  obtain ⟨⟨hA, _, hAW⟩, hC, hAWC⟩ := h
  refine ⟨⟨hA, hW', ?_⟩, hC, ?_⟩
  · intro a ha b hb
    exact Finset.disjoint_of_subset_right (hsub b hb)
      (disjoint_captures_union _ W (hAW a ha))
  · intro a ha c hc
    rcases List.mem_append.1 ha with ha | ha
    · exact hAWC a (List.mem_append_left _ ha) c hc
    · refine Finset.disjoint_of_subset_left (hsub a ha) ?_
      exact (disjoint_captures_union _ W
        (fun w hw => (hAWC w (List.mem_append_right _ hw) c hc).symm)).symm

theorem captures_matched_append {n : Nat} (rules : rule_table n)
    (A B : List (rulelist_entry_t n)) :
    captures_matched rules (A ++ B) ↔ captures_matched rules A ∧ captures_matched rules B := by
  unfold captures_matched
  simp only [List.mem_append]
  constructor
  · exact fun h => ⟨fun e he => h e (Or.inl he), fun e he => h e (Or.inr he)⟩
  · rintro ⟨h1, h2⟩ e (he | he)
    · exact h1 e he
    · exact h2 e he

theorem init_loop_matched {n : Nat} (rules : rule_table n) (ids : List Nat)
    (P : bit_vector_t n) : captures_matched rules (ruleset_init_loop rules ids P).1 :=
  fun e he => (init_loop_captures_subset rules ids P e he).2

/-! ## Disjointness and matching under the mutators, on arbitrary rulesets -/

theorem add_of_some {n : Nat} (rules : rule_table n) (rs rs' : rulelist_t n) (r ndx : Nat)
    (h : ruleset_add rules rs r ndx = some rs') :
    ndx ≤ rs.n_rules ∧ rs' = (ruleset_add_sweep rules rs r ndx).1 := by
  unfold ruleset_add at h
  by_cases hndx : ndx ≤ rs.n_rules
  · rw [if_pos hndx] at h
    by_cases hz : bit_vector_n_ones (ruleset_add_sweep rules rs r ndx).2 = 0
    · simp only [hz, if_true, Option.some.injEq] at h
      exact ⟨hndx, h.symm⟩
    · simp only [hz, if_false] at h
      exact Option.noConfusion h
  · rw [if_neg hndx] at h
    exact Option.noConfusion h

theorem add_sweep_disjoint {n : Nat} (rules : rule_table n) (rs : rulelist_t n) (r ndx : Nat)
    (h : captures_disjoint rs.rules) (hndx : ndx ≤ rs.n_rules) :
    captures_disjoint (ruleset_add_sweep rules rs r ndx).1.rules := by
  rw [captures_disjoint_iff_pairwise] at h ⊢
  rw [(add_sweep_rules rules rs r ndx hndx).1]
  have h' : List.Pairwise (fun a b : rulelist_entry_t n => Disjoint a.captures b.captures)
      (rs.rules.take ndx ++ rs.rules.drop ndx ++ []) := by
    rw [List.append_nil, List.take_append_drop]; exact h
  have key := pairwise_replace_segment (rs.rules.take ndx) (rs.rules.drop ndx)
    (ruleset_init_loop rules (r :: (rs.rules.drop ndx).map (fun e => e.rule_id))
      (captures_union (rs.rules.drop ndx))).1 [] h'
    (init_loop_pairwise rules _ _)
    (fun e he => (init_loop_captures_subset rules _ _ e he).1)
  rw [List.append_nil] at key
  exact key

theorem add_sweep_matched {n : Nat} (rules : rule_table n) (rs : rulelist_t n) (r ndx : Nat)
    (h : captures_matched rules rs.rules) (hndx : ndx ≤ rs.n_rules) :
    captures_matched rules (ruleset_add_sweep rules rs r ndx).1.rules := by
  rw [(add_sweep_rules rules rs r ndx hndx).1, captures_matched_append]
  rw [← List.take_append_drop ndx rs.rules, captures_matched_append] at h
  exact ⟨h.1, init_loop_matched rules _ _⟩

theorem delete_disjoint {n : Nat} (rules : rule_table n) (rs : rulelist_t n) (ndx : Nat)
    (h : captures_disjoint rs.rules) (hndx : ndx < rs.n_rules) :
    ∃ rs' : rulelist_t n, ruleset_delete rules rs ndx = some rs' ∧
      captures_disjoint rs'.rules := by
  have hlt : ndx < rs.rules.length := hndx
  refine ⟨_, (delete_eq rules rs ndx hlt).1, ?_⟩
  rw [captures_disjoint_iff_pairwise] at h ⊢
  simp only
  have hsplit : rs.rules =
      rs.rules.take ndx ++ (rs.rules[ndx] :: rs.rules.drop (ndx + 1)) ++ [] := by
    rw [List.append_nil, ← List.drop_eq_getElem_cons hlt, List.take_append_drop]
  rw [hsplit] at h
  have hW : (rs.rules[ndx] :: rs.rules.drop (ndx + 1)).Pairwise
      (fun a b => Disjoint a.captures b.captures) := by
    rw [List.pairwise_append, List.pairwise_append] at h
    exact h.1.2.1
  rw [List.pairwise_cons] at hW
  have key := pairwise_replace_segment (rs.rules.take ndx)
    (rs.rules[ndx] :: rs.rules.drop (ndx + 1))
    (ruleset_delete_loop rules (rs.rules.drop (ndx + 1)) (rs.rules[ndx]).captures).1 [] h
    (delete_loop_pairwise rules _ _ hW.2 (fun e he => (hW.1 e he).symm))
    (fun e he => by
      rw [captures_union_cons, Finset.union_comm]
      exact delete_loop_subset rules _ _ e he)
  rw [List.append_nil] at key
  exact key

theorem delete_matched {n : Nat} (rules : rule_table n) (rs : rulelist_t n) (ndx : Nat)
    (h : captures_matched rules rs.rules) (hndx : ndx < rs.n_rules) :
    ∃ rs' : rulelist_t n, ruleset_delete rules rs ndx = some rs' ∧
      captures_matched rules rs'.rules := by
  have hlt : ndx < rs.rules.length := hndx
  refine ⟨_, (delete_eq rules rs ndx hlt).1, ?_⟩
  simp only
  rw [captures_matched_append]
  have h1 := h
  rw [← List.take_append_drop ndx rs.rules, captures_matched_append] at h1
  have h2 := h
  rw [← List.take_append_drop (ndx + 1) rs.rules, captures_matched_append] at h2
  exact ⟨h1.1, delete_loop_matched rules _ _ h2.2⟩

theorem swap_of_some {n : Nat} (rules : rule_table n) (rs rs' : rulelist_t n) (i j : Nat)
    (h : ruleset_swap rs i j rules = some rs') : i + 1 = j ∧ j < rs.n_rules - 1 := by
  unfold ruleset_swap at h
  by_cases hc : i < rs.n_rules - 1 ∧ j < rs.n_rules - 1 ∧ i + 1 = j
  · exact ⟨hc.2.2, hc.2.1⟩
  · rw [if_neg hc] at h
    exact Option.noConfusion h

theorem adjacent_decomp {α : Type} (L : List α) (i : Nat) (h : i + 1 < L.length - 1) :
    ∃ (A C : List α) (x y : α), L = A ++ x :: y :: C ∧ A.length = i ∧ C ≠ [] := by
  obtain ⟨A, M, C, x, y, hL, hA, hM⟩ :=
    list_decomp L i (i + 1) (Nat.lt_succ_self i) (by omega)
  have hMnil : M = [] := List.length_eq_zero.1 (by omega)
  subst hMnil
  simp only [List.nil_append] at hL
  refine ⟨A, C, x, y, hL, hA, ?_⟩
  intro hC
  have := congrArg List.length hL
  rw [hC] at this
  simp only [List.length_append, List.length_cons, List.length_nil] at this
  omega

theorem swap_disjoint_matched {n : Nat} (rules : rule_table n) (rs : rulelist_t n) (i : Nat)
    (h : i + 1 < rs.n_rules - 1) :
    ∃ rs' : rulelist_t n, ruleset_swap rs i (i + 1) rules = some rs' ∧
      (captures_disjoint rs.rules → captures_disjoint rs'.rules) ∧
      (captures_matched rules rs.rules → captures_matched rules rs'.rules) := by
  obtain ⟨A, C, x, y, hL, hA, hC⟩ := adjacent_decomp rs.rules i h
  obtain ⟨al, L⟩ := rs
  simp only at hL
  subst hL hA
  refine ⟨_, swap_decomp rules al A C x y hC, ?_, ?_⟩
  · intro hd
    rw [captures_disjoint_iff_pairwise] at hd ⊢
    have e1 : A ++ x :: y :: C = A ++ [x, y] ++ C := by simp
    rw [e1] at hd
    have key := pairwise_replace_segment A [x, y]
      [⟨y.rule_id, y.captures ∪ (x.captures ∩ (rules y.rule_id).truthtable)⟩,
       ⟨x.rule_id, x.captures \
         (y.captures ∪ (x.captures ∩ (rules y.rule_id).truthtable))⟩] C hd
      (by
        simp only [List.pairwise_cons, List.mem_cons, List.mem_singleton, List.not_mem_nil,
          forall_eq_or_imp, forall_eq, List.Pairwise.nil, and_true, false_or,
          IsEmpty.forall_iff, implies_true]
        exact Finset.disjoint_sdiff)
      (by
        intro e he
        simp only [List.mem_cons, List.mem_singleton, List.not_mem_nil, or_false] at he
        intro s hs
        simp only [captures_union_cons, captures_union_nil, Finset.mem_union,
          Finset.not_mem_empty, or_false]
        rcases he with rfl | rfl
        · simp only [Finset.mem_union, Finset.mem_inter] at hs
          tauto
        · simp only [Finset.mem_sdiff] at hs
          exact Or.inl hs.1)
    simpa using key
  · intro hm e he
    simp only [List.mem_append, List.mem_cons] at he
    have hx := hm x (by simp)
    have hy := hm y (by simp)
    rcases he with he | rfl | rfl | he
    · exact hm e (by simp [he])
    · intro s hs
      simp only [Finset.mem_union, Finset.mem_inter] at hs
      rcases hs with hs | hs
      · exact hy hs
      · exact hs.2
    · intro s hs
      simp only [Finset.mem_sdiff] at hs
      exact hx hs.1
    · exact hm e (by simp [he])

theorem swap_any_sweep_disjoint_matched {n : Nat} (rules : rule_table n) (rs : rulelist_t n)
    (i j : Nat) (hij : i < j) (hj : j < rs.n_rules) :
    (captures_disjoint rs.rules →
      captures_disjoint (ruleset_swap_any_sweep rs i j rules).1.rules) ∧
    (captures_matched rules rs.rules →
      captures_matched rules (ruleset_swap_any_sweep rs i j rules).1.rules) := by
  obtain ⟨A, M, C, x, y, hL, hA, hM⟩ := list_decomp rs.rules i j hij hj
  obtain ⟨al, L⟩ := rs
  simp only at hL
  subst hL hA hM
  rw [swap_any_sweep_decomp]
  simp only
  rw [(swap_any_loop_eq rules _ _ 0).1]
  constructor
  · intro hd
    rw [captures_disjoint_iff_pairwise] at hd ⊢
    have e1 : A ++ x :: (M ++ y :: C) = A ++ (x :: (M ++ [y])) ++ C := by simp
    rw [e1] at hd
    exact pairwise_replace_segment A (x :: (M ++ [y])) _ C hd
      (init_loop_pairwise rules _ _)
      (fun e he => (init_loop_captures_subset rules _ _ e he).1)
  · intro hm
    rw [captures_matched_append, captures_matched_append]
    have e1 : A ++ x :: (M ++ y :: C) = A ++ ((x :: (M ++ [y])) ++ C) := by simp
    rw [e1, captures_matched_append, captures_matched_append] at hm
    exact ⟨⟨hm.1, init_loop_matched rules _ _⟩, hm.2.2⟩

theorem swap_any_of_some {n : Nat} (rules : rule_table n) (rs rs' : rulelist_t n) (i j : Nat)
    (hi : i < rs.n_rules) (hj : j < rs.n_rules)
    (h : ruleset_swap_any rs i j rules = some rs') :
    (i = j ∧ rs' = rs) ∨
      (i ≠ j ∧ rs' = (ruleset_swap_any_sweep rs (min i j) (max i j) rules).1) := by
  have hlt : ∀ lo hi : Nat, lo < hi → hi < rs.n_rules →
      ruleset_swap_any rs lo hi rules = some rs' →
      rs' = (ruleset_swap_any_sweep rs lo hi rules).1 := by
    intro lo hi hlohi hhi hs
    rw [swap_any_eq_of_lt rules rs lo hi hlohi hhi] at hs
    split at hs
    · exact (Option.some.inj hs).symm
    · exact Option.noConfusion hs
  rcases Nat.lt_trichotomy i j with hlt' | heq | hgt
  · right
    rw [Nat.min_eq_left (Nat.le_of_lt hlt'), Nat.max_eq_right (Nat.le_of_lt hlt')]
    exact ⟨Nat.ne_of_lt hlt', hlt i j hlt' hj h⟩
  · left
    subst heq
    unfold ruleset_swap_any at h
    rw [if_pos rfl] at h
    exact ⟨rfl, (Option.some.inj h).symm⟩
  · right
    rw [Nat.min_eq_right (Nat.le_of_lt hgt), Nat.max_eq_left (Nat.le_of_lt hgt)]
    rw [swap_any_comm] at h
    exact ⟨Nat.ne_of_gt hgt, hlt j i hgt hi h⟩

theorem swap_any_sweep_minmax {n : Nat} (rules : rule_table n) (rs : rulelist_t n)
    (i j : Nat) (hi : i < rs.n_rules) (hj : j < rs.n_rules) (hne : i ≠ j) :
    (captures_disjoint rs.rules →
      captures_disjoint (ruleset_swap_any_sweep rs (min i j) (max i j) rules).1.rules) ∧
    (captures_matched rules rs.rules →
      captures_matched rules (ruleset_swap_any_sweep rs (min i j) (max i j) rules).1.rules) := by
  rcases Nat.lt_or_gt_of_ne hne with hlt | hgt
  · rw [Nat.min_eq_left (Nat.le_of_lt hlt), Nat.max_eq_right (Nat.le_of_lt hlt)]
    exact swap_any_sweep_disjoint_matched rules rs i j hlt hj
  · rw [Nat.min_eq_right (Nat.le_of_lt hgt), Nat.max_eq_left (Nat.le_of_lt hgt)]
    exact swap_any_sweep_disjoint_matched rules rs j i hgt hi

/-! ## `ruleset_backup` -/

/-- C14 (counterexample): on the four-sample table, `ruleset_init` on
`[1, 2, 0]` followed by `ruleset_delete` at position 2 is a reachable state
whose backed-up id sequence `[1, 2]` makes `ruleset_init` fail its assertion:
nothing is reproduced. -/
theorem backup_replay_fails_without_default :
    is_default_rule rules4 0 ∧
      ∃ rs : rulelist_t 4, reachable rules4 rs ∧
        ruleset_init (ruleset_backup rs) rules4 = none :=
  ⟨by decide, ⟨3, [⟨1, {0, 1}⟩, ⟨2, {2}⟩]⟩,
    reachable_with.delete rs_abd _ 2
      (reachable_with.init [1, 2, 0] _ (by decide) (by decide) (by decide))
      (by decide) trivial (by decide),
    by decide⟩

/-- C14 (as amended): for every ruleset `rs`, `ruleset_backup` writes exactly
the sequence `rule_id[0 .. n_rules-1]` in list order and leaves the ruleset as
it was; and for every ruleset state reachable from `ruleset_init` through the
mutators without deleting the entry of the default rule 0, `ruleset_init`
applied to the backed-up id sequence returns a ruleset with the same rule ids
and the same captures at every position. -/
theorem ruleset_backup_snapshot {n : Nat} (rules : rule_table n) (rs : rulelist_t n)
    (old : List Nat) :
    ((ruleset_backup_step rs old).1 = rs ∧
      (ruleset_backup_step rs old).2.1 = rs.rules.map (fun e => e.rule_id) ∧
      (ruleset_backup rs).length = rs.n_rules ∧
      ∀ i : Nat, (ruleset_backup rs)[i]? = (rs.rules[i]?).map (fun e => e.rule_id)) ∧
    (is_default_rule rules 0 → reachable_keeping_default rules rs →
      ∃ rs0 : rulelist_t n, ruleset_init (ruleset_backup rs) rules = some rs0 ∧
        rs0.rules = rs.rules ∧ ruleset_backup rs0 = ruleset_backup rs) := by
  refine ⟨⟨rfl, rfl, backup_length rs, ?_⟩, ?_⟩
  · intro i
    unfold ruleset_backup
    rw [List.getElem?_map]
  · intro hd h
    obtain ⟨hfm, h0⟩ := reachable_first_match rules hd rs h
    have hcov := full_coverage_of_default rules rs hfm 0 hd h0
    exact ⟨_, ruleset_init_of_first_match rules rs hfm hcov, rfl, rfl⟩

/-- C14 (witness): the ruleset reached by `ruleset_init` on `[1, 2, 0]` and
`ruleset_delete` at position 1 on the four-sample table. -/
theorem ruleset_backup_snapshot_witness :
    is_default_rule rules4 0 ∧
    reachable_keeping_default rules4 ⟨3, [⟨1, {0, 1}⟩, ⟨0, {2, 3}⟩]⟩ ∧
    ∃ rs0 : rulelist_t 4,
      ruleset_init (ruleset_backup (⟨3, [⟨1, {0, 1}⟩, ⟨0, {2, 3}⟩]⟩ : rulelist_t 4)) rules4 =
        some rs0 ∧
      rs0.rules = (⟨3, [⟨1, {0, 1}⟩, ⟨0, {2, 3}⟩]⟩ : rulelist_t 4).rules ∧
      ruleset_backup rs0 = ruleset_backup (⟨3, [⟨1, {0, 1}⟩, ⟨0, {2, 3}⟩]⟩ : rulelist_t 4) :=
  have hreach : reachable_keeping_default rules4 ⟨3, [⟨1, {0, 1}⟩, ⟨0, {2, 3}⟩]⟩ :=
    reachable_with.delete rs_abd _ 1
      (reachable_with.init [1, 2, 0] _ (by decide) (by decide) (by decide))
      (by decide)
      (fun e he => by
        have : e = ⟨2, {2}⟩ := (Option.some.inj he).symm
        rw [this]; decide)
      (by decide)
  ⟨by decide, hreach,
    (ruleset_backup_snapshot rules4 ⟨3, [⟨1, {0, 1}⟩, ⟨0, {2, 3}⟩]⟩ []).2 (by decide) hreach⟩

/-! ## `ruleset_delete`: the leftover of the deleted entry -/

/-- C15 (counterexample): the ruleset of order `[A, B, D]` on the four-sample
table satisfies the partition invariant and ends in the default rule;
`ruleset_delete` at the existing position 2 ends with the leftover `{3}`, and
the union of the captures changes. -/
theorem delete_default_leaves_remainder :
    partition_invariant rs_abd ∧ rs_abd.rules.getLast? = some ⟨0, {3}⟩ ∧
    is_default_rule rules4 0 ∧ 2 < rs_abd.n_rules ∧
    ruleset_delete_leftover rules4 rs_abd 2 = some {3} ∧
    ∃ rs' : rulelist_t 4, ruleset_delete rules4 rs_abd 2 = some rs' ∧
      captures_union rs'.rules ≠ captures_union rs_abd.rules :=
  ⟨by decide, by decide, by decide, by decide, by decide,
    ⟨3, [⟨1, {0, 1}⟩, ⟨2, {2}⟩]⟩, by decide, by decide⟩

/-- C15 (as amended): for every ruleset satisfying the partition invariant
whose last entry is the default rule, and every existing position `ndx` other
than the last, after `ruleset_delete` has processed all positions after `ndx`
the leftover of the deleted entry's captures is empty; the union of all
captures is the same before and after the delete, and the partition invariant
holds again. -/
theorem ruleset_delete_no_remainder {n : Nat} (rules : rule_table n) (rs : rulelist_t n)
    (ndx : Nat) (e_last : rulelist_entry_t n) (hpart : partition_invariant rs)
    (hlast : rs.rules.getLast? = some e_last) (hd : is_default_rule rules e_last.rule_id)
    (hndx : ndx + 1 < rs.n_rules) :
    ruleset_delete_leftover rules rs ndx = some ∅ ∧
    ∃ rs' : rulelist_t n, ruleset_delete rules rs ndx = some rs' ∧
      captures_union rs'.rules = captures_union rs.rules ∧ partition_invariant rs' := by
  have hlen : ndx + 1 < rs.rules.length := hndx
  have hlt : ndx < rs.rules.length := by omega
  obtain ⟨hdel, hleft⟩ := delete_eq rules rs ndx hlt
  -- the default rule is among the entries after `ndx`
  have hmem : e_last ∈ rs.rules.drop (ndx + 1) := by
    apply List.mem_of_getLast?_eq_some
    rw [List.getLast?_drop, if_neg (by omega)]
    exact hlast
  have hempty : (ruleset_delete_loop rules (rs.rules.drop (ndx + 1))
      (rs.rules[ndx]).captures).2 = ∅ := by
    ext s
    simp only [mem_delete_loop_leftover, Finset.not_mem_empty, iff_false, not_and]
    intro _ hall
    have := (hall e_last hmem).2
    rw [hd] at this
    exact this (Finset.mem_univ s)
  have hunion : captures_union (rs.rules.take ndx ++
      (ruleset_delete_loop rules (rs.rules.drop (ndx + 1)) (rs.rules[ndx]).captures).1) =
      captures_union rs.rules := by
    have hu := delete_loop_union rules (rs.rules.drop (ndx + 1)) (rs.rules[ndx]).captures
    rw [hempty, Finset.union_empty] at hu
    conv_rhs => rw [← List.take_append_drop ndx rs.rules, List.drop_eq_getElem_cons hlt]
    rw [captures_union_append, captures_union_append, captures_union_cons, hu,
      Finset.union_comm (captures_union (rs.rules.drop (ndx + 1)))]
  obtain ⟨rs', hdel', hdisj⟩ := delete_disjoint rules rs ndx hpart.1 hlt
  rw [hdel] at hdel'
  have hrs' := Option.some.inj hdel'
  refine ⟨by rw [hleft, hempty], _, hdel, hunion, ?_, ?_⟩
  · rw [hrs']; exact hdisj
  · unfold full_coverage
    simp only
    rw [hunion]
    exact hpart.2

/-- C15 (witness): deleting position 1 of the ruleset of order `[A, B, D]` on
the four-sample table. -/
theorem ruleset_delete_no_remainder_witness :
    partition_invariant rs_abd ∧ rs_abd.rules.getLast? = some ⟨0, {3}⟩ ∧
    is_default_rule rules4 (⟨0, {3}⟩ : rulelist_entry_t 4).rule_id ∧
    1 + 1 < rs_abd.n_rules ∧
    ruleset_delete_leftover rules4 rs_abd 1 = some ∅ ∧
    ∃ rs' : rulelist_t 4, ruleset_delete rules4 rs_abd 1 = some rs' ∧
      captures_union rs'.rules = captures_union rs_abd.rules ∧ partition_invariant rs' :=
  ⟨by decide, by decide, by decide, by decide,
    ruleset_delete_no_remainder rules4 rs_abd 1 ⟨0, {3}⟩ (by decide) (by decide) (by decide)
      (by decide)⟩

/-! ## Disjointness without a default rule -/

/-- C18: disjointness needs no default rule. For every ruleset whose captures
are pairwise disjoint, with no other assumption, the captures are pairwise
disjoint again after the sweep of `ruleset_add` at any `ndx` in `[0, n_rules]`
(hence in any ruleset it returns), in the ruleset `ruleset_delete` returns at
any existing `ndx`, in any ruleset `ruleset_swap` returns (it returns at every
adjacent pair within the asserted bounds), and after the re-sweep of
`ruleset_swap_any` at any pair of positions (hence in any ruleset it returns);
and the captures the sweep of `ruleset_init` produces are pairwise disjoint
for every id array. -/
theorem disjointness_preserved {n : Nat} (rules : rule_table n) (rs : rulelist_t n)
    (h : captures_disjoint rs.rules) :
    (∀ r ndx : Nat, ndx ≤ rs.n_rules →
      captures_disjoint (ruleset_add_sweep rules rs r ndx).1.rules ∧
      ∀ rs' : rulelist_t n, ruleset_add rules rs r ndx = some rs' →
        captures_disjoint rs'.rules) ∧
    (∀ ndx : Nat, ndx < rs.n_rules →
      ∃ rs' : rulelist_t n, ruleset_delete rules rs ndx = some rs' ∧
        captures_disjoint rs'.rules) ∧
    (∀ i : Nat, i + 1 < rs.n_rules - 1 →
      ∃ rs' : rulelist_t n, ruleset_swap rs i (i + 1) rules = some rs') ∧
    (∀ (i j : Nat) (rs' : rulelist_t n), ruleset_swap rs i j rules = some rs' →
      captures_disjoint rs'.rules) ∧
    (∀ i j : Nat, i < rs.n_rules → j < rs.n_rules →
      (i ≠ j →
        captures_disjoint (ruleset_swap_any_sweep rs (min i j) (max i j) rules).1.rules) ∧
      ∀ rs' : rulelist_t n, ruleset_swap_any rs i j rules = some rs' →
        captures_disjoint rs'.rules) ∧
    (∀ idarray : List Nat,
      captures_disjoint
        (ruleset_init_loop rules idarray (bit_vector_set_all (bit_vector_init n))).1 ∧
      ∀ rs0 : rulelist_t n, ruleset_init idarray rules = some rs0 →
        captures_disjoint rs0.rules) := by
  refine ⟨?_, ?_, ?_, ?_, ?_, ?_⟩
  · intro r ndx hndx
    have hs := add_sweep_disjoint rules rs r ndx h hndx
    refine ⟨hs, ?_⟩
    intro rs' hrs'
    rw [(add_of_some rules rs rs' r ndx hrs').2]
    exact hs
  · intro ndx hndx
    exact delete_disjoint rules rs ndx h hndx
  · intro i hi
    obtain ⟨rs', hrs', _⟩ := swap_disjoint_matched rules rs i hi
    exact ⟨rs', hrs'⟩
  · intro i j rs' hrs'
    obtain ⟨hij, hj⟩ := swap_of_some rules rs rs' i j hrs'
    subst hij
    obtain ⟨rs'', hrs'', hd, _⟩ := swap_disjoint_matched rules rs i hj
    rw [hrs''] at hrs'
    rw [← Option.some.inj hrs']
    exact hd h
  · intro i j hi hj
    refine ⟨fun hne => (swap_any_sweep_minmax rules rs i j hi hj hne).1 h, ?_⟩
    intro rs' hrs'
    rcases swap_any_of_some rules rs rs' i j hi hj hrs' with ⟨_, e⟩ | ⟨hne, e⟩
    · rw [e]; exact h
    · rw [e]; exact (swap_any_sweep_minmax rules rs i j hi hj hne).1 h
  · intro idarray
    have hs : captures_disjoint (ruleset_init_loop rules idarray Finset.univ).1 :=
      (captures_disjoint_iff_pairwise _).2 (init_loop_pairwise rules idarray _)
    refine ⟨hs, ?_⟩
    intro rs0 hrs0
    rw [((ruleset_init_eq_some_iff idarray rules rs0).1 hrs0).2]
    exact hs

/-- C18 (witness): the ruleset `[(1, {0}), (2, {2}), (0, {1})]` on the
four-sample table has pairwise disjoint captures, covers only three samples
and does not satisfy the first-match invariant. -/
theorem disjointness_preserved_witness :
    captures_disjoint (⟨3, [⟨1, {0}⟩, ⟨2, {2}⟩, ⟨0, {1}⟩]⟩ : rulelist_t 4).rules ∧
    ¬ full_coverage (⟨3, [⟨1, {0}⟩, ⟨2, {2}⟩, ⟨0, {1}⟩]⟩ : rulelist_t 4) ∧
    (∃ rs' : rulelist_t 4,
      ruleset_add rules4 ⟨3, [⟨1, {0}⟩, ⟨2, {2}⟩, ⟨0, {1}⟩]⟩ 3 1 = some rs' ∧
        captures_disjoint rs'.rules) ∧
    (∃ rs' : rulelist_t 4,
      ruleset_delete rules4 ⟨3, [⟨1, {0}⟩, ⟨2, {2}⟩, ⟨0, {1}⟩]⟩ 0 = some rs' ∧
        captures_disjoint rs'.rules) ∧
    (∃ rs' : rulelist_t 4,
      ruleset_swap ⟨3, [⟨1, {0}⟩, ⟨2, {2}⟩, ⟨0, {1}⟩]⟩ 0 1 rules4 = some rs' ∧
        captures_disjoint rs'.rules) ∧
    (∃ rs' : rulelist_t 4,
      ruleset_swap_any ⟨3, [⟨1, {0}⟩, ⟨2, {2}⟩, ⟨0, {1}⟩]⟩ 2 0 rules4 = some rs' ∧
        captures_disjoint rs'.rules) :=
  have hthm := disjointness_preserved rules4 ⟨3, [⟨1, {0}⟩, ⟨2, {2}⟩, ⟨0, {1}⟩]⟩ (by decide)
  have hadd : ruleset_add rules4 ⟨3, [⟨1, {0}⟩, ⟨2, {2}⟩, ⟨0, {1}⟩]⟩ 3 1 =
      some ⟨4, [⟨1, {0}⟩, ⟨3, ∅⟩, ⟨2, {1, 2}⟩, ⟨0, ∅⟩]⟩ := by decide
  have hswap : ruleset_swap ⟨3, [⟨1, {0}⟩, ⟨2, {2}⟩, ⟨0, {1}⟩]⟩ 0 1 rules4 =
      some ⟨3, [⟨2, {2}⟩, ⟨1, {0}⟩, ⟨0, {1}⟩]⟩ := by decide
  have hany : ruleset_swap_any ⟨3, [⟨1, {0}⟩, ⟨2, {2}⟩, ⟨0, {1}⟩]⟩ 2 0 rules4 =
      some ⟨3, [⟨0, {0, 1, 2}⟩, ⟨2, ∅⟩, ⟨1, ∅⟩]⟩ := by decide
  ⟨by decide, by decide,
    ⟨_, hadd, (hthm.1 3 1 (by decide)).2 _ hadd⟩,
    hthm.2.1 0 (by decide),
    ⟨_, hswap, hthm.2.2.2.1 0 1 _ hswap⟩,
    ⟨_, hany, (hthm.2.2.2.2.1 2 0 (by decide) (by decide)).2 _ hany⟩⟩

/-! ## A rule only captures samples it matches -/

/-- C19: a rule only captures samples it matches. The sweep of `ruleset_init`
establishes, for every id array, the invariant that for every position `i`,
`captures[i] ⊆ truthtable[rule_id[i]]`; and on every ruleset that satisfies
it, the invariant holds again after the sweep of `ruleset_add` (hence in any
ruleset it returns), in the ruleset `ruleset_delete` returns, in any ruleset
`ruleset_swap` returns, and after the re-sweep of `ruleset_swap_any` (hence in
any ruleset it returns). -/
theorem captures_matched_preserved {n : Nat} (rules : rule_table n) (rs : rulelist_t n)
    (h : captures_matched rules rs.rules) :
    (∀ idarray : List Nat,
      captures_matched rules
        (ruleset_init_loop rules idarray (bit_vector_set_all (bit_vector_init n))).1 ∧
      ∀ rs0 : rulelist_t n, ruleset_init idarray rules = some rs0 →
        captures_matched rules rs0.rules) ∧
    (∀ r ndx : Nat, ndx ≤ rs.n_rules →
      captures_matched rules (ruleset_add_sweep rules rs r ndx).1.rules ∧
      ∀ rs' : rulelist_t n, ruleset_add rules rs r ndx = some rs' →
        captures_matched rules rs'.rules) ∧
    (∀ ndx : Nat, ndx < rs.n_rules →
      ∃ rs' : rulelist_t n, ruleset_delete rules rs ndx = some rs' ∧
        captures_matched rules rs'.rules) ∧
    (∀ (i j : Nat) (rs' : rulelist_t n), ruleset_swap rs i j rules = some rs' →
      captures_matched rules rs'.rules) ∧
    (∀ i j : Nat, i < rs.n_rules → j < rs.n_rules →
      (i ≠ j →
        captures_matched rules
          (ruleset_swap_any_sweep rs (min i j) (max i j) rules).1.rules) ∧
      ∀ rs' : rulelist_t n, ruleset_swap_any rs i j rules = some rs' →
        captures_matched rules rs'.rules) := by
  refine ⟨?_, ?_, ?_, ?_, ?_⟩
  · intro idarray
    have hs : captures_matched rules (ruleset_init_loop rules idarray Finset.univ).1 :=
      init_loop_matched rules idarray _
    refine ⟨hs, ?_⟩
    intro rs0 hrs0
    rw [((ruleset_init_eq_some_iff idarray rules rs0).1 hrs0).2]
    exact hs
  · intro r ndx hndx
    have hs := add_sweep_matched rules rs r ndx h hndx
    refine ⟨hs, ?_⟩
    intro rs' hrs'
    rw [(add_of_some rules rs rs' r ndx hrs').2]
    exact hs
  · intro ndx hndx
    exact delete_matched rules rs ndx h hndx
  · intro i j rs' hrs'
    obtain ⟨hij, hj⟩ := swap_of_some rules rs rs' i j hrs'
    subst hij
    obtain ⟨rs'', hrs'', _, hm⟩ := swap_disjoint_matched rules rs i hj
    rw [hrs''] at hrs'
    rw [← Option.some.inj hrs']
    exact hm h
  · intro i j hi hj
    refine ⟨fun hne => (swap_any_sweep_minmax rules rs i j hi hj hne).2 h, ?_⟩
    intro rs' hrs'
    rcases swap_any_of_some rules rs rs' i j hi hj hrs' with ⟨_, e⟩ | ⟨hne, e⟩
    · rw [e]; exact h
    · rw [e]; exact (swap_any_sweep_minmax rules rs i j hi hj hne).2 h

/-- C19 (witness): the ruleset of order `[A, B, D]` on the four-sample
table. -/
theorem captures_matched_preserved_witness :
    captures_matched rules4 rs_abd.rules ∧
    (∃ rs0 : rulelist_t 4, ruleset_init [2, 1, 0] rules4 = some rs0 ∧
      captures_matched rules4 rs0.rules) ∧
    (∃ rs' : rulelist_t 4, ruleset_add rules4 rs_abd 3 0 = some rs' ∧
      captures_matched rules4 rs'.rules) ∧
    (∃ rs' : rulelist_t 4, ruleset_delete rules4 rs_abd 0 = some rs' ∧
      captures_matched rules4 rs'.rules) ∧
    (∃ rs' : rulelist_t 4, ruleset_swap rs_abd 0 1 rules4 = some rs' ∧
      captures_matched rules4 rs'.rules) ∧
    (∃ rs' : rulelist_t 4, ruleset_swap_any rs_abd 0 2 rules4 = some rs' ∧
      captures_matched rules4 rs'.rules) :=
  have hthm := captures_matched_preserved rules4 rs_abd (by decide)
  have hinit : ruleset_init [2, 1, 0] rules4 =
      some ⟨3, [⟨2, {1, 2}⟩, ⟨1, {0}⟩, ⟨0, {3}⟩]⟩ := by decide
  have hadd : ruleset_add rules4 rs_abd 3 0 =
      some ⟨4, [⟨3, ∅⟩, ⟨1, {0, 1}⟩, ⟨2, {2}⟩, ⟨0, {3}⟩]⟩ := by decide
  have hswap : ruleset_swap rs_abd 0 1 rules4 =
      some ⟨3, [⟨2, {1, 2}⟩, ⟨1, {0}⟩, ⟨0, {3}⟩]⟩ := by decide
  have hany : ruleset_swap_any rs_abd 0 2 rules4 =
      some ⟨3, [⟨0, Finset.univ⟩, ⟨2, ∅⟩, ⟨1, ∅⟩]⟩ := by decide
  ⟨by decide,
    ⟨_, hinit, (hthm.1 [2, 1, 0]).2 _ hinit⟩,
    ⟨_, hadd, (hthm.2.1 3 0 (by decide)).2 _ hadd⟩,
    hthm.2.2.1 0 (by decide),
    ⟨_, hswap, hthm.2.2.2.1 0 1 _ hswap⟩,
    ⟨_, hany, (hthm.2.2.2.2 0 2 (by decide) (by decide)).2 _ hany⟩⟩

/-! ## The two swaps on adjacent positions -/

theorem swap_any_loop_pair {n : Nat} (rules : rule_table n) (x y : rulelist_entry_t n)
    (hx : x.captures ⊆ (rules x.rule_id).truthtable)
    (hy : y.captures ⊆ (rules y.rule_id).truthtable) :
    (ruleset_swap_any_loop rules [⟨y.rule_id, x.captures⟩, ⟨x.rule_id, y.captures⟩]
        (captures_union [x, y]) 0).1 =
      [⟨y.rule_id, y.captures ∪ (x.captures ∩ (rules y.rule_id).truthtable)⟩,
       ⟨x.rule_id, x.captures \
         (y.captures ∪ (x.captures ∩ (rules y.rule_id).truthtable))⟩] ∧
    (ruleset_swap_any_loop rules [⟨y.rule_id, x.captures⟩, ⟨x.rule_id, y.captures⟩]
        (captures_union [x, y]) 0).2.1 = ∅ ∧
    (ruleset_swap_any_loop rules [⟨y.rule_id, x.captures⟩, ⟨x.rule_id, y.captures⟩]
        (captures_union [x, y]) 0).2.2 = (captures_union [x, y]).card := by
  have hempty : (ruleset_swap_any_loop rules
      [⟨y.rule_id, x.captures⟩, ⟨x.rule_id, y.captures⟩] (captures_union [x, y]) 0).2.1 = ∅ := by
    simp only [ruleset_swap_any_loop, bit_vector_and_safe, bit_vector_and_not_safe,
      captures_union_cons, captures_union_nil]
    ext s
    have hxs := @hx s
    have hys := @hy s
    simp only [Finset.mem_sdiff, Finset.mem_inter, Finset.mem_union, Finset.not_mem_empty]
    tauto
  refine ⟨?_, hempty, ?_⟩
  · simp only [ruleset_swap_any_loop, bit_vector_and_safe, bit_vector_and_not_safe,
      captures_union_cons, captures_union_nil, List.cons.injEq, rulelist_entry_t.mk.injEq,
      true_and, and_true]
    constructor
    · ext s
      have hys := @hy s
      simp only [Finset.mem_inter, Finset.mem_union, Finset.not_mem_empty]
      tauto
    · ext s
      have hxs := @hx s
      have hys := @hy s
      simp only [Finset.mem_sdiff, Finset.mem_inter, Finset.mem_union, Finset.not_mem_empty]
      tauto
  · have hc := swap_any_loop_count rules
      [⟨y.rule_id, x.captures⟩, ⟨x.rule_id, y.captures⟩] (captures_union [x, y]) 0
    rw [hempty] at hc
    simpa using hc

theorem swap_eq_swap_any {n : Nat} (rules : rule_table n) (rs : rulelist_t n) (i : Nat)
    (hm : captures_matched rules rs.rules) (hi : i + 1 < rs.n_rules - 1) :
    ∃ rs' : rulelist_t n, ruleset_swap rs i (i + 1) rules = some rs' ∧
      ruleset_swap_any rs i (i + 1) rules = some rs' := by
  have hj : i + 1 < rs.n_rules := by unfold rulelist_t.n_rules at hi ⊢; omega
  obtain ⟨A, C, x, y, hL, hA, hC⟩ := adjacent_decomp rs.rules i hi
  have hany := swap_any_eq_of_lt rules rs i (i + 1) (Nat.lt_succ_self i) hj
  obtain ⟨al, L⟩ := rs
  simp only at hL hm
  subst hL hA
  refine ⟨_, swap_decomp rules al A C x y hC, ?_⟩
  have hx := hm x (by simp)
  have hy := hm y (by simp)
  obtain ⟨p1, p2, p3⟩ := swap_any_loop_pair rules x y hx hy
  have hsw := swap_any_sweep_decomp rules al A [] C x y
  simp only [List.nil_append, List.length_nil, Nat.add_zero] at hsw
  rw [hany, hsw]
  simp only [p1, p2, p3, bit_vector_n_ones, Finset.card_empty, and_self, if_true]
  simp

/-- C20: the two swap implementations agree on adjacent positions. For every
ruleset whose captures are pairwise disjoint and satisfy
`captures[k] ⊆ truthtable[rule_id[k]]`, and every `i` with
`i + 1 < n_rules - 1`, `ruleset_swap(rs, i, i+1, rules)` and
`ruleset_swap_any(rs, i, i+1, rules)` both return, and return the same
ruleset: the same rule id and the same captures at every position. -/
theorem ruleset_swap_agrees_with_swap_any {n : Nat} (rules : rule_table n)
    (rs : rulelist_t n) (i : Nat) (_hd : captures_disjoint rs.rules)
    (hm : captures_matched rules rs.rules) (hi : i + 1 < rs.n_rules - 1) :
    ∃ rs1 rs2 : rulelist_t n,
      ruleset_swap rs i (i + 1) rules = some rs1 ∧
      ruleset_swap_any rs i (i + 1) rules = some rs2 ∧
      rs1.rules = rs2.rules := by
  obtain ⟨rs', h1, h2⟩ := swap_eq_swap_any rules rs i hm hi
  exact ⟨rs', rs', h1, h2, rfl⟩

/-- C20 (witness): positions 0 and 1 of the ruleset
`[(1, {0}), (2, {2}), (3, ∅), (0, {1})]` on the four-sample table, which
satisfies neither full coverage nor the first-match invariant. -/
theorem ruleset_swap_agrees_with_swap_any_witness :
    captures_disjoint (⟨4, [⟨1, {0}⟩, ⟨2, {2}⟩, ⟨3, ∅⟩, ⟨0, {1}⟩]⟩ : rulelist_t 4).rules ∧
    captures_matched rules4
      (⟨4, [⟨1, {0}⟩, ⟨2, {2}⟩, ⟨3, ∅⟩, ⟨0, {1}⟩]⟩ : rulelist_t 4).rules ∧
    0 + 1 < (⟨4, [⟨1, {0}⟩, ⟨2, {2}⟩, ⟨3, ∅⟩, ⟨0, {1}⟩]⟩ : rulelist_t 4).n_rules - 1 ∧
    ∃ rs1 rs2 : rulelist_t 4,
      ruleset_swap ⟨4, [⟨1, {0}⟩, ⟨2, {2}⟩, ⟨3, ∅⟩, ⟨0, {1}⟩]⟩ 0 (0 + 1) rules4 = some rs1 ∧
      ruleset_swap_any ⟨4, [⟨1, {0}⟩, ⟨2, {2}⟩, ⟨3, ∅⟩, ⟨0, {1}⟩]⟩ 0 (0 + 1) rules4 =
        some rs2 ∧
      rs1.rules = rs2.rules :=
  ⟨by decide, by decide, by decide,
    ruleset_swap_agrees_with_swap_any rules4 ⟨4, [⟨1, {0}⟩, ⟨2, {2}⟩, ⟨3, ∅⟩, ⟨0, {1}⟩]⟩ 0
      (by decide) (by decide) (by decide)⟩

/-! ## `pick_random_rule` -/

theorem pick_loop_succ {n : Nat} (n_rules : Nat) (rs : rulelist_t n) (draws : Nat → Nat)
    (fuel cnt new_rule : Nat) :
    pick_random_rule_loop n_rules rs draws (fuel + 1) cnt new_rule =
      if rs.rules.any (fun e => e.rule_id ==
          (if cnt < MAX_TRIES then draws cnt else 1 + (new_rule % (n_rules - 2)))) then
        pick_random_rule_loop n_rules rs draws fuel (cnt + 1)
          (if cnt < MAX_TRIES then draws cnt else 1 + (new_rule % (n_rules - 2)))
      else some (if cnt < MAX_TRIES then draws cnt else 1 + (new_rule % (n_rules - 2))) := rfl

theorem any_rule_id_eq_false {n : Nat} (rs : rulelist_t n) (v : Nat)
    (h : ¬ rs.rules.any (fun e => e.rule_id == v) = true) :
    ∀ e ∈ rs.rules, e.rule_id ≠ v := by
  intro e he hev
  apply h
  rw [List.any_eq_true]
  exact ⟨e, he, by simp [hev]⟩

theorem any_rule_id_eq_true {n : Nat} (rs : rulelist_t n) (v : Nat)
    (h : rs.rules.any (fun e => e.rule_id == v) = true) :
    ∃ e ∈ rs.rules, e.rule_id = v := by
  rw [List.any_eq_true] at h
  obtain ⟨e, he, hev⟩ := h
  exact ⟨e, he, by simpa using hev⟩

theorem pick_loop_result {n : Nat} (n_rules : Nat) (rs : rulelist_t n) (draws : Nat → Nat)
    (hn : 3 ≤ n_rules) (hdraws : ∀ k : Nat, 1 ≤ draws k ∧ draws k ≤ n_rules - 1)
    (fuel cnt new_rule r : Nat)
    (h : pick_random_rule_loop n_rules rs draws fuel cnt new_rule = some r) :
    (1 ≤ r ∧ r ≤ n_rules - 1) ∧ ∀ e ∈ rs.rules, e.rule_id ≠ r := by
  induction fuel generalizing cnt new_rule with
  | zero => exact Option.noConfusion h
  | succ fuel ih =>
    rw [pick_loop_succ] at h
    by_cases hany : rs.rules.any (fun e => e.rule_id ==
        (if cnt < MAX_TRIES then draws cnt else 1 + (new_rule % (n_rules - 2)))) = true
    · rw [if_pos hany] at h
      exact ih _ _ h
    · rw [if_neg hany] at h
      have hr := Option.some.inj h
      rw [hr] at hany
      refine ⟨?_, any_rule_id_eq_false rs r hany⟩
      rw [← hr]
      by_cases hc : cnt < MAX_TRIES
      · rw [if_pos hc]; exact hdraws cnt
      · rw [if_neg hc]
        have hmod : new_rule % (n_rules - 2) < n_rules - 2 := Nat.mod_lt _ (by omega)
        omega

/-- C16: the result of `pick_random_rule`. For every `n_rules >= 3`, every
ruleset `rs` and every sequence of random draws with values in
`[1, n_rules-1]`, whenever `pick_random_rule(n_rules, rs)` returns, the
returned identifier lies in `[1, n_rules-1]` and differs from the `rule_id` of
every entry of `rs`. -/
theorem pick_random_rule_result {n : Nat} (n_rules : Nat) (rs : rulelist_t n)
    (draws : Nat → Nat) (fuel r : Nat) (hn : 3 ≤ n_rules)
    (hdraws : ∀ k : Nat, 1 ≤ draws k ∧ draws k ≤ n_rules - 1)
    (hret : pick_random_rule fuel n_rules rs draws = some r) :
    (1 ≤ r ∧ r ≤ n_rules - 1) ∧ ∀ e ∈ rs.rules, e.rule_id ≠ r :=
  pick_loop_result n_rules rs draws hn hdraws fuel 0 1 r hret

/-- C16 (witness): `n_rules = 5`, the ruleset of order `[1, 2, 0]`, and draws
all equal to 1: ten collisions, then the fallback goes from 1 to 2 and to 3,
which is returned. -/
theorem pick_random_rule_result_witness :
    3 ≤ 5 ∧ (∀ k : Nat, 1 ≤ (fun _ : Nat => 1) k ∧ (fun _ : Nat => 1) k ≤ 5 - 1) ∧
    pick_random_rule 13 5 rs_abd (fun _ => 1) = some 3 ∧
    (1 ≤ 3 ∧ 3 ≤ 5 - 1) ∧ ∀ e ∈ rs_abd.rules, e.rule_id ≠ 3 :=
  ⟨by decide, fun _ => ⟨by simp, by simp⟩, by decide,
    pick_random_rule_result 5 rs_abd (fun _ => 1) 13 3 (by decide)
      (fun _ => ⟨by simp, by simp⟩) (by decide)⟩

theorem pick_loop_stuck (fuel cnt : Nat) :
    pick_random_rule_loop 3 rs_ad (fun _ => 1) fuel cnt 1 = none := by
  induction fuel generalizing cnt with
  | zero => rfl
  | succ fuel ih =>
    rw [pick_loop_succ]
    have hval : (if cnt < MAX_TRIES then (fun _ : Nat => 1) cnt else 1 + (1 % (3 - 2))) = 1 := by
      by_cases hc : cnt < MAX_TRIES
      · rw [if_pos hc]
      · rw [if_neg hc]
    rw [hval]
    have hany : rs_ad.rules.any (fun e => e.rule_id == 1) = true := by decide
    rw [if_pos hany]
    exact ih (cnt + 1)

/-- C17 (the code at the failing input): with `n_rules = 3`, the ruleset of
order `[1, 0]` (identifier 2 of `[1, n_rules-1]` is absent) and random draws
all equal to 1, `pick_random_rule` does not return, whatever the number of
passes: after the ten collisions the fallback `1 + (new_rule % (n_rules - 2))`
stays at 1, which is in the ruleset. -/
theorem pick_random_rule_never_returns :
    3 ≤ 3 ∧ (1 ≤ 2 ∧ 2 ≤ 3 - 1) ∧ (∀ e ∈ rs_ad.rules, e.rule_id ≠ 2) ∧
    (∀ k : Nat, 1 ≤ (fun _ : Nat => 1) k ∧ (fun _ : Nat => 1) k ≤ 3 - 1) ∧
    ∀ fuel : Nat, pick_random_rule fuel 3 rs_ad (fun _ => 1) = none :=
  ⟨by decide, by decide, by decide, fun _ => ⟨by simp, by simp⟩,
    fun fuel => pick_loop_stuck fuel 0⟩

theorem pick_loop_fallback_returns {n : Nat} (n_rules : Nat) (rs : rulelist_t n)
    (draws : Nat → Nat) (a : Nat) (_hn : 3 ≤ n_rules) (ha : 1 ≤ a ∧ a ≤ n_rules - 2)
    (habs : ∀ e ∈ rs.rules, e.rule_id ≠ a) (d cnt new_rule : Nat) (hcnt : MAX_TRIES ≤ cnt)
    (hd : (if 1 + (new_rule % (n_rules - 2)) ≤ a then a - (1 + (new_rule % (n_rules - 2)))
        else a + (n_rules - 2) - (1 + (new_rule % (n_rules - 2)))) ≤ d) :
    ∃ r : Nat, pick_random_rule_loop n_rules rs draws (d + 1) cnt new_rule = some r := by
  induction d generalizing cnt new_rule with
  | zero =>
    rw [pick_loop_succ, if_neg (Nat.not_lt.2 hcnt)]
    have hmod : new_rule % (n_rules - 2) < n_rules - 2 := Nat.mod_lt _ (by omega)
    have hv : 1 + (new_rule % (n_rules - 2)) = a := by
      split at hd <;> omega
    rw [hv]
    by_cases hany : rs.rules.any (fun e => e.rule_id == a) = true
    · obtain ⟨e, he, hea⟩ := any_rule_id_eq_true rs a hany
      exact absurd hea (habs e he)
    · rw [if_neg hany]; exact ⟨a, rfl⟩
  | succ d ih =>
    rw [pick_loop_succ, if_neg (Nat.not_lt.2 hcnt)]
    have hmod : new_rule % (n_rules - 2) < n_rules - 2 := Nat.mod_lt _ (by omega)
    generalize hvdef : 1 + (new_rule % (n_rules - 2)) = v at hd ⊢
    by_cases hany : rs.rules.any (fun e => e.rule_id == v) = true
    · rw [if_pos hany]
      obtain ⟨e, he, hev⟩ := any_rule_id_eq_true rs v hany
      have hva : v ≠ a := fun h => habs e he (hev.trans h)
      apply ih (cnt + 1) v (Nat.le_succ_of_le hcnt)
      by_cases hvm : v < n_rules - 2
      · rw [Nat.mod_eq_of_lt hvm]
        split at hd <;> split <;> omega
      · have hveq : v = n_rules - 2 := by omega
        rw [hveq, Nat.mod_self]
        rw [hveq] at hd hva
        split at hd <;> split <;> omega
    · rw [if_neg hany]; exact ⟨v, rfl⟩

theorem pick_loop_random_returns {n : Nat} (n_rules : Nat) (rs : rulelist_t n)
    (draws : Nat → Nat) (a : Nat) (hn : 3 ≤ n_rules) (ha : 1 ≤ a ∧ a ≤ n_rules - 2)
    (habs : ∀ e ∈ rs.rules, e.rule_id ≠ a) (k cnt new_rule : Nat)
    (hcnt : cnt + k = MAX_TRIES) :
    ∃ r : Nat,
      pick_random_rule_loop n_rules rs draws (k + (n_rules - 2)) cnt new_rule = some r := by
  induction k generalizing cnt new_rule with
  | zero =>
    have hfuel : 0 + (n_rules - 2) = (n_rules - 3) + 1 := by omega
    rw [hfuel]
    apply pick_loop_fallback_returns n_rules rs draws a hn ha habs (n_rules - 3) cnt new_rule
      (by omega)
    have hmod : new_rule % (n_rules - 2) < n_rules - 2 := Nat.mod_lt _ (by omega)
    split <;> omega
  | succ k ih =>
    have hfuel : k + 1 + (n_rules - 2) = (k + (n_rules - 2)) + 1 := by omega
    have hlt : cnt < MAX_TRIES := by omega
    rw [hfuel, pick_loop_succ, if_pos hlt]
    by_cases hany : rs.rules.any (fun e => e.rule_id == draws cnt) = true
    · rw [if_pos hany]
      exact ih (cnt + 1) (draws cnt) (by omega)
    · rw [if_neg hany]; exact ⟨_, rfl⟩

/-- What holds of the termination of `pick_random_rule`: for every
`n_rules >= 3`, every ruleset in which at least one identifier of
`[1, n_rules-2]` is absent and every sequence of random draws,
`pick_random_rule` returns within `MAX_TRIES + (n_rules - 2)` passes. -/
theorem pick_random_rule_returns_of_absent_below {n : Nat} (n_rules : Nat)
    (rs : rulelist_t n) (draws : Nat → Nat) (a : Nat) (hn : 3 ≤ n_rules)
    (ha : 1 ≤ a ∧ a ≤ n_rules - 2) (habs : ∀ e ∈ rs.rules, e.rule_id ≠ a) :
    ∃ r : Nat, pick_random_rule (MAX_TRIES + (n_rules - 2)) n_rules rs draws = some r :=
  pick_loop_random_returns n_rules rs draws a hn ha habs MAX_TRIES 0 1 (by omega)

end Rulelib
